import Mathlib

/-! # madfuload: descriptor scanner and DFU download session

A shallow embedding of `madfuload.c`.  The process-wide globals, the usbfs
device file (descriptor bytes plus file offset) and the replies of the kernel
are gathered in one `State` that every function threads explicitly.  Calls
on the device are appended to `State.ops`, warnings to `State.warnings`;
`fatal` (which calls `exit(1)`) is the `Status.fatal` result, after which no
caller continues.

`main` is modelled from the point where `getopt_long` has split the command
line into options; `load_firmware` sees the firmware file through the
answers of the file system (`FirmwareFile`).

Conventions for machine integers:
* `u_int8_t` is `Fin 256`;
* `unsigned short` parameters and `unsigned short block` are `Nat` reduced
  `% 65536` where the C code converts or increments;
* `int` values that the code keeps non-negative (`pos`, `length`,
  `transfer_size`, `interface`, `firmware_length`) are `Nat`; the one signed
  addition that can leave the range of `int`, `pos += transfer_size`, is
  checked against `INT_MAX` and reported as `Status.undefined`.
-/

namespace Madfu

/-- The C type `u_int8_t`. -/
abbrev Byte := Fin 256

/-! ## Constants of the source -/

def USB_DIR_OUT : Nat := 0
def USB_DIR_IN : Nat := 0x80
def USB_TYPE_CLASS : Nat := 0x01 <<< 5
def USB_RECIP_INTERFACE : Nat := 0x01
def USB_DT_INTERFACE : Nat := 0x04
def USB_CLASS_APP_SPEC : Nat := 0xfe
def USB_SUBCLASS_DFU : Nat := 0x01
def USB_DT_DFU_FUNCTIONAL : Nat := 0x21
def DFU_DNLOAD : Nat := 1
def DFU_GETSTATUS : Nat := 3
def WAIT_STANDARD : Nat := 0
def WAIT_IGNORE : Nat := 1
def WAIT_BYTE3 : Nat := 2
/-- Largest value of the C type `int` (32 bits). -/
def INT_MAX : Nat := 2147483647

/-! ## Data model -/

/-- The C `struct dfu_status`: the six bytes of a GETSTATUS response. -/
structure dfu_status where
  bStatus : Byte
  bwPollTimeout : Fin 3 → Byte
  bState : Byte
  iString : Byte

/-- The C `struct usbdevfs_ctrltransfer`; `data` holds the bytes the kernel
sends from the buffer for a host-to-device transfer (the first `wLength`
bytes at the pointer), and is empty for a device-to-host transfer. -/
structure usbdevfs_ctrltransfer where
  bRequestType : Nat
  bRequest : Nat
  wValue : Nat
  wIndex : Nat
  wLength : Nat
  timeout : Nat
  data : List Byte
deriving DecidableEq

/-- What one system call on the device gives back: its return value and,
for a GETSTATUS transfer, the contents of the status buffer afterwards. -/
structure Reply where
  ret : Int
  status : dfu_status

/-- Calls on the device, in the order issued.  A `control` entry is one call
of `usb_control`: it carries the return values of the `ioctl` attempts that
call made, oldest first. -/
inductive Op where
  | open (ret : Int)
  | claim_interface (number : Nat) (ret : Int)
  | control (ct : usbdevfs_ctrltransfer) (rets : List Int)
  | nanosleep (tv_sec tv_nsec : Nat) (ret : Int)
  | reset (ret : Int)
  | close
deriving DecidableEq

/-- The messages of `fatal(...)`. -/
inductive Fatal where
  | cannot_open
  | invalid_transfer_size (size : Nat)
  | cannot_claim_interface (number : Nat)
  | downloading_block_failed (block : Nat)
  | cannot_get_device_status
  | sleep_failed
deriving DecidableEq

/-- The messages of `warning(...)`. -/
inductive Warning where
  | control_transfer_failed
  | cannot_reset_device
deriving DecidableEq

/-- How a function ends: it returns (`ok`), the process exits through
`fatal`, a signed addition overflows (`undefined`), or the model of a loop
ran out of fuel. -/
inductive Status where
  | ok
  | fatal (f : Fatal)
  | undefined
  | outOfFuel
deriving DecidableEq

/-- Result of one loop iteration: go round again with a new loop-carried
value, or leave the function with a status. -/
inductive Flow (α : Type) where
  | next (a : α)
  | stop (st : Status)

/-- The globals of the program together with the device file and the kernel.
`sys n` is the reply to the `n`-th system call made on the device (counted
by `clock`). -/
structure State where
  wait_type : Nat
  firmware : List Byte
  interface : Nat
  transfer_size : Nat
  descriptors : List Byte
  offset : Nat
  sys : Nat → Reply
  clock : Nat
  ops : List Op
  warnings : List Warning

/-- The global `firmware_length`: `load_firmware` leaves it equal to the
number of bytes held in `firmware`. -/
def State.firmware_length (s : State) : Nat := s.firmware.length

/-- The bytes of the device file that lie at and after the file offset. -/
def State.rest (s : State) : List Byte := s.descriptors.drop s.offset

/-- The zeroed status buffer used for values that are never read. -/
def dfu_status.zero : dfu_status :=
  { bStatus := 0, bwPollTimeout := fun _ => 0, bState := 0, iString := 0 }

/-- The state at the start of `main`, with the static initialisers of the
source: `interface` is zero-initialised and `transfer_size = 64`. -/
def State.init (wait_type : Nat) (firmware descriptors : List Byte)
    (sys : Nat → Reply) : State :=
  { wait_type := wait_type, firmware := firmware, interface := 0,
    transfer_size := 64, descriptors := descriptors, offset := 0,
    sys := sys, clock := 0, ops := [], warnings := [] }

/-! ## System calls -/

/-- The C call `read(device, buf, count)`: the bytes obtained (fewer than
`count` at the end of the file); the offset moves past them. -/
def read (count : Nat) (s : State) : List Byte × State :=
  let got := s.rest.take count
  (got, { s with offset := s.offset + got.length })

/-- The C call `lseek(device, k, SEEK_CUR)` with `k > 0`: the offset moves
forward, also past the end of the file; `none` stands for `(off_t)-1`,
which a forward relative seek does not produce. -/
def lseek_cur (k : Nat) (s : State) : Option State :=
  some { s with offset := s.offset + k }

/-- One system call on the device: take the next reply of the kernel. -/
def syscall (s : State) : Reply × State :=
  (s.sys s.clock, { s with clock := s.clock + 1 })

/-- Append a call to the trace. -/
def State.log (s : State) (op : Op) : State := { s with ops := s.ops ++ [op] }

/-- The C function `warning`. -/
def warning (w : Warning) (s : State) : State :=
  { s with warnings := s.warnings ++ [w] }

/-! ## usb_control, usb_claim_interface, usb_reset -/

/-- The retry loop of `usb_control`, `left = 3 - retries`: returns the last
value of `err` and the return values of the attempts made. -/
def usb_control_loop : Nat → Reply → List Int → State → Reply × List Int × State
  | 0, err, rets, s => (err, rets, s)
  | left + 1, _, rets, s =>
    match syscall s with
    | (err, s1) =>
      if 0 ≤ err.ret then (err, rets ++ [err.ret], s1)
      else usb_control_loop left err (rets ++ [err.ret])
        (warning .control_transfer_failed s1)

/-- The C function `usb_control`.  The parameters are converted to
`unsigned char` and `unsigned short`; `data` is the memory at the buffer
pointer.  The initial `err` is never returned: the loop body runs at least
once. -/
def usb_control (request_type request value index length : Nat)
    (data : List Byte) (s : State) : Reply × State :=
  let wLength := length % 65536
  let ct : usbdevfs_ctrltransfer :=
    { bRequestType := request_type % 256, bRequest := request % 256,
      wValue := value % 65536, wIndex := index % 65536, wLength := wLength,
      timeout := 500,
      data := if (request_type % 256) &&& USB_DIR_IN = 0 then data.take wLength else [] }
  match usb_control_loop 3 ⟨0, dfu_status.zero⟩ [] s with
  | (err, rets, s1) => (err, s1.log (.control ct rets))

/-- The C function `usb_claim_interface`. -/
def usb_claim_interface (number : Nat) (s : State) : Int × State :=
  match syscall s with
  | (r, s1) => (r.ret, s1.log (.claim_interface number r.ret))

/-- The C function `usb_reset`. -/
def usb_reset (s : State) : Int × State :=
  match syscall s with
  | (r, s1) => (r.ret, s1.log (.reset r.ret))

/-- The C call `nanosleep(&tv, NULL)`. -/
def nanosleep (tv_sec tv_nsec : Nat) (s : State) : Int × State :=
  match syscall s with
  | (r, s1) => (r.ret, s1.log (.nanosleep tv_sec tv_nsec r.ret))

/-! ## parse_descriptors -/

/-- The tail of the loop body of `parse_descriptors`: skip the rest of the
descriptor, then go round again. -/
def skip_rest (bLength : Nat) (interface_found : Bool) (s : State) :
    Flow Bool × State :=
  if bLength > 2 then
    match lseek_cur (bLength - 2) s with
    | none => (.stop .ok, s)
    | some s1 => (.next interface_found, s1)
  else (.next interface_found, s)

/-- One iteration of the `for (;;)` loop of `parse_descriptors`. -/
def parse_iteration (interface_found : Bool) (s : State) : Flow Bool × State :=
  match read 2 s with
  | ([bLength, bDescriptorType], s1) =>
    if bLength.val < 2 then (.stop .ok, s1)
    else if bDescriptorType.val = USB_DT_INTERFACE ∧ bLength.val ≥ 9 then
      match read 7 s1 with
      | ([d0, _, _, d3, d4, _, _], s2) =>
        if d3.val = USB_CLASS_APP_SPEC ∧ d4.val = USB_SUBCLASS_DFU then
          skip_rest ((bLength.val + 256 - 7) % 256) true
            { s2 with interface := d0.val }
        else
          skip_rest ((bLength.val + 256 - 7) % 256) false s2
      | (_, s2) => (.stop .ok, s2)
    else if bDescriptorType.val = USB_DT_DFU_FUNCTIONAL ∧ bLength.val ≥ 7
        ∧ interface_found = true then
      match read 5 s1 with
      | ([_, _, _, d3, d4], s2) =>
        let s3 := { s2 with transfer_size := d3.val ||| (d4.val <<< 8) }
        if s3.transfer_size < 1 then
          (.stop (.fatal (.invalid_transfer_size s3.transfer_size)), s3)
        else
          skip_rest ((bLength.val + 256 - 5) % 256) interface_found s3
      | (_, s2) => (.stop .ok, s2)
    else skip_rest bLength.val interface_found s1
  | (_, s1) => (.stop .ok, s1)

/-- The `for (;;)` loop of `parse_descriptors`, bounded by `fuel`
iterations. -/
def parse_loop : Nat → Bool → State → Status × State
  | 0, _, s => (.outOfFuel, s)
  | fuel + 1, interface_found, s =>
    match parse_iteration interface_found s with
    | (.stop st, s1) => (st, s1)
    | (.next found, s1) => parse_loop fuel found s1

/-- The C function `parse_descriptors`.  Every iteration that goes round
again has read a two-byte header, so half the length of the file plus one
bounds the number of iterations. -/
def parse_descriptors (s : State) : Status × State :=
  parse_loop (s.descriptors.length / 2 + 1) false s

/-! ## The download session -/

/-- The C function `dfu_dnload`; `buf` is the memory at the pointer. -/
def dfu_dnload (buf : List Byte) (length block : Nat) (s : State) : Status × State :=
  match usb_control (USB_TYPE_CLASS ||| USB_RECIP_INTERFACE ||| USB_DIR_OUT)
      DFU_DNLOAD block s.interface length buf s with
  | (err, s1) =>
    if err.ret < 0 then (.fatal (.downloading_block_failed block), s1)
    else (.ok, s1)

/-- The C function `dfu_status_wait`. -/
def dfu_status_wait (s : State) : Status × State :=
  match usb_control (USB_TYPE_CLASS ||| USB_RECIP_INTERFACE ||| USB_DIR_IN)
      DFU_GETSTATUS 0 s.interface 6 [] s with
  | (err, s1) =>
    if err.ret < 0 then (.fatal .cannot_get_device_status, s1)
    else
      let wait : Nat :=
        if s1.wait_type = WAIT_BYTE3 then (err.status.bwPollTimeout 2).val else 0
      if wait > 0 then
        match nanosleep (wait / 1000) ((wait % 1000) * 1000000) s1 with
        | (r, s2) => if r = -1 then (.fatal .sleep_failed, s2) else (.ok, s2)
      else (.ok, s1)

/-- The `for (pos = 0; pos < firmware_length; pos += transfer_size)` loop of
`download_firmware`, bounded by `fuel` iterations; returns the final value
of `block` as well. -/
def download_loop : Nat → Nat → Nat → State → Status × Nat × State
  | 0, _, block, s => (.outOfFuel, block, s)
  | fuel + 1, pos, block, s =>
    if pos < s.firmware_length then
      let length :=
        if s.firmware_length - pos > s.transfer_size then s.transfer_size
        else s.firmware_length - pos
      match dfu_dnload (s.firmware.drop pos) length block s with
      | (.ok, s1) =>
        let block1 := (block + 1) % 65536
        match dfu_status_wait s1 with
        | (.ok, s2) =>
          if pos + s2.transfer_size > INT_MAX then (.undefined, block1, s2)
          else download_loop fuel (pos + s2.transfer_size) block1 s2
        | (st, s2) => (st, block1, s2)
      | (st, s1) => (st, block, s1)
    else (.ok, block, s)

/-- The C function `download_firmware`.  With `transfer_size ≥ 1` the loop
makes at most `firmware_length` iterations. -/
def download_firmware (s : State) : Status × State :=
  match syscall s with
  | (r, s0) =>
    let s1 := s0.log (.open r.ret)
    if r.ret = -1 then (.fatal .cannot_open, s1)
    else
      match parse_descriptors s1 with
      | (.ok, s2) =>
        match usb_claim_interface s2.interface s2 with
        | (e, s3) =>
          if e = -1 then (.fatal (.cannot_claim_interface s2.interface), s3)
          else
            match download_loop (s3.firmware_length + 1) 0 0 s3 with
            | (.ok, block, s4) =>
              match dfu_dnload s4.firmware 0 block s4 with
              | (.ok, s5) =>
                match dfu_status_wait s5 with
                | (.ok, s6) =>
                  match usb_reset s6 with
                  | (e2, s7) =>
                    let s8 :=
                      if e2 = -1 then warning .cannot_reset_device s7 else s7
                    (.ok, s8.log .close)
                | (st, s6) => (st, s6)
              | (st, s5) => (st, s5)
            | (st, _, s4) => (st, s4)
      | (st, s2) => (st, s2)

/-! ## Descriptor vocabulary and the scanner as a fold -/

/-- Byte `i` of a descriptor as a number (0 when absent). -/
def byteAt (d : List Byte) (i : Nat) : Nat := (d.getD i 0).val

/-- A complete descriptor: `bLength ≥ 2` and exactly `bLength` bytes long. -/
def WellFormed (d : List Byte) : Prop := 2 ≤ d.length ∧ byteAt d 0 = d.length

/-- An interface descriptor as the scanner recognises it. -/
def isInterface (d : List Byte) : Prop := byteAt d 1 = USB_DT_INTERFACE ∧ 9 ≤ byteAt d 0

/-- Class and subclass bytes of an interface descriptor are 0xFE / 0x01. -/
def isDfuClass (d : List Byte) : Prop :=
  byteAt d 5 = USB_CLASS_APP_SPEC ∧ byteAt d 6 = USB_SUBCLASS_DFU

/-- A DFU functional descriptor as the scanner recognises it. -/
def isFunctional (d : List Byte) : Prop :=
  byteAt d 1 = USB_DT_DFU_FUNCTIONAL ∧ 7 ≤ byteAt d 0

/-- The little-endian `wTransferSize` field of a functional descriptor. -/
def wTransferSize (d : List Byte) : Nat := byteAt d 5 + 256 * byteAt d 6

instance (d : List Byte) : Decidable (WellFormed d) := by unfold WellFormed; infer_instance

instance (d : List Byte) : Decidable (isInterface d) := by unfold isInterface; infer_instance

instance (d : List Byte) : Decidable (isDfuClass d) := by unfold isDfuClass; infer_instance

instance (d : List Byte) : Decidable (isFunctional d) := by unfold isFunctional; infer_instance

/-- The seven ways one iteration of the scanner can go, read off the bytes at
the file offset. -/
inductive Iter (found : Bool) (s : State) : Flow Bool × State → Prop
  | eof (h : s.rest.length < 2) :
      Iter found s (.stop .ok, { s with offset := s.offset + s.rest.length })
  | badlen (a b : Byte) (t : List Byte) (h : s.rest = a :: b :: t) (ha : a.val < 2) :
      Iter found s (.stop .ok, { s with offset := s.offset + 2 })
  | iface (a b d0 d1 d2 d3 d4 d5 d6 : Byte) (t : List Byte)
      (h : s.rest = a :: b :: d0 :: d1 :: d2 :: d3 :: d4 :: d5 :: d6 :: t)
      (hb : b.val = USB_DT_INTERFACE) (ha : 9 ≤ a.val) :
      Iter found s
        (.next (decide (d3.val = USB_CLASS_APP_SPEC ∧ d4.val = USB_SUBCLASS_DFU)),
          { s with offset := s.offset + a.val,
                   interface := if d3.val = USB_CLASS_APP_SPEC ∧ d4.val = USB_SUBCLASS_DFU
                     then d0.val else s.interface })
  | iface_short (a b : Byte) (t : List Byte) (h : s.rest = a :: b :: t)
      (hb : b.val = USB_DT_INTERFACE) (ha : 9 ≤ a.val) (ht : t.length < 7) :
      Iter found s (.stop .ok, { s with offset := s.offset + 2 + t.length })
  | func (a b d0 d1 d2 d3 d4 : Byte) (t : List Byte) (hfound : found = true)
      (h : s.rest = a :: b :: d0 :: d1 :: d2 :: d3 :: d4 :: t)
      (hb : b.val = USB_DT_DFU_FUNCTIONAL) (ha : 7 ≤ a.val) :
      Iter found s
        (if d3.val + 256 * d4.val < 1 then
          (.stop (.fatal (.invalid_transfer_size (d3.val + 256 * d4.val))),
            { s with offset := s.offset + 7, transfer_size := d3.val + 256 * d4.val })
        else
          (.next true,
            { s with offset := s.offset + a.val, transfer_size := d3.val + 256 * d4.val }))
  | func_short (a b : Byte) (t : List Byte) (hfound : found = true)
      (h : s.rest = a :: b :: t)
      (hb : b.val = USB_DT_DFU_FUNCTIONAL) (ha : 7 ≤ a.val) (ht : t.length < 5) :
      Iter found s (.stop .ok, { s with offset := s.offset + 2 + t.length })
  | other (a b : Byte) (t : List Byte) (h : s.rest = a :: b :: t) (ha : 2 ≤ a.val)
      (hi : ¬ (b.val = USB_DT_INTERFACE ∧ 9 ≤ a.val))
      (hf : ¬ (b.val = USB_DT_DFU_FUNCTIONAL ∧ 7 ≤ a.val ∧ found = true)) :
      Iter found s (.next found, { s with offset := s.offset + a.val })

/-- What the scanner never touches. -/
def State.sameWorld (s s' : State) : Prop :=
  s'.descriptors = s.descriptors ∧ s'.ops = s.ops ∧ s'.clock = s.clock ∧ s'.sys = s.sys ∧
  s'.firmware = s.firmware ∧ s'.wait_type = s.wait_type ∧ s'.warnings = s.warnings

/-- What the scanner carries from one descriptor to the next: the
inside-target-interface flag, the interface number and the transfer size. -/
structure Scan where
  found : Bool
  interface : Nat
  transfer_size : Nat
deriving DecidableEq

/-- The effect of one complete descriptor as section 4.1 of the specification
words it; `none` is the fatal configuration error. -/
def spec_scan_descriptor (d : List Byte) (a : Scan) : Option Scan :=
  if isInterface d then
    if isDfuClass d then some ⟨true, byteAt d 2, a.transfer_size⟩
    else some ⟨false, a.interface, a.transfer_size⟩
  else if isFunctional d ∧ a.found = true then
    if wTransferSize d < 1 then none
    else some ⟨true, a.interface, wTransferSize d⟩
  else some a

/-- The effect of a sequence of complete descriptors. -/
def spec_scan : List (List Byte) → Scan → Option Scan
  | [], a => some a
  | d :: ds, a =>
    match spec_scan_descriptor d a with
    | none => none
    | some a1 => spec_scan ds a1

/-- The bytes `r` at a descriptor boundary begin an interface descriptor of
the DFU class that the scanner takes in: header and seven body bytes are
present, type 0x04, `bLength ≥ 9`, class 0xFE, subclass 0x01. -/
def startsDfuInterface (r : List Byte) : Prop :=
  9 ≤ r.length ∧ isInterface r ∧ isDfuClass r

instance (r : List Byte) : Decidable (startsDfuInterface r) := by
  unfold startsDfuInterface; infer_instance

/-- No descriptor boundary of the stream begins a DFU-class interface
descriptor.  The boundaries are the positions reached from the start by
stepping over complete descriptors. -/
def NoDfuInterface (stream : List Byte) : Prop :=
  ∀ (ds : List (List Byte)) (rest : List Byte), stream = ds.flatten ++ rest →
    (∀ d ∈ ds, WellFormed d) → ¬ startsDfuInterface rest

/-- The transport reported failure for this transfer: the entry is a call of
`usb_control` whose last attempt, the value it returns, is negative. -/
def Op.transferFailed : Op → Prop
  | .control _ rets =>
    match rets.getLast? with
    | some r => r < 0
    | none => False
  | _ => False

/-- The call succeeded in the sense the caller tests: a control transfer
returned `≥ 0`; `open`, `claim_interface` and `nanosleep` did not return
`-1`.  The results of `reset` and `close` are not tested for fatality. -/
def Op.ok : Op → Prop
  | .open ret => ret ≠ -1
  | .claim_interface _ ret => ret ≠ -1
  | .control _ rets =>
    match rets.getLast? with
    | some r => 0 ≤ r
    | none => False
  | .nanosleep _ _ ret => ret ≠ -1
  | .reset _ => True
  | .close => True

instance (op : Op) : Decidable op.transferFailed := by
  cases op <;> simp only [Op.transferFailed] <;> try infer_instance
  split <;> infer_instance

instance (op : Op) : Decidable op.ok := by
  cases op <;> simp only [Op.ok] <;> try infer_instance
  split <;> infer_instance

/-- From `s` to `s'` the calls `new` were issued, the only warnings added
are those of failed transfer attempts, and no global of the program other
than the trace, the warnings and the reply counter changed. -/
def Extends (s s' : State) (new : List Op) : Prop :=
  s'.ops = s.ops ++ new ∧ s'.interface = s.interface ∧
  s'.transfer_size = s.transfer_size ∧ s'.firmware = s.firmware ∧
  s'.wait_type = s.wait_type ∧ s'.sys = s.sys ∧ s'.descriptors = s.descriptors ∧
  s'.offset = s.offset ∧
  ∃ k, s'.warnings = s.warnings ++ List.replicate k Warning.control_transfer_failed

/-- The session stopped at a failing call: a fatal error, the failing call
is the last one issued, and every call before it succeeded. -/
def Fails (st : Status) (new : List Op) : Prop :=
  ∃ f pre last, st = .fatal f ∧ new = pre ++ [last] ∧ (∀ op ∈ pre, op.ok) ∧ ¬ last.ok

/-- The `usbdevfs_ctrltransfer` that `usb_control` fills in. -/
def control_ct (request_type request value index length : Nat) (data : List Byte) :
    usbdevfs_ctrltransfer :=
  { bRequestType := request_type % 256, bRequest := request % 256,
    wValue := value % 65536, wIndex := index % 65536, wLength := length % 65536,
    timeout := 500,
    data := if (request_type % 256) &&& USB_DIR_IN = 0
      then data.take (length % 65536) else [] }

/-- The `usbdevfs_ctrltransfer` that `dfu_dnload` hands to the kernel. -/
def dnload_ct (number block length : Nat) (buf : List Byte) : usbdevfs_ctrltransfer :=
  { bRequestType := 0x21, bRequest := 1, wValue := block % 65536,
    wIndex := number % 65536, wLength := length % 65536, timeout := 500,
    data := buf.take (length % 65536) }

/-- The `usbdevfs_ctrltransfer` that `dfu_status_wait` hands to the kernel. -/
def getstatus_ct (number : Nat) : usbdevfs_ctrltransfer :=
  { bRequestType := 0xA1, bRequest := 3, wValue := 0,
    wIndex := number % 65536, wLength := 6, timeout := 500, data := [] }

/-- The DNLOAD transfers of a trace, in the order issued. -/
def dnloads : List Op → List usbdevfs_ctrltransfer
  | [] => []
  | .control ct _ :: ops =>
    if ct.bRequestType = 0x21 ∧ ct.bRequest = DFU_DNLOAD then ct :: dnloads ops
    else dnloads ops
  | _ :: ops => dnloads ops

/-- The sleeps of a trace as `(tv_sec, tv_nsec)`, in the order issued. -/
def sleeps : List Op → List (Nat × Nat)
  | [] => []
  | .nanosleep tv_sec tv_nsec _ :: ops => (tv_sec, tv_nsec) :: sleeps ops
  | _ :: ops => sleeps ops

/-- Every reply of the kernel is a success. -/
def AllSucceed (s : State) : Prop := ∀ n, 0 ≤ (s.sys n).ret

/-- The calls issued from `s` to `s'` either all succeeded, or the run ended
in a fatal error at the first call that did not. -/
def Shape (s : State) (st : Status) (s' : State) : Prop :=
  ∃ new, Extends s s' new ∧
    (Fails st new ∨ ∀ op ∈ new, op.ok) ∧ (AllSucceed s → ∀ op ∈ new, op.ok)

/-- The `k`-th chunk transfer (counting from 0) of a download loop that
starts at `pos` with block counter `block`. -/
def chunk_ct (number T : Nat) (F : List Byte) (pos block k : Nat) : usbdevfs_ctrltransfer :=
  dnload_ct number ((block + k) % 65536) (min T (F.length - (pos + k * T)))
    (F.drop (pos + k * T))

/-- The first `n` chunk transfers of such a loop. -/
def expected_chunks (number T : Nat) (F : List Byte) (pos block n : Nat) :
    List usbdevfs_ctrltransfer :=
  (List.range n).map (chunk_ct number T F pos block)

/-- The statements of `download_firmware` that follow `parse_descriptors`:
claim the interface, run the download loop, send the terminating block,
reset and close. -/
def download_session (s2 : State) : Status × State :=
  match usb_claim_interface s2.interface s2 with
  | (e, s3) =>
    if e = -1 then (.fatal (.cannot_claim_interface s2.interface), s3)
    else
      match download_loop (s3.firmware_length + 1) 0 0 s3 with
      | (.ok, block, s4) =>
        match dfu_dnload s4.firmware 0 block s4 with
        | (.ok, s5) =>
          match dfu_status_wait s5 with
          | (.ok, s6) =>
            match usb_reset s6 with
            | (e2, s7) =>
              let s8 :=
                if e2 = -1 then warning .cannot_reset_device s7 else s7
              (.ok, s8.log .close)
          | (st, s6) => (st, s6)
        | (st, s5) => (st, s5)
      | (st, _, s4) => (st, s4)

/-- The number of chunks `⌈L / T⌉` written the way integer division gives it. -/
def chunk_count (L T : Nat) : Nat := (L + T - 1) / T

/-- The state once `download_firmware` has opened the device file. -/
def after_open (s : State) : State :=
  ({ s with clock := s.clock + 1 } : State).log (.open (s.sys s.clock).ret)

/-- A kernel whose every reply is the success value 0 and whose status
responses carry 5 in the third poll-timeout byte. -/
def sys_ok : Nat → Reply :=
  fun _ => ⟨0, { bStatus := 0, bwPollTimeout := fun i => if i = 2 then 5 else 0,
                 bState := 5, iString := 0 }⟩

/-- A kernel that succeeds except at the system calls numbered `n` and
later. -/
def sys_fail_from (n : Nat) : Nat → Reply :=
  fun k => if n ≤ k then ⟨-1, dfu_status.zero⟩ else ⟨0, dfu_status.zero⟩

/-- A kernel that succeeds except at the system call numbered `n`. -/
def sys_fail_at (n : Nat) : Nat → Reply :=
  fun k => if k = n then ⟨-1, dfu_status.zero⟩ else ⟨0, dfu_status.zero⟩

/-- The reply to the GETSTATUS transfer that `dfu_status_wait` issues in
state `s`: return value and six-byte status response. -/
def getstatus_reply (s : State) : Reply :=
  (usb_control (USB_TYPE_CLASS ||| USB_RECIP_INTERFACE ||| USB_DIR_IN)
    DFU_GETSTATUS 0 s.interface 6 [] s).1

/-! ## Iteration count, scan results and trace shapes -/

/-- The number of iterations the `for (;;)` loop of `parse_descriptors`
starts when it is allowed `fuel` of them: the loop of `parse_loop` with a
counter. -/
def parse_loop_count : Nat → Bool → State → Nat
  | 0, _, _ => 0
  | fuel + 1, interface_found, s =>
    match parse_iteration interface_found s with
    | (.stop _, _) => 1
    | (.next found, s1) => parse_loop_count fuel found s1 + 1

/-- What a run of the scanner leaves to its caller: how it ended, the
interface number and the transfer size. -/
def scan_result (r : Status × State) : Status × Nat × Nat :=
  (r.1, r.2.interface, r.2.transfer_size)

/-- The result of scanning a sequence of complete descriptors and then
reaching the end of the stream, as a fold. -/
def spec_scan_result : List (List Byte) → Scan → Status × Nat × Nat
  | [], a => (.ok, a.interface, a.transfer_size)
  | d :: ds, a =>
    match spec_scan_descriptor d a with
    | none => (.fatal (.invalid_transfer_size 0), a.interface, 0)
    | some a1 => spec_scan_result ds a1

/-- The most recent interface descriptor (type 0x04, `bLength ≥ 9`) among
the descriptors `ds`, if there is one. -/
def last_interface (ds : List (List Byte)) : Option (List Byte) :=
  ds.reverse.find? (fun d => decide (isInterface d))

/-- The most recent interface descriptor among `ds` has class 0xFE and
subclass 0x01 (false when `ds` holds no interface descriptor). -/
def insideTarget (ds : List (List Byte)) : Prop :=
  match last_interface ds with
  | some d => isDfuClass d
  | none => False

instance (ds : List (List Byte)) : Decidable (insideTarget ds) := by
  unfold insideTarget
  split <;> infer_instance

/-- The state of the scanner once it has gone over `n` more bytes and holds
the accumulated values `a`. -/
def State.scanned (s : State) (n : Nat) (a : Scan) : State :=
  { s with offset := s.offset + n, interface := a.interface,
           transfer_size := a.transfer_size }

/-- The transfer `ct` carries a chunk of the download loop for firmware
length `L` and transfer size `T`: its `wLength` is the `int length` the loop
computed at some cursor position `p < L`, not reduced by the conversion to
`unsigned short`, it lies between 1 and 65535, and the payload has that many
bytes. -/
def IsLoopChunk (L T : Nat) (ct : usbdevfs_ctrltransfer) : Prop :=
  ∃ p, p < L ∧ ct.wLength = (if L - p > T then T else L - p) ∧
    1 ≤ ct.wLength ∧ ct.wLength ≤ 65535 ∧ ct.data.length = ct.wLength

/-- The trace `ops` consists of one round trip per transfer of `cts`, in
order: the DNLOAD itself, immediately followed by the GETSTATUS on interface
`number`, followed by at most one sleep; and nothing else. -/
def RoundTrips (number : Nat) : List usbdevfs_ctrltransfer → List Op → Prop
  | [], ops => ops = []
  | ct :: cts, ops =>
    ∃ rets1 rets2 tl rest,
      ops = .control ct rets1 :: .control (getstatus_ct number) rets2 :: (tl ++ rest) ∧
      (tl = [] ∨ ∃ a b c, tl = [Op.nanosleep a b c]) ∧ RoundTrips number cts rest

/-! ## main and load_firmware -/

/-- A C string naming a file. -/
abbrev Path := List Byte

/-- What the file system answers to the calls `load_firmware` makes on the
firmware file: the result of `open`, the result of `lseek(fd, 0, SEEK_END)`
as stored in the `int firmware_length`, whether `malloc` gives memory, and
the bytes `read` delivers (`none` when it returns -1). -/
structure FirmwareFile where
  open_ret : Int
  seek_end : Int
  malloc_ok : Bool
  read_data : Option (List Byte)

/-- The messages of `fatal(...)` in `load_firmware`. -/
inductive LoadFatal where
  | cannot_open
  | cannot_determine_length
  | firmware_empty
  | out_of_memory
  | cannot_read
deriving DecidableEq

/-- The C function `load_firmware`: on success the globals `firmware` and
`firmware_length` hold the bytes read and their number.  It makes no call on
the device. -/
def load_firmware (file : FirmwareFile) (s : State) : Except LoadFatal State :=
  if file.open_ret = -1 then .error .cannot_open
  else if file.seek_end < 0 then .error .cannot_determine_length
  else if file.seek_end = 0 then .error .firmware_empty
  else if file.malloc_ok = false then .error .out_of_memory
  else
    match file.read_data with
    | none => .error .cannot_read
    | some bytes =>
      let got := bytes.take file.seek_end.toNat
      if (got.length : Int) ≠ file.seek_end then .error .cannot_read
      else .ok { s with firmware := got }

/-- The values `getopt_long` returns for the options of the program;
`unknown` is any value that reaches the `default` case. -/
inductive Opt where
  | help
  | version
  | firmware (optarg : Path)
  | device (optarg : Path)
  | verbose
  | logger
  | nowait
  | waitbyte3
  | unknown

/-- How the option loop of `main` ends: `main` returns `code`, or the loop is
left with the locals `firmware` and `device`. -/
inductive Parsed where
  | stop (code : Nat) (s : State)
  | go (firmware device : Option Path) (s : State)

/-- The `while ((c = getopt_long(...)) != -1) switch (c)` loop of `main`.
The flags `logging` and `to_logger` only choose where messages go and are
not kept. -/
def getopt_loop : List Opt → Option Path → Option Path → State → Parsed
  | [], firmware, device, s => .go firmware device s
  | .help :: _, _, _, s => .stop 0 s
  | .version :: _, _, _, s => .stop 0 s
  | .firmware optarg :: rest, _, device, s => getopt_loop rest (some optarg) device s
  | .device optarg :: rest, firmware, _, s => getopt_loop rest firmware (some optarg) s
  | .verbose :: rest, firmware, device, s => getopt_loop rest firmware device s
  | .logger :: rest, firmware, device, s => getopt_loop rest firmware device s
  | .nowait :: rest, firmware, device, s =>
    getopt_loop rest firmware device { s with wait_type := WAIT_IGNORE }
  | .waitbyte3 :: rest, firmware, device, s =>
    getopt_loop rest firmware device { s with wait_type := WAIT_BYTE3 }
  | .unknown :: _, _, _, s => .stop 1 s

/-- How the program ends. -/
inductive Exit where
  | returned (code : Nat)
  | device_not_given
  | load_fatal (f : LoadFatal)
  | session (st : Status)
deriving DecidableEq

/-- The C function `main`: `args` are the options as `getopt_long` reports
them, `DEVICE` the value of `getenv("DEVICE")`, `fs` the file system seen by
`load_firmware`; the device file and the kernel are those of the state.  At
the start the statics are zero: `wait_type = WAIT_STANDARD`, no firmware. -/
def main (args : List Opt) (DEVICE : Option Path) (fs : Path → FirmwareFile)
    (descriptors : List Byte) (sys : Nat → Reply) : Exit × State :=
  match getopt_loop args none DEVICE (State.init WAIT_STANDARD [] descriptors sys) with
  | .stop code s => (.returned code, s)
  | .go none _ s => (.returned 1, s)
  | .go (some firmware) device s =>
    if s.wait_type = WAIT_STANDARD then (.returned 1, s)
    else
      match device with
      | none => (.device_not_given, s)
      | some _ =>
        match load_firmware (fs firmware) s with
        | .error f => (.load_fatal f, s)
        | .ok s1 =>
          match download_firmware s1 with
          | (.ok, s2) => (.returned 0, s2)
          | (st, s2) => (.session st, s2)

/-- A firmware image of `2147450881 = 32768 · 65535 + 1` bytes. -/
def overflow_firmware : List Byte := List.replicate 2147450881 0

/-- The descriptors of a device whose DFU interface has number 0 and whose
functional descriptor gives `wTransferSize = 65535`. -/
def overflow_descriptors : List Byte :=
  [9, 4, 0, 0, 0, 0xFE, 1, 0, 0, 7, 0x21, 1, 0, 0, 0xFF, 0xFF]

/-! ## Lemmas about the scanner -/

theorem or_shift_eq (a b : Byte) : a.val ||| (b.val <<< 8) = a.val + 256 * b.val := by
  have h := Nat.mul_add_lt_is_or (i := 8) (b := a.val) (by have := a.isLt; omega) b.val
  rw [Nat.shiftLeft_eq, Nat.or_comm, Nat.mul_comm, ← h]
  norm_num
  omega

theorem drop_of_rest {l : List Byte} {o : Nat} (xs : List Byte) {ys : List Byte}
    (h : l.drop o = xs ++ ys) (n : Nat) (hn : xs.length = n) : l.drop (o + n) = ys := by
  rw [← List.drop_drop, h, List.drop_left' hn]

theorem read_of_rest {s : State} (xs ys : List Byte) (h : s.rest = xs ++ ys)
    (n : Nat) (hn : xs.length = n) :
    read n s = (xs, { s with offset := s.offset + n }) := by
  simp [read, h, List.take_left' hn, hn]

theorem read_short {s : State} {n : Nat} (h : s.rest.length < n) :
    (read n s).1.length < n := by
  simp only [read, List.length_take]
  omega

theorem parse_iteration_short {s : State} (found : Bool) (h : s.rest.length < 2) :
    parse_iteration found s = (.stop .ok, (read 2 s).2) := by
  have h2 := read_short h
  unfold parse_iteration
  split
  · next heq => rw [heq] at h2; simp at h2
  · next heq => rw [heq]

theorem parse_iteration_badlen {s : State} (found : Bool) {a b : Byte} {t : List Byte}
    (h : s.rest = a :: b :: t) (ha : a.val < 2) :
    parse_iteration found s = (.stop .ok, { s with offset := s.offset + 2 }) := by
  have hr := read_of_rest [a, b] (t) h 2 rfl
  simp [parse_iteration, hr, ha]

theorem parse_iteration_interface {s : State} (found : Bool) {a b d0 d1 d2 d3 d4 d5 d6 : Byte}
    {t : List Byte} (h : s.rest = a :: b :: d0 :: d1 :: d2 :: d3 :: d4 :: d5 :: d6 :: t)
    (hb : b.val = USB_DT_INTERFACE) (ha : 9 ≤ a.val) :
    parse_iteration found s =
      (.next (decide (d3.val = USB_CLASS_APP_SPEC ∧ d4.val = USB_SUBCLASS_DFU)),
        { s with offset := s.offset + a.val,
                 interface := if d3.val = USB_CLASS_APP_SPEC ∧ d4.val = USB_SUBCLASS_DFU
                   then d0.val else s.interface }) := by
  have hr := read_of_rest [a, b] (d0 :: d1 :: d2 :: d3 :: d4 :: d5 :: d6 :: t) h 2 rfl
  have h2 : ({ s with offset := s.offset + 2 } : State).rest
      = [d0, d1, d2, d3, d4, d5, d6] ++ t := by
    simp only [State.rest] at h ⊢
    exact drop_of_rest [a, b] h 2 rfl
  have hr2 := read_of_rest _ _ h2 7 rfl
  have ha2 : ¬ a.val < 2 := by omega
  have halt := a.isLt
  unfold parse_iteration
  simp only [hr, hr2, ha2, hb, ha]
  by_cases hm : d3.val = USB_CLASS_APP_SPEC ∧ d4.val = USB_SUBCLASS_DFU
  · simp [hm, skip_rest, lseek_cur]
    split <;> simp <;> omega
  · simp [hm, skip_rest, lseek_cur]
    split <;> simp <;> omega

theorem read_all {s : State} {n : Nat} (h : s.rest.length < n) :
    read n s = (s.rest, { s with offset := s.offset + s.rest.length }) := by
  have : s.rest.take n = s.rest := List.take_of_length_le (by omega)
  simp [read, this]

theorem parse_iteration_interface_short {s : State} (found : Bool) {a b : Byte}
    {t : List Byte} (h : s.rest = a :: b :: t)
    (hb : b.val = USB_DT_INTERFACE) (ha : 9 ≤ a.val) (ht : t.length < 7) :
    parse_iteration found s = (.stop .ok, { s with offset := s.offset + 2 + t.length }) := by
  have hr := read_of_rest [a, b] (t) h 2 rfl
  have h2 : ({ s with offset := s.offset + 2 } : State).rest = t := by
    simp only [State.rest] at h ⊢
    exact drop_of_rest [a, b] h 2 rfl
  have hr2 : read 7 ({ s with offset := s.offset + 2 } : State)
      = (t, { s with offset := s.offset + 2 + t.length }) := by
    rw [read_all (by rw [h2]; exact ht), h2]
  have ha2 : ¬ a.val < 2 := by omega
  unfold parse_iteration
  simp only [hr, hr2, ha2, hb, ha]
  rcases t with _ | ⟨x0, _ | ⟨x1, _ | ⟨x2, _ | ⟨x3, _ | ⟨x4, _ | ⟨x5, _ | ⟨x6, t⟩⟩⟩⟩⟩⟩⟩
  all_goals first | (simp only [List.length_cons, List.length_nil] at ht; omega) | simp

theorem parse_iteration_functional {s : State} {a b d0 d1 d2 d3 d4 : Byte}
    {t : List Byte} (h : s.rest = a :: b :: d0 :: d1 :: d2 :: d3 :: d4 :: t)
    (hb : b.val = USB_DT_DFU_FUNCTIONAL) (ha : 7 ≤ a.val) :
    parse_iteration true s =
      if d3.val + 256 * d4.val < 1 then
        (.stop (.fatal (.invalid_transfer_size (d3.val + 256 * d4.val))),
          { s with offset := s.offset + 7, transfer_size := d3.val + 256 * d4.val })
      else
        (.next true,
          { s with offset := s.offset + a.val, transfer_size := d3.val + 256 * d4.val }) := by
  have hr := read_of_rest [a, b] (d0 :: d1 :: d2 :: d3 :: d4 :: t) h 2 rfl
  have h2 : ({ s with offset := s.offset + 2 } : State).rest
      = [d0, d1, d2, d3, d4] ++ t := by
    simp only [State.rest] at h ⊢
    exact drop_of_rest [a, b] h 2 rfl
  have hr2 := read_of_rest _ _ h2 5 rfl
  have ha2 : ¬ a.val < 2 := by omega
  have halt := a.isLt
  have hb2 : ¬ (b.val = USB_DT_INTERFACE) := by rw [hb]; decide
  unfold parse_iteration
  simp only [USB_DT_DFU_FUNCTIONAL, USB_DT_INTERFACE] at hb hb2 ⊢
  simp only [hr, hr2, ha2, hb, ha, or_shift_eq]
  by_cases hz : d3.val + 256 * d4.val < 1
  · simp [hz]
  · simp [hz, skip_rest, lseek_cur]
    split <;> simp <;> omega

theorem parse_iteration_functional_short {s : State} {a b : Byte}
    {t : List Byte} (h : s.rest = a :: b :: t)
    (hb : b.val = USB_DT_DFU_FUNCTIONAL) (ha : 7 ≤ a.val) (ht : t.length < 5) :
    parse_iteration true s = (.stop .ok, { s with offset := s.offset + 2 + t.length }) := by
  have hr := read_of_rest [a, b] (t) h 2 rfl
  have h2 : ({ s with offset := s.offset + 2 } : State).rest = t := by
    simp only [State.rest] at h ⊢
    exact drop_of_rest [a, b] h 2 rfl
  have hr2 : read 5 ({ s with offset := s.offset + 2 } : State)
      = (t, { s with offset := s.offset + 2 + t.length }) := by
    rw [read_all (by rw [h2]; exact ht), h2]
  have ha2 : ¬ a.val < 2 := by omega
  have hb2 : ¬ (b.val = USB_DT_INTERFACE) := by rw [hb]; decide
  unfold parse_iteration
  simp only [USB_DT_DFU_FUNCTIONAL, USB_DT_INTERFACE] at hb hb2 ⊢
  simp only [hr, hr2, ha2, hb, ha]
  rcases t with _ | ⟨x0, _ | ⟨x1, _ | ⟨x2, _ | ⟨x3, _ | ⟨x4, _ | ⟨x5, _ | ⟨x6, t⟩⟩⟩⟩⟩⟩⟩
  all_goals first | (simp only [List.length_cons, List.length_nil] at ht; omega) | simp

theorem parse_iteration_other {s : State} (found : Bool) {a b : Byte} {t : List Byte}
    (h : s.rest = a :: b :: t) (ha : 2 ≤ a.val)
    (hi : ¬ (b.val = USB_DT_INTERFACE ∧ 9 ≤ a.val))
    (hf : ¬ (b.val = USB_DT_DFU_FUNCTIONAL ∧ 7 ≤ a.val ∧ found = true)) :
    parse_iteration found s = (.next found, { s with offset := s.offset + a.val }) := by
  have hr := read_of_rest [a, b] (t) h 2 rfl
  have ha2 : ¬ a.val < 2 := by omega
  unfold parse_iteration
  simp only [hr, ha2, hi, hf]
  simp [skip_rest, lseek_cur]
  split <;> simp <;> omega

theorem list_split7 (t : List Byte) (h : ¬ t.length < 7) :
    ∃ d0 d1 d2 d3 d4 d5 d6 t', t = d0 :: d1 :: d2 :: d3 :: d4 :: d5 :: d6 :: t' := by
  rcases t with _ | ⟨x0, _ | ⟨x1, _ | ⟨x2, _ | ⟨x3, _ | ⟨x4, _ | ⟨x5, _ | ⟨x6, t⟩⟩⟩⟩⟩⟩⟩
  all_goals first | (simp only [List.length_cons, List.length_nil] at h; omega) | skip
  exact ⟨x0, x1, x2, x3, x4, x5, x6, t, rfl⟩

theorem list_split5 (t : List Byte) (h : ¬ t.length < 5) :
    ∃ d0 d1 d2 d3 d4 t', t = d0 :: d1 :: d2 :: d3 :: d4 :: t' := by
  rcases t with _ | ⟨x0, _ | ⟨x1, _ | ⟨x2, _ | ⟨x3, _ | ⟨x4, t⟩⟩⟩⟩⟩
  all_goals first | (simp only [List.length_cons, List.length_nil] at h; omega) | skip
  exact ⟨x0, x1, x2, x3, x4, t, rfl⟩

/-- Every iteration of the scanner is one of the seven cases. -/
theorem parse_iteration_iter (found : Bool) (s : State) :
    Iter found s (parse_iteration found s) := by
  rcases hrest : s.rest with _ | ⟨a, _ | ⟨b, t⟩⟩
  · have hl : s.rest.length < 2 := by simp [hrest]
    rw [parse_iteration_short found hl, read_all hl]
    exact Iter.eof hl
  · have hl : s.rest.length < 2 := by simp [hrest]
    rw [parse_iteration_short found hl, read_all hl]
    exact Iter.eof hl
  · by_cases ha : a.val < 2
    · rw [parse_iteration_badlen found hrest ha]
      exact Iter.badlen a b t hrest ha
    · by_cases hi : b.val = USB_DT_INTERFACE ∧ 9 ≤ a.val
      · by_cases ht : t.length < 7
        · rw [parse_iteration_interface_short found hrest hi.1 hi.2 ht]
          exact Iter.iface_short a b t hrest hi.1 hi.2 ht
        · obtain ⟨d0, d1, d2, d3, d4, d5, d6, t', rfl⟩ := list_split7 t ht
          rw [parse_iteration_interface found hrest hi.1 hi.2]
          exact Iter.iface a b d0 d1 d2 d3 d4 d5 d6 t' hrest hi.1 hi.2
      · by_cases hf : b.val = USB_DT_DFU_FUNCTIONAL ∧ 7 ≤ a.val ∧ found = true
        · obtain ⟨hb, ha7, rfl⟩ := hf
          by_cases ht : t.length < 5
          · rw [parse_iteration_functional_short hrest hb ha7 ht]
            exact Iter.func_short a b t rfl hrest hb ha7 ht
          · obtain ⟨d0, d1, d2, d3, d4, t', rfl⟩ := list_split5 t ht
            rw [parse_iteration_functional hrest hb ha7]
            exact Iter.func a b d0 d1 d2 d3 d4 t' rfl hrest hb ha7
        · rw [parse_iteration_other found hrest (by omega) hi hf]
          exact Iter.other a b t hrest (by omega) hi hf

theorem Iter.sameWorld {found : Bool} {s : State} {r : Flow Bool × State}
    (h : Iter found s r) : s.sameWorld r.2 := by
  cases h <;> simp [State.sameWorld]
  split <;> simp

theorem rest_length (s : State) : s.rest.length = s.descriptors.length - s.offset := by
  simp [State.rest]

theorem Iter.next_offset {found f' : Bool} {s s' : State}
    (h : Iter found s (.next f', s')) :
    s.offset + 2 ≤ s'.offset ∧ s.offset + 2 ≤ s.descriptors.length := by
  generalize hr : (Flow.next f', s') = r at h
  cases h
  case eof => simp at hr
  case badlen => simp at hr
  case iface_short => simp at hr
  case func_short => simp at hr
  case iface a b d0 d1 d2 d3 d4 d5 d6 t h hb ha =>
    have hl := rest_length s
    simp [h] at hl
    simp at hr
    rw [hr.2]
    simp
    omega
  case other a b t h ha hi hf =>
    have hl := rest_length s
    simp [h] at hl
    simp at hr
    rw [hr.2]
    simp
    omega
  case func a b d0 d1 d2 d3 d4 t hfound h hb ha =>
    have hl := rest_length s
    simp [h] at hl
    split at hr
    · simp at hr
    · simp at hr
      rw [hr.2]
      simp
      omega

theorem parse_loop_mono : ∀ (f : Nat) (b : Bool) (s : State) (k : Nat),
    (parse_loop f b s).1 ≠ .outOfFuel → parse_loop (f + k) b s = parse_loop f b s := by
  intro f
  induction f with
  | zero => intro b s k h; simp [parse_loop] at h
  | succ f ih =>
    intro b s k h
    have e : f + 1 + k = (f + k) + 1 := by omega
    rw [e]
    simp only [parse_loop] at h ⊢
    rcases hp : parse_iteration b s with ⟨fl, s1⟩
    rw [hp] at h
    cases fl with
    | stop st => rfl
    | next found => exact ih found s1 k h

theorem parse_loop_total : ∀ (f : Nat) (b : Bool) (s : State),
    s.descriptors.length < s.offset + 2 * (f + 1) →
    (parse_loop (f + 1) b s).1 ≠ .outOfFuel := by
  intro f
  induction f with
  | zero =>
    intro b s h
    have hl : s.rest.length < 2 := by rw [rest_length]; omega
    simp [parse_loop, parse_iteration_short b hl]
  | succ f ih =>
    intro b s h
    rw [parse_loop]
    have hi := parse_iteration_iter b s
    rcases hp : parse_iteration b s with ⟨fl, s1⟩
    rw [hp] at hi
    cases fl with
    | stop st =>
      simp only
      intro hst
      subst hst
      generalize hr : (Flow.stop Status.outOfFuel, s1) = r at hi
      cases hi <;> simp at hr
      split at hr <;> simp at hr
    | next found =>
      simp only
      have ho := hi.next_offset
      have hw := hi.sameWorld
      apply ih
      rw [hw.1]
      omega

theorem wellFormed_cons {d : List Byte} (h : WellFormed d) :
    ∃ a b t, d = a :: b :: t ∧ a.val = t.length + 2 := by
  obtain ⟨h2, h0⟩ := h
  rcases d with _ | ⟨a, _ | ⟨b, t⟩⟩
  · simp at h2
  · simp at h2
  · exact ⟨a, b, t, rfl, by simpa [byteAt] using h0⟩

/-- One iteration of the scanner on a complete descriptor does what the
specification says of that descriptor. -/
theorem parse_iteration_wellFormed {d tail : List Byte} (found : Bool) {s : State}
    (hd : WellFormed d) (h : s.rest = d ++ tail) :
    match spec_scan_descriptor d ⟨found, s.interface, s.transfer_size⟩ with
    | some a => parse_iteration found s =
        (.next a.found, { s with offset := s.offset + d.length, interface := a.interface,
                                 transfer_size := a.transfer_size })
    | none => ∃ s1, parse_iteration found s = (.stop (.fatal (.invalid_transfer_size 0)), s1)
        ∧ s.sameWorld s1 := by
  obtain ⟨a, b, t, rfl, hlen⟩ := wellFormed_cons hd
  have halt := a.isLt
  simp only [List.cons_append] at h
  by_cases hi : b.val = USB_DT_INTERFACE ∧ 9 ≤ a.val
  · obtain ⟨d0, d1, d2, d3, d4, d5, d6, t', rfl⟩ := list_split7 t (by omega)
    simp only [List.cons_append] at h
    rw [parse_iteration_interface found h hi.1 hi.2]
    simp only [List.length_cons] at hlen
    by_cases hm : d3.val = USB_CLASS_APP_SPEC ∧ d4.val = USB_SUBCLASS_DFU
    · simp [spec_scan_descriptor, isInterface, isDfuClass, byteAt, hi, hm]
      omega
    · simp [spec_scan_descriptor, isInterface, isDfuClass, byteAt, hi, hm]
      omega
  · by_cases hf : b.val = USB_DT_DFU_FUNCTIONAL ∧ 7 ≤ a.val ∧ found = true
    · obtain ⟨hb, ha7, rfl⟩ := hf
      obtain ⟨d0, d1, d2, d3, d4, t', rfl⟩ := list_split5 t (by omega)
      simp only [List.cons_append] at h
      rw [parse_iteration_functional h hb ha7]
      simp only [List.length_cons] at hlen
      have hni : ¬ isInterface (a :: b :: d0 :: d1 :: d2 :: d3 :: d4 :: t') := by
        simp only [isInterface, byteAt, USB_DT_INTERFACE, USB_DT_DFU_FUNCTIONAL] at hb ⊢
        simp [hb]
      have hfn : isFunctional (a :: b :: d0 :: d1 :: d2 :: d3 :: d4 :: t') := by
        simp only [isFunctional, byteAt]
        exact ⟨hb, ha7⟩
      by_cases hz : d3.val + 256 * d4.val < 1
      · simp only [spec_scan_descriptor, hni, hfn, wTransferSize, byteAt]
        simp [hz]
        exact ⟨_, ⟨⟨by omega, by omega⟩, rfl⟩, by simp [State.sameWorld]⟩
      · simp only [spec_scan_descriptor, hni, hfn, wTransferSize, byteAt]
        simp [hz]
        omega
    · rw [parse_iteration_other found h (by omega) hi hf]
      have hni : ¬ isInterface (a :: b :: t) := by
        simpa [isInterface, byteAt] using hi
      have hfn : ¬ (isFunctional (a :: b :: t) ∧ found = true) := by
        simpa [isFunctional, byteAt, and_assoc] using hf
      simp only [spec_scan_descriptor, hni, hfn]
      simp only [List.length_cons] at hlen ⊢
      simp
      omega

/-- The scanner loop over a run of complete descriptors follows `spec_scan`:
either it goes on after them with the accumulated values, or it has ended in
the fatal error. -/
theorem parse_loop_spec_scan : ∀ (ds : List (List Byte)) (tail : List Byte) (found : Bool)
    (s : State) (fuel : Nat), (∀ d ∈ ds, WellFormed d) → s.rest = ds.flatten ++ tail →
    match spec_scan ds ⟨found, s.interface, s.transfer_size⟩ with
    | some a => parse_loop (ds.length + fuel) found s =
        parse_loop fuel a.found
          { s with offset := s.offset + ds.flatten.length, interface := a.interface,
                   transfer_size := a.transfer_size }
    | none => ∃ s1, parse_loop (ds.length + fuel) found s
        = (.fatal (.invalid_transfer_size 0), s1) ∧ s.sameWorld s1 := by
  intro ds
  induction ds with
  | nil =>
    intro tail found s fuel _ _
    simp [spec_scan]
  | cons d ds ih =>
    intro tail found s fuel hwf h
    have hd : WellFormed d := hwf d (List.mem_cons_self _ _)
    have hds : ∀ x ∈ ds, WellFormed x := fun x hx => hwf x (List.mem_cons_of_mem _ hx)
    simp only [List.flatten_cons, List.append_assoc] at h
    have hstep := parse_iteration_wellFormed found hd h
    have e : (d :: ds).length + fuel = (ds.length + fuel) + 1 := by simp; omega
    rw [e]
    simp only [spec_scan, parse_loop]
    rcases hsd : spec_scan_descriptor d ⟨found, s.interface, s.transfer_size⟩ with _ | a
    · rw [hsd] at hstep
      obtain ⟨s1, hs1, hw⟩ := hstep
      simp only [hs1]
      exact ⟨s1, rfl, hw⟩
    · rw [hsd] at hstep
      simp only [hstep]
      have hrest : ({ s with offset := s.offset + d.length, interface := a.interface,
                              transfer_size := a.transfer_size } : State).rest
          = ds.flatten ++ tail := by
        simp only [State.rest] at h ⊢
        exact drop_of_rest d h d.length rfl
      have := ih tail a.found _ fuel hds hrest
      simp only at this
      rcases hss : spec_scan ds a with _ | a2
      · rw [hss] at this
        obtain ⟨s1, hs1, hw⟩ := this
        refine ⟨s1, hs1, ?_⟩
        simpa [State.sameWorld] using hw
      · rw [hss] at this
        simp only [this, List.flatten_cons, List.length_append, Nat.add_assoc]

/-- At the end of the stream (fewer than two bytes left) the scanner returns. -/
theorem parse_loop_end (found : Bool) (s : State) (fuel : Nat) (h : s.rest.length < 2) :
    parse_loop (fuel + 1) found s = (.ok, { s with offset := s.offset + s.rest.length }) := by
  simp [parse_loop, parse_iteration_short found h, read_all h]

/-- Whatever a bounded run of the scanner loop produces without running out
of fuel is what `parse_descriptors` produces. -/
theorem parse_descriptors_eq {s : State} {fuel : Nat} {r : Status × State}
    (ho : s.offset = 0) (h : parse_loop fuel false s = r) (hr : r.1 ≠ .outOfFuel) :
    parse_descriptors s = r := by
  have htot : (parse_loop (s.descriptors.length / 2 + 1) false s).1 ≠ .outOfFuel :=
    parse_loop_total _ false s (by omega)
  unfold parse_descriptors
  rcases Nat.le_total fuel (s.descriptors.length / 2 + 1) with hle | hle
  · obtain ⟨k, hk⟩ := Nat.exists_eq_add_of_le hle
    rw [hk, parse_loop_mono fuel false s k (by rw [h]; exact hr), h]
  · obtain ⟨k, hk⟩ := Nat.exists_eq_add_of_le hle
    rw [← h, hk, parse_loop_mono _ false s k htot]

theorem spec_scan_append : ∀ (xs ys : List (List Byte)) (a : Scan),
    spec_scan (xs ++ ys) a =
      match spec_scan xs a with
      | none => none
      | some a1 => spec_scan ys a1 := by
  intro xs
  induction xs with
  | nil => intro ys a; simp [spec_scan]
  | cons x xs ih =>
    intro ys a
    simp only [List.cons_append, spec_scan]
    cases spec_scan_descriptor x a with
    | none => rfl
    | some a1 => exact ih ys a1

theorem spec_scan_unrelated : ∀ (ds : List (List Byte)) (a : Scan),
    (∀ d ∈ ds, byteAt d 1 ≠ USB_DT_INTERFACE ∧ byteAt d 1 ≠ USB_DT_DFU_FUNCTIONAL) →
    spec_scan ds a = some a := by
  intro ds
  induction ds with
  | nil => intro a _; rfl
  | cons d ds ih =>
    intro a h
    have hd := h d (List.mem_cons_self _ _)
    have e : spec_scan_descriptor d a = some a := by
      simp [spec_scan_descriptor, isInterface, isFunctional, hd.1, hd.2]
    simp only [spec_scan, e]
    exact ih a (fun x hx => h x (List.mem_cons_of_mem _ hx))

/-- The scanner on a stream that is exactly a run of complete descriptors:
it returns what `spec_scan` computes. -/
theorem parse_descriptors_spec_scan (ds : List (List Byte)) (s : State) (a : Scan)
    (hstream : s.descriptors = ds.flatten) (hoff : s.offset = 0)
    (hwf : ∀ d ∈ ds, WellFormed d)
    (hscan : spec_scan ds ⟨false, s.interface, s.transfer_size⟩ = some a) :
    parse_descriptors s =
      (.ok, { s with offset := ds.flatten.length, interface := a.interface,
                     transfer_size := a.transfer_size }) := by
  have hrest : s.rest = ds.flatten ++ [] := by simp [State.rest, hoff, hstream]
  have h := parse_loop_spec_scan ds [] false s 1 hwf hrest
  rw [hscan] at h
  simp only at h
  have hend : ({ s with offset := s.offset + ds.flatten.length, interface := a.interface,
                        transfer_size := a.transfer_size } : State).rest.length < 2 := by
    simp [State.rest, hoff, hstream]
  rw [parse_loop_end _ _ 0 hend] at h
  have := parse_descriptors_eq hoff h (by simp)
  rw [this]
  simp [State.rest, hoff, hstream]

/-- C1: on a stream made of complete descriptors with exactly one DFU-class
interface descriptor (number `n`), later followed by a DFU functional
descriptor whose `wTransferSize` is `S ≥ 1`, every other descriptor having a
type other than 0x04 and 0x21, `parse_descriptors` returns without a fatal
error with `interface = n` and `transfer_size = S`, whatever unrelated
descriptors stand before, between or after the two. -/
theorem parse_descriptors_finds_interface_and_size
    (pre mid post : List (List Byte)) (I F : List Byte) (s : State)
    (hstream : s.descriptors = (pre ++ [I] ++ mid ++ [F] ++ post).flatten)
    (hoff : s.offset = 0)
    (hwf : ∀ d ∈ pre ++ [I] ++ mid ++ [F] ++ post, WellFormed d)
    (hother : ∀ d ∈ pre ++ mid ++ post,
      byteAt d 1 ≠ USB_DT_INTERFACE ∧ byteAt d 1 ≠ USB_DT_DFU_FUNCTIONAL)
    (hI : isInterface I) (hclass : isDfuClass I)
    (hF : isFunctional F) (hS : 1 ≤ wTransferSize F) :
    (parse_descriptors s).1 = .ok ∧
    (parse_descriptors s).2.interface = byteAt I 2 ∧
    (parse_descriptors s).2.transfer_size = wTransferSize F := by
  have hpre : ∀ d ∈ pre, byteAt d 1 ≠ USB_DT_INTERFACE ∧ byteAt d 1 ≠ USB_DT_DFU_FUNCTIONAL :=
    fun d hd => hother d (by simp [hd])
  have hmid : ∀ d ∈ mid, byteAt d 1 ≠ USB_DT_INTERFACE ∧ byteAt d 1 ≠ USB_DT_DFU_FUNCTIONAL :=
    fun d hd => hother d (by simp [hd])
  have hpost : ∀ d ∈ post, byteAt d 1 ≠ USB_DT_INTERFACE ∧ byteAt d 1 ≠ USB_DT_DFU_FUNCTIONAL :=
    fun d hd => hother d (by simp [hd])
  have hFni : ¬ isInterface F := by
    intro hc
    have h1 := hc.1
    have h2 := hF.1
    rw [h2] at h1
    simp [USB_DT_INTERFACE, USB_DT_DFU_FUNCTIONAL] at h1
  have eI : ∀ a : Scan, spec_scan [I] a = some ⟨true, byteAt I 2, a.transfer_size⟩ := by
    intro a
    simp [spec_scan, spec_scan_descriptor, hI, hclass]
  have eF : ∀ n t, spec_scan [F] ⟨true, n, t⟩ = some ⟨true, n, wTransferSize F⟩ := by
    intro n t
    have : ¬ wTransferSize F < 1 := by omega
    simp [spec_scan, spec_scan_descriptor, hFni, hF, this]
  have hscan : spec_scan (pre ++ [I] ++ mid ++ [F] ++ post)
      ⟨false, s.interface, s.transfer_size⟩ = some ⟨true, byteAt I 2, wTransferSize F⟩ := by
    simp only [List.append_assoc]
    rw [spec_scan_append, spec_scan_unrelated pre _ hpre]
    simp only
    rw [spec_scan_append, eI]
    simp only
    rw [spec_scan_append, spec_scan_unrelated mid _ hmid]
    simp only
    rw [spec_scan_append, eF]
    simp only
    rw [spec_scan_unrelated post _ hpost]
  rw [parse_descriptors_spec_scan _ s _ hstream hoff hwf hscan]
  exact ⟨rfl, rfl, rfl⟩

/-- C1 at a concrete stream: a configuration descriptor, the DFU interface
(number 3), an unrelated 3-byte descriptor, the functional descriptor
(transfer size 0x0203) and a trailing 2-byte descriptor. -/
theorem parse_descriptors_finds_interface_and_size_witness :
    (parse_descriptors (State.init WAIT_IGNORE [1]
      [9, 2, 0, 0, 0, 0, 0, 0, 0, 9, 4, 3, 0, 0, 0xFE, 1, 0, 0, 3, 5, 0,
        7, 0x21, 1, 0, 0, 3, 2, 2, 7] (fun _ => ⟨0, dfu_status.zero⟩))).1 = .ok ∧
    (parse_descriptors (State.init WAIT_IGNORE [1]
      [9, 2, 0, 0, 0, 0, 0, 0, 0, 9, 4, 3, 0, 0, 0xFE, 1, 0, 0, 3, 5, 0,
        7, 0x21, 1, 0, 0, 3, 2, 2, 7] (fun _ => ⟨0, dfu_status.zero⟩))).2.interface = 3 ∧
    (parse_descriptors (State.init WAIT_IGNORE [1]
      [9, 2, 0, 0, 0, 0, 0, 0, 0, 9, 4, 3, 0, 0, 0xFE, 1, 0, 0, 3, 5, 0,
        7, 0x21, 1, 0, 0, 3, 2, 2, 7] (fun _ => ⟨0, dfu_status.zero⟩))).2.transfer_size
      = 515 :=
  parse_descriptors_finds_interface_and_size
    [[9, 2, 0, 0, 0, 0, 0, 0, 0]] [[3, 5, 0]] [[2, 7]]
    [9, 4, 3, 0, 0, 0xFE, 1, 0, 0] [7, 0x21, 1, 0, 0, 3, 2] _
    (by decide) (by decide) (by decide) (by decide) (by decide) (by decide) (by decide)
    (by decide)

theorem noDfuInterface_of_suffixes (stream : List Byte)
    (h : ∀ k, k < stream.length + 1 → ¬ startsDfuInterface (stream.drop k)) :
    NoDfuInterface stream := by
  intro ds rest hs _
  have hk := h ds.flatten.length (by rw [hs]; simp; omega)
  rw [hs, List.drop_left] at hk
  exact hk

theorem noDfuInterface_drop {r : List Byte} {a b : Byte} {t : List Byte}
    (h : NoDfuInterface r) (hr : r = a :: b :: t) (ha : 2 ≤ a.val) :
    NoDfuInterface (r.drop a.val) := by
  intro ds rest hs hwf
  by_cases hlen : a.val ≤ r.length
  · have hsplit : r = ((r.take a.val) :: ds).flatten ++ rest := by
      rw [List.flatten_cons, List.append_assoc, ← hs, List.take_append_drop]
    apply h _ rest hsplit
    intro d hd
    rcases List.mem_cons.1 hd with rfl | hd
    · constructor
      · rw [List.length_take]; omega
      · rw [List.length_take, Nat.min_eq_left hlen]
        obtain ⟨n, hn⟩ : ∃ n, a.val = n + 1 := ⟨a.val - 1, by omega⟩
        rw [hr, hn]
        simp [byteAt, hn]
    · exact hwf d hd
  · have : r.drop a.val = [] := List.drop_of_length_le (by omega)
    rw [this] at hs
    have hrest : rest = [] := by
      have := congrArg List.length hs
      simp at this
      exact List.eq_nil_of_length_eq_zero (by omega)
    rw [hrest]
    simp [startsDfuInterface]

theorem parse_loop_noDfuInterface : ∀ (fuel : Nat) (s : State), NoDfuInterface s.rest →
    ((parse_loop fuel false s).1 = .ok ∨ (parse_loop fuel false s).1 = .outOfFuel) ∧
    (parse_loop fuel false s).2.interface = s.interface ∧
    (parse_loop fuel false s).2.transfer_size = s.transfer_size := by
  intro fuel
  induction fuel with
  | zero => intro s _; simp [parse_loop]
  | succ fuel ih =>
    intro s hno
    have hi := parse_iteration_iter false s
    rw [parse_loop]
    generalize hr : parse_iteration false s = r at hi
    cases hi
    case eof => simp
    case badlen => simp
    case iface_short => simp
    case func_short hf _ _ _ _ => simp at hf
    case func hf _ _ _ => simp at hf
    case iface a b d0 d1 d2 d3 d4 d5 d6 t h hb ha =>
      have hns := hno [] s.rest (by simp) (by simp)
      have hm : ¬ (d3.val = USB_CLASS_APP_SPEC ∧ d4.val = USB_SUBCLASS_DFU) := by
        intro hm
        apply hns
        rw [h]
        exact ⟨by simp, ⟨hb, ha⟩, hm⟩
      simp only [hm, decide_False, if_false]
      have hno' := noDfuInterface_drop hno h (by omega)
      have := ih { s with offset := s.offset + a.val, interface := s.interface }
        (by simpa [State.rest] using hno')
      simpa using this
    case other a b t h ha hi hf =>
      have hno' := noDfuInterface_drop hno h ha
      have := ih { s with offset := s.offset + a.val }
        (by simpa [State.rest] using hno')
      simpa using this

/-- C2: on every stream in which no descriptor boundary begins an interface
descriptor (type 0x04, `bLength ≥ 9`) of class 0xFE / subclass 0x01,
`parse_descriptors` returns without a fatal error and leaves
`transfer_size` at 64 and `interface` at its initial value 0, whatever
functional descriptors the stream holds. -/
theorem parse_descriptors_without_dfu_interface (wait_type : Nat)
    (firmware stream : List Byte) (sys : Nat → Reply) (h : NoDfuInterface stream) :
    (parse_descriptors (State.init wait_type firmware stream sys)).1 = .ok ∧
    (parse_descriptors (State.init wait_type firmware stream sys)).2.transfer_size = 64 ∧
    (parse_descriptors (State.init wait_type firmware stream sys)).2.interface = 0 := by
  have hl := parse_loop_noDfuInterface (stream.length / 2 + 1)
    (State.init wait_type firmware stream sys) (by simpa [State.rest, State.init] using h)
  have ht := parse_loop_total (stream.length / 2) false
    (State.init wait_type firmware stream sys) (by simp [State.init]; omega)
  unfold parse_descriptors
  simp only [State.init] at hl ht ⊢
  refine ⟨?_, hl.2.2, hl.2.1⟩
  rcases hl.1 with h1 | h1
  · exact h1
  · exact absurd h1 ht

/-- C2 at a concrete stream: an audio-class interface descriptor followed by
a DFU functional descriptor that encodes transfer size 0. -/
theorem parse_descriptors_without_dfu_interface_witness :
    (parse_descriptors (State.init WAIT_IGNORE [1]
      [9, 4, 0, 0, 0, 1, 1, 0, 0, 7, 0x21, 1, 0, 0, 0, 0]
      (fun _ => ⟨0, dfu_status.zero⟩))).1 = .ok ∧
    (parse_descriptors (State.init WAIT_IGNORE [1]
      [9, 4, 0, 0, 0, 1, 1, 0, 0, 7, 0x21, 1, 0, 0, 0, 0]
      (fun _ => ⟨0, dfu_status.zero⟩))).2.transfer_size = 64 ∧
    (parse_descriptors (State.init WAIT_IGNORE [1]
      [9, 4, 0, 0, 0, 1, 1, 0, 0, 7, 0x21, 1, 0, 0, 0, 0]
      (fun _ => ⟨0, dfu_status.zero⟩))).2.interface = 0 :=
  parse_descriptors_without_dfu_interface WAIT_IGNORE [1]
    [9, 4, 0, 0, 0, 1, 1, 0, 0, 7, 0x21, 1, 0, 0, 0, 0] _
    (noDfuInterface_of_suffixes _ (by decide))

theorem extends_refl (s : State) : Extends s s [] := by
  simp only [Extends, List.append_nil, true_and]
  exact ⟨0, by simp⟩

theorem Extends.trans {s s1 s2 : State} {n1 n2 : List Op}
    (h1 : Extends s s1 n1) (h2 : Extends s1 s2 n2) : Extends s s2 (n1 ++ n2) := by
  obtain ⟨a1, a2, a3, a4, a5, a6, a7, a8, k1, a9⟩ := h1
  obtain ⟨b1, b2, b3, b4, b5, b6, b7, b8, k2, b9⟩ := h2
  refine ⟨?_, ?_, ?_, ?_, ?_, ?_, ?_, ?_, k1 + k2, ?_⟩
  · rw [b1, a1, List.append_assoc]
  · rw [b2, a2]
  · rw [b3, a3]
  · rw [b4, a4]
  · rw [b5, a5]
  · rw [b6, a6]
  · rw [b7, a7]
  · rw [b8, a8]
  · rw [b9, a9, List.append_assoc, List.replicate_add]

theorem usb_control_loop_spec (s : State) (z : Reply) :
    (usb_control_loop 3 z [] s).2.1.getLast? = some (usb_control_loop 3 z [] s).1.ret ∧
    Extends s (usb_control_loop 3 z [] s).2.2 [] ∧
    (AllSucceed s → 0 ≤ (usb_control_loop 3 z [] s).1.ret) := by
  simp only [usb_control_loop, syscall, warning]
  refine ⟨?_, ?_, ?_⟩
  · split
    · simp
    · split
      · simp
      · split <;> simp
  · split
    · simp only [Extends, List.append_nil, true_and]
      exact ⟨0, by simp⟩
    · split
      · simp only [Extends, List.append_nil, true_and]
        exact ⟨1, by simp⟩
      · split
        · simp only [Extends, List.append_nil, true_and]
          exact ⟨2, by simp⟩
        · simp only [Extends, List.append_nil, true_and]
          exact ⟨3, by simp⟩
  · intro h
    have h0 := h s.clock
    simp [h0]

theorem usb_control_spec (request_type request value index length : Nat)
    (data : List Byte) (s : State) :
    ∃ rets, Extends s (usb_control request_type request value index length data s).2
      [.control (control_ct request_type request value index length data) rets] ∧
      rets.getLast? = some (usb_control request_type request value index length data s).1.ret ∧
      (AllSucceed s →
        0 ≤ (usb_control request_type request value index length data s).1.ret) := by
  obtain ⟨h1, h2, h3⟩ := usb_control_loop_spec s ⟨0, dfu_status.zero⟩
  refine ⟨(usb_control_loop 3 ⟨0, dfu_status.zero⟩ [] s).2.1, ?_, ?_, ?_⟩
  · have h4 : Extends (usb_control_loop 3 ⟨0, dfu_status.zero⟩ [] s).2.2
        (usb_control request_type request value index length data s).2
        [.control (control_ct request_type request value index length data)
          (usb_control_loop 3 ⟨0, dfu_status.zero⟩ [] s).2.1] := by
      simp only [usb_control, State.log, Extends, control_ct, true_and]
      exact ⟨0, by simp⟩
    simpa using Extends.trans h2 h4
  · simpa [usb_control] using h1
  · simpa [usb_control] using h3

theorem control_ct_dnload (number block length : Nat) (buf : List Byte) :
    control_ct (USB_TYPE_CLASS ||| USB_RECIP_INTERFACE ||| USB_DIR_OUT) DFU_DNLOAD block
      number length buf = dnload_ct number block length buf := by
  have h : (33 &&& 128 : Nat) = 0 := by decide
  simp [control_ct, dnload_ct, USB_TYPE_CLASS, USB_RECIP_INTERFACE, USB_DIR_OUT, DFU_DNLOAD,
    USB_DIR_IN, h]

theorem control_ct_getstatus (number : Nat) :
    control_ct (USB_TYPE_CLASS ||| USB_RECIP_INTERFACE ||| USB_DIR_IN) DFU_GETSTATUS 0
      number 6 [] = getstatus_ct number := by
  simp [control_ct, getstatus_ct, USB_TYPE_CLASS, USB_RECIP_INTERFACE, DFU_GETSTATUS,
    USB_DIR_IN]

theorem control_ok_iff (ct : usbdevfs_ctrltransfer) (rets : List Int) (r : Int)
    (h : rets.getLast? = some r) : (Op.control ct rets).ok ↔ 0 ≤ r := by
  simp [Op.ok, h]

theorem control_failed_iff (ct : usbdevfs_ctrltransfer) (rets : List Int) (r : Int)
    (h : rets.getLast? = some r) : (Op.control ct rets).transferFailed ↔ r < 0 := by
  simp [Op.transferFailed, h]

theorem fails_single {f : Fatal} {op : Op} (h : ¬ op.ok) : Fails (.fatal f) [op] :=
  ⟨f, [], op, rfl, rfl, by simp, h⟩

/-- What `dfu_dnload` does: one DNLOAD transfer; fatal exactly when the
transport reports failure. -/
theorem dfu_dnload_spec (buf : List Byte) (length block : Nat) (s : State) :
    ∃ rets, Extends s (dfu_dnload buf length block s).2
        [.control (dnload_ct s.interface block length buf) rets] ∧
      (((dfu_dnload buf length block s).1 = .fatal (.downloading_block_failed block) ∧
          (Op.control (dnload_ct s.interface block length buf) rets).transferFailed) ∨
        ((dfu_dnload buf length block s).1 = .ok ∧
          (Op.control (dnload_ct s.interface block length buf) rets).ok)) ∧
      (AllSucceed s → (dfu_dnload buf length block s).1 = .ok) := by
  obtain ⟨rets, hext, hlast, hall⟩ := usb_control_spec
    (USB_TYPE_CLASS ||| USB_RECIP_INTERFACE ||| USB_DIR_OUT) DFU_DNLOAD block s.interface
    length buf s
  rw [control_ct_dnload] at hext
  refine ⟨rets, ?_, ?_, ?_⟩
  · simp only [dfu_dnload]
    split <;> exact hext
  · simp only [dfu_dnload]
    split
    · next hneg =>
      left
      exact ⟨rfl, (control_failed_iff _ _ _ hlast).2 hneg⟩
    · next hpos =>
      right
      exact ⟨rfl, (control_ok_iff _ _ _ hlast).2 (by omega)⟩
  · intro h
    have := hall h
    simp only [dfu_dnload]
    split
    · omega
    · rfl

theorem failed_not_ok {op : Op} (h : op.transferFailed) : ¬ op.ok := by
  cases op <;> simp [Op.transferFailed] at h
  simp only [Op.ok]
  split at h
  · next r hr => simp [hr]; omega
  · exact h.elim

/-- What `dfu_status_wait` does: one GETSTATUS transfer, then at most one
sleep; fatal exactly when the transfer or the sleep fails. -/
theorem dfu_status_wait_spec (s : State) :
    ∃ rets tl, Extends s (dfu_status_wait s).2
        (.control (getstatus_ct s.interface) rets :: tl) ∧
      (((dfu_status_wait s).1 = .fatal .cannot_get_device_status ∧ tl = [] ∧
          (Op.control (getstatus_ct s.interface) rets).transferFailed) ∨
        ((Op.control (getstatus_ct s.interface) rets).ok ∧ tl = [] ∧
          (dfu_status_wait s).1 = .ok) ∨
        ((Op.control (getstatus_ct s.interface) rets).ok ∧
          ∃ sec nsec r, tl = [.nanosleep sec nsec r] ∧
            (dfu_status_wait s).1 = if r = -1 then .fatal .sleep_failed else .ok)) ∧
      (AllSucceed s → (dfu_status_wait s).1 = .ok) := by
  obtain ⟨rets, hext, hlast, hall⟩ := usb_control_spec
    (USB_TYPE_CLASS ||| USB_RECIP_INTERFACE ||| USB_DIR_IN) DFU_GETSTATUS 0 s.interface
    6 [] s
  rw [control_ct_getstatus] at hext
  generalize hu : usb_control (USB_TYPE_CLASS ||| USB_RECIP_INTERFACE ||| USB_DIR_IN)
    DFU_GETSTATUS 0 s.interface 6 [] s = u at hext hlast hall
  obtain ⟨err, s1⟩ := u
  simp only at hext hlast hall
  by_cases hneg : err.ret < 0
  · refine ⟨rets, [], ?_, ?_, ?_⟩
    · simpa [dfu_status_wait, hu, hneg] using hext
    · left
      exact ⟨by simp [dfu_status_wait, hu, hneg], rfl, (control_failed_iff _ _ _ hlast).2 hneg⟩
    · intro h
      have := hall h
      omega
  · have hok : (Op.control (getstatus_ct s.interface) rets).ok :=
      (control_ok_iff _ _ _ hlast).2 (by omega)
    by_cases hw : (if s1.wait_type = WAIT_BYTE3 then (err.status.bwPollTimeout 2).val else 0) > 0
    · refine ⟨rets, [.nanosleep
          ((if s1.wait_type = WAIT_BYTE3 then (err.status.bwPollTimeout 2).val else 0) / 1000)
          ((if s1.wait_type = WAIT_BYTE3 then (err.status.bwPollTimeout 2).val else 0) % 1000
            * 1000000) (s1.sys s1.clock).ret], ?_, ?_, ?_⟩
      · have h2 : Extends s1 (dfu_status_wait s).2 [.nanosleep
            ((if s1.wait_type = WAIT_BYTE3 then (err.status.bwPollTimeout 2).val else 0) / 1000)
            ((if s1.wait_type = WAIT_BYTE3 then (err.status.bwPollTimeout 2).val else 0) % 1000
              * 1000000) (s1.sys s1.clock).ret] := by
          simp only [dfu_status_wait, hu, hneg, hw, nanosleep, syscall, ↓reduceIte]
          split <;> simp only [Extends, State.log, true_and] <;> exact ⟨0, by simp⟩
        exact Extends.trans hext h2
      · right; right
        refine ⟨hok, _, _, _, rfl, ?_⟩
        simp only [dfu_status_wait, hu, hneg, hw, nanosleep, syscall, ↓reduceIte]
        split <;> rfl
      · intro h
        have h1 : s1.sys = s.sys := hext.2.2.2.2.2.1
        have := h s1.clock
        rw [← h1] at this
        simp only [dfu_status_wait, hu, hneg, hw, nanosleep, syscall, ↓reduceIte]
        rw [if_neg (by omega)]
    · refine ⟨rets, [], ?_, ?_, ?_⟩
      · simpa [dfu_status_wait, hu, hneg, hw] using hext
      · right; left
        exact ⟨hok, rfl, by simp only [dfu_status_wait, hu, hneg, hw, ↓reduceIte]⟩
      · intro _
        simp only [dfu_status_wait, hu, hneg, hw, ↓reduceIte]

theorem shape_refl (s : State) (st : Status) : Shape s st s :=
  ⟨[], extends_refl s, Or.inr (by simp), by simp⟩

theorem not_fails_ok {new : List Op} : ¬ Fails .ok new := by
  rintro ⟨f, pre, last, h, _⟩
  cases h

theorem Shape.step {s s1 s2 : State} {st : Status}
    (h1 : Shape s .ok s1) (h2 : Shape s1 st s2) : Shape s st s2 := by
  obtain ⟨new1, ho1, hc1, ha1⟩ := h1
  obtain ⟨new2, ho2, hc2, ha2⟩ := h2
  have hs1 : s1.sys = s.sys := ho1.2.2.2.2.2.1
  have hok1 : ∀ op ∈ new1, op.ok := by
    rcases hc1 with hf | hok
    · exact absurd hf not_fails_ok
    · exact hok
  refine ⟨new1 ++ new2, Extends.trans ho1 ho2, ?_, ?_⟩
  · rcases hc2 with ⟨f, pre, last, hst, hnew, hpre, hlast⟩ | hok2
    · left
      refine ⟨f, new1 ++ pre, last, hst, by rw [hnew, List.append_assoc], ?_, hlast⟩
      intro op hop
      rcases List.mem_append.1 hop with h | h
      · exact hok1 op h
      · exact hpre op h
    · right
      intro op hop
      rcases List.mem_append.1 hop with h | h
      · exact hok1 op h
      · exact hok2 op h
  · intro hall
    have hall1 : AllSucceed s1 := by
      intro n
      rw [hs1]
      exact hall n
    intro op hop
    rcases List.mem_append.1 hop with h | h
    · exact hok1 op h
    · exact ha2 hall1 op h

theorem dfu_dnload_shape (buf : List Byte) (length block : Nat) (s : State) :
    Shape s (dfu_dnload buf length block s).1 (dfu_dnload buf length block s).2 := by
  obtain ⟨rets, hext, hcase, hall⟩ := dfu_dnload_spec buf length block s
  refine ⟨_, hext, ?_, ?_⟩
  · rcases hcase with ⟨hst, hf⟩ | ⟨hst, hok⟩
    · left
      rw [hst]
      exact fails_single (failed_not_ok hf)
    · right
      intro op hop
      rw [List.mem_singleton.1 hop]
      exact hok
  · intro ha op hop
    rw [List.mem_singleton.1 hop]
    rcases hcase with ⟨hst, hf⟩ | ⟨hst, hok⟩
    · rw [hall ha] at hst
      cases hst
    · exact hok

theorem nanosleep_ok_iff (a b : Nat) (r : Int) : (Op.nanosleep a b r).ok ↔ r ≠ -1 := by
  simp [Op.ok]

theorem dfu_status_wait_shape (s : State) :
    Shape s (dfu_status_wait s).1 (dfu_status_wait s).2 := by
  obtain ⟨rets, tl, hext, hcase, hall⟩ := dfu_status_wait_spec s
  have hmain : Fails (dfu_status_wait s).1 (.control (getstatus_ct s.interface) rets :: tl) ∨
      ∀ op ∈ (Op.control (getstatus_ct s.interface) rets :: tl), op.ok := by
    rcases hcase with ⟨hst, htl, hf⟩ | ⟨hok, htl, hst⟩ | ⟨hok, sec, nsec, r, htl, hst⟩
    · left
      rw [hst, htl]
      exact fails_single (failed_not_ok hf)
    · right
      rw [htl]
      intro op hop
      rw [List.mem_singleton.1 hop]
      exact hok
    · by_cases hr : r = -1
      · left
        rw [hst, htl, if_pos hr]
        refine ⟨_, [.control (getstatus_ct s.interface) rets], .nanosleep sec nsec r, rfl,
          rfl, ?_, ?_⟩
        · intro op hop
          rw [List.mem_singleton.1 hop]
          exact hok
        · rw [nanosleep_ok_iff]
          simp [hr]
      · right
        rw [htl]
        intro op hop
        simp only [List.mem_cons, List.mem_singleton, List.not_mem_nil, or_false] at hop
        rcases hop with rfl | rfl
        · exact hok
        · rw [nanosleep_ok_iff]
          exact hr
  refine ⟨_, hext, hmain, ?_⟩
  intro ha
  rcases hmain with hf | hok
  · rw [hall ha] at hf
    exact absurd hf not_fails_ok
  · exact hok

/-- The download loop, whatever the kernel replies: the calls it issues all
succeed, or it has stopped with a fatal error at the first one that failed. -/
theorem download_loop_shape : ∀ (fuel pos block : Nat) (s : State),
    Shape s (download_loop fuel pos block s).1 (download_loop fuel pos block s).2.2 := by
  intro fuel
  induction fuel with
  | zero => intro pos block s; exact shape_refl s _
  | succ fuel ih =>
    intro pos block s
    rw [download_loop]
    split
    · have h1 := dfu_dnload_shape (s.firmware.drop pos)
        (if s.firmware_length - pos > s.transfer_size then s.transfer_size
          else s.firmware_length - pos) block s
      simp only
      generalize dfu_dnload (s.firmware.drop pos)
        (if s.firmware_length - pos > s.transfer_size then s.transfer_size
          else s.firmware_length - pos) block s = r1 at h1
      obtain ⟨st1, s1⟩ := r1
      cases st1 with
      | ok =>
        simp only
        have h2 := dfu_status_wait_shape s1
        generalize dfu_status_wait s1 = r2 at h2
        obtain ⟨st2, s2⟩ := r2
        cases st2 with
        | ok =>
          simp only
          split
          · refine Shape.step h1 ?_
            obtain ⟨new, hn, hc, ha⟩ := h2
            refine ⟨new, hn, Or.inr ?_, ha⟩
            rcases hc with hf | hok
            · exact absurd hf not_fails_ok
            · exact hok
          · exact Shape.step h1 (Shape.step h2 (ih _ _ s2))
        | fatal f => exact Shape.step h1 h2
        | undefined => exact Shape.step h1 h2
        | outOfFuel => exact Shape.step h1 h2
      | fatal f => exact h1
      | undefined => exact h1
      | outOfFuel => exact h1
    · exact shape_refl s _

theorem Extends.unique {s s' : State} {n1 n2 : List Op}
    (h1 : Extends s s' n1) (h2 : Extends s s' n2) : n1 = n2 :=
  List.append_cancel_left (h1.1.symm.trans h2.1)

theorem chunk_ct_succ (number T : Nat) (F : List Byte) (pos block k : Nat) :
    chunk_ct number T F pos block (k + 1) =
      chunk_ct number T F (pos + T) ((block + 1) % 65536) k := by
  have e1 : pos + (k + 1) * T = pos + T + k * T := by rw [Nat.succ_mul]; omega
  have e2 : (block + (k + 1)) % 65536 = ((block + 1) % 65536 + k) % 65536 := by omega
  simp only [chunk_ct, e1, e2]

theorem expected_chunks_succ (number T : Nat) (F : List Byte) (pos block n : Nat) :
    expected_chunks number T F pos block (n + 1) =
      chunk_ct number T F pos block 0 ::
        expected_chunks number T F (pos + T) ((block + 1) % 65536) n := by
  simp only [expected_chunks, List.range_succ_eq_map, List.map_cons, List.map_map]
  congr 1
  apply List.map_congr_left
  intro k _
  exact chunk_ct_succ number T F pos block k

theorem dnloads_append (xs ys : List Op) : dnloads (xs ++ ys) = dnloads xs ++ dnloads ys := by
  induction xs with
  | nil => rfl
  | cons x xs ih =>
    cases x
    case control ct rets =>
      simp only [List.cons_append, dnloads]
      split <;> simp [ih]
    all_goals simpa only [List.cons_append, dnloads] using ih

theorem dnloads_dnload (number block length : Nat) (buf : List Byte) (rets : List Int) :
    dnloads [.control (dnload_ct number block length buf) rets]
      = [dnload_ct number block length buf] := by
  simp [dnloads, dnload_ct, DFU_DNLOAD]

theorem dnloads_getstatus (number : Nat) (rets : List Int) (tl : List Op)
    (h : tl = [] ∨ ∃ a b r, tl = [.nanosleep a b r]) :
    dnloads (.control (getstatus_ct number) rets :: tl) = [] := by
  rcases h with rfl | ⟨a, b, r, rfl⟩ <;> simp [dnloads, getstatus_ct]

theorem chunk_ct_zero (number T : Nat) (F : List Byte) (pos block : Nat) (hb : block < 65536) :
    chunk_ct number T F pos block 0 =
      dnload_ct number block (if F.length - pos > T then T else F.length - pos)
        (F.drop pos) := by
  have e : min T (F.length - pos) = if F.length - pos > T then T else F.length - pos := by
    split <;> omega
  simp only [chunk_ct, Nat.zero_mul, Nat.add_zero, Nat.mod_eq_of_lt hb, e]

/-- The download loop when every call succeeds: with `n` chunks to go it
sends exactly the expected chunk transfers and returns (or, when the cursor
would leave the range of `int`, ends in undefined behaviour). -/
theorem download_loop_chunks : ∀ (n fuel pos b : Nat) (s : State)
    (r : Status × Nat × State) (new : List Op),
    download_loop fuel pos b s = r →
    1 ≤ s.transfer_size → n < fuel → b < 65536 → pos ≤ INT_MAX →
    (∀ j, j < n → pos + j * s.transfer_size < s.firmware.length) →
    s.firmware.length ≤ pos + n * s.transfer_size →
    Extends s r.2.2 new → (∀ op ∈ new, op.ok) →
    (pos + n * s.transfer_size ≤ INT_MAX →
      r.1 = .ok ∧ r.2.1 = (b + n) % 65536 ∧
      dnloads new = expected_chunks s.interface s.transfer_size s.firmware pos b n) ∧
    (INT_MAX < pos + n * s.transfer_size → r.1 = .undefined) := by
  intro n
  induction n with
  | zero =>
    intro fuel pos b s r new hr hT hfuel hb hpos hlt hge hext hok
    obtain ⟨f, rfl⟩ : ∃ f, fuel = f + 1 := ⟨fuel - 1, by omega⟩
    have hn : ¬ pos < s.firmware_length := by
      simp only [State.firmware_length]; omega
    rw [download_loop, if_neg hn] at hr
    subst hr
    have hnew : new = [] := Extends.unique hext (extends_refl s)
    subst hnew
    refine ⟨fun _ => ⟨rfl, ?_, ?_⟩, fun h => by omega⟩
    · simp only [Nat.add_zero]; omega
    · simp [dnloads, expected_chunks]
  | succ k ih =>
    intro fuel pos b s r new hr hT hfuel hb hpos hlt hge hext hok
    obtain ⟨f, rfl⟩ : ∃ f, fuel = f + 1 := ⟨fuel - 1, by omega⟩
    have hp : pos < s.firmware_length := by
      have := hlt 0 (by omega)
      simpa [State.firmware_length] using this
    have hmul : (k + 1) * s.transfer_size = k * s.transfer_size + s.transfer_size :=
      Nat.succ_mul k _
    rw [download_loop, if_pos hp] at hr
    simp only at hr
    obtain ⟨rets1, hext1, hcase1, -⟩ := dfu_dnload_spec (s.firmware.drop pos)
      (if s.firmware_length - pos > s.transfer_size then s.transfer_size
        else s.firmware_length - pos) b s
    generalize dfu_dnload (s.firmware.drop pos)
      (if s.firmware_length - pos > s.transfer_size then s.transfer_size
        else s.firmware_length - pos) b s = r1 at hr hext1 hcase1
    obtain ⟨st1, s1⟩ := r1
    simp only at hext1 hcase1
    rcases hcase1 with ⟨hst1, hf1⟩ | ⟨hst1, hok1⟩
    · subst hst1
      simp only at hr
      subst hr
      have hnew := Extends.unique hext hext1
      subst hnew
      exact absurd (hok _ (List.mem_singleton_self _)) (failed_not_ok hf1)
    · subst hst1
      simp only at hr
      obtain ⟨rets2, tl, hext2, hcase2, -⟩ := dfu_status_wait_spec s1
      generalize dfu_status_wait s1 = r2 at hr hext2 hcase2
      obtain ⟨st2, s2⟩ := r2
      simp only at hext2 hcase2
      have hi1 : s1.interface = s.interface := hext1.2.1
      rw [hi1] at hext2 hcase2
      have hext12 := Extends.trans hext1 hext2
      have hT2 : s2.transfer_size = s.transfer_size := hext12.2.2.1
      have hF2 : s2.firmware = s.firmware := hext12.2.2.2.1
      have hI2 : s2.interface = s.interface := hext12.2.1
      -- the continuation once the status query and the sleep went through
      have cont : (tl = [] ∨ ∃ a c e, tl = [Op.nanosleep a c e]) → st2 = .ok →
          (pos + (k + 1) * s.transfer_size ≤ INT_MAX →
            r.1 = .ok ∧ r.2.1 = (b + (k + 1)) % 65536 ∧
            dnloads new = expected_chunks s.interface s.transfer_size s.firmware pos b (k + 1)) ∧
          (INT_MAX < pos + (k + 1) * s.transfer_size → r.1 = .undefined) := by
        intro htl hst2
        subst hst2
        simp only [hT2] at hr
        by_cases hov : pos + s.transfer_size > INT_MAX
        · rw [if_pos hov] at hr
          subst hr
          exact ⟨fun h => by omega, fun _ => rfl⟩
        · rw [if_neg hov] at hr
          obtain ⟨new', hext', -, -⟩ := download_loop_shape f (pos + s.transfer_size)
            ((b + 1) % 65536) s2
          rw [hr] at hext'
          have hnew := Extends.unique hext (Extends.trans hext12 hext')
          have hok' : ∀ op ∈ new', op.ok := fun op hop => hok op (by rw [hnew]; simp [hop])
          have hih := ih f (pos + s.transfer_size) ((b + 1) % 65536) s2 r new' hr
            (by rw [hT2]; exact hT) (by omega) (by omega) (by omega)
            (by
              intro j hj
              have := hlt (j + 1) (by omega)
              rw [hT2, hF2]
              rw [Nat.succ_mul] at this
              omega)
            (by rw [hT2, hF2]; omega) hext' hok'
          rw [hT2, hF2, hI2] at hih
          constructor
          · intro hle
            obtain ⟨h1, h2, h3⟩ := hih.1 (by omega)
            refine ⟨h1, ?_, ?_⟩
            · rw [h2]; omega
            · rw [hnew, dnloads_append, dnloads_append, dnloads_dnload,
                dnloads_getstatus _ _ _ htl, h3, expected_chunks_succ,
                chunk_ct_zero _ _ _ _ _ hb]
              simp [State.firmware_length]
          · intro hgt
            exact hih.2 (by omega)
      rcases hcase2 with ⟨hst2, htl, hf2⟩ | ⟨hok2, htl, hst2⟩ | ⟨hok2, sec, nsec, rr, htl, hst2⟩
      · subst hst2
        simp only at hr
        subst hr
        have hnew := Extends.unique hext hext12
        exact absurd (hok _ (by rw [hnew]; simp)) (failed_not_ok hf2)
      · exact cont (Or.inl htl) hst2
      · by_cases hrr : rr = -1
        · rw [if_pos hrr] at hst2
          subst hst2
          simp only at hr
          subst hr
          have hnew := Extends.unique hext hext12
          have := hok (.nanosleep sec nsec rr) (by rw [hnew, htl]; simp)
          rw [nanosleep_ok_iff] at this
          exact absurd hrr this
        · rw [if_neg hrr] at hst2
          exact cont (Or.inr ⟨sec, nsec, rr, htl⟩) hst2

theorem download_firmware_eq (s : State) :
    download_firmware s =
      if (s.sys s.clock).ret = -1 then
        (.fatal .cannot_open,
          ({ s with clock := s.clock + 1 } : State).log (.open (s.sys s.clock).ret))
      else
        match parse_descriptors
          (({ s with clock := s.clock + 1 } : State).log (.open (s.sys s.clock).ret)) with
        | (.ok, s2) => download_session s2
        | (st, s2) => (st, s2) := by
  simp only [download_firmware, syscall, download_session]

theorem parse_loop_sameWorld : ∀ (fuel : Nat) (b : Bool) (s : State),
    s.sameWorld (parse_loop fuel b s).2 := by
  intro fuel
  induction fuel with
  | zero => intro b s; simp [parse_loop, State.sameWorld]
  | succ fuel ih =>
    intro b s
    have hi := (parse_iteration_iter b s).sameWorld
    rw [parse_loop]
    generalize parse_iteration b s = r at hi
    obtain ⟨fl, s1⟩ := r
    cases fl with
    | stop st => exact hi
    | next found =>
      have h2 := ih found s1
      simp only at hi ⊢
      obtain ⟨a1, a2, a3, a4, a5, a6, a7⟩ := hi
      obtain ⟨b1, b2, b3, b4, b5, b6, b7⟩ := h2
      exact ⟨b1.trans a1, b2.trans a2, b3.trans a3, b4.trans a4, b5.trans a5, b6.trans a6,
        b7.trans a7⟩

/-- The transfer size the scanner leaves behind: within `1 .. 65535` when it
returns, `0` when it ends in the fatal error. -/
theorem parse_loop_size : ∀ (fuel : Nat) (b : Bool) (s : State),
    1 ≤ s.transfer_size → s.transfer_size ≤ 65535 →
    ((parse_loop fuel b s).1 = .fatal (.invalid_transfer_size 0) ∧
        (parse_loop fuel b s).2.transfer_size = 0) ∨
      (((parse_loop fuel b s).1 = .ok ∨ (parse_loop fuel b s).1 = .outOfFuel) ∧
        1 ≤ (parse_loop fuel b s).2.transfer_size ∧
        (parse_loop fuel b s).2.transfer_size ≤ 65535) := by
  intro fuel
  induction fuel with
  | zero => intro b s h1 h2; right; simp [parse_loop, h1, h2]
  | succ fuel ih =>
    intro b s h1 h2
    have hi := parse_iteration_iter b s
    rw [parse_loop]
    generalize parse_iteration b s = r at hi
    cases hi
    case eof => right; simp [h1, h2]
    case badlen => right; simp [h1, h2]
    case iface_short => right; simp [h1, h2]
    case func_short => right; simp [h1, h2]
    case iface => exact ih _ _ h1 h2
    case other => exact ih _ _ h1 h2
    case func a b' d0 d1 d2 d3 d4 t hfound h hb ha =>
      have := d3.isLt
      have := d4.isLt
      by_cases hz : d3.val + 256 * d4.val < 1
      · left
        have e : d3.val + 256 * d4.val = 0 := by omega
        simp [e]
      · simp only [hz, if_false]
        exact ih _ _ (by simp only; omega) (by simp only; omega)

theorem parse_descriptors_size (s : State) (h1 : 1 ≤ s.transfer_size)
    (h2 : s.transfer_size ≤ 65535) (ho : s.offset = 0) :
    ((parse_descriptors s).1 = .fatal (.invalid_transfer_size 0) ∧
        (parse_descriptors s).2.transfer_size = 0) ∨
      ((parse_descriptors s).1 = .ok ∧
        1 ≤ (parse_descriptors s).2.transfer_size ∧
        (parse_descriptors s).2.transfer_size ≤ 65535) := by
  have ht := parse_loop_total (s.descriptors.length / 2) false s (by omega)
  rcases parse_loop_size (s.descriptors.length / 2 + 1) false s h1 h2 with h | ⟨h, h3⟩
  · exact Or.inl h
  · right
    rcases h with h | h
    · exact ⟨h, h3⟩
    · exact absurd h ht

theorem chunk_count_spec (L T : Nat) (hT : 1 ≤ T) :
    (∀ j, j < chunk_count L T → j * T < L) ∧ L ≤ chunk_count L T * T ∧
      chunk_count L T ≤ L := by
  unfold chunk_count
  have hdm := Nat.div_add_mod (L + T - 1) T
  have hmod := Nat.mod_lt (L + T - 1) (by omega : T > 0)
  generalize (L + T - 1) / T = q at hdm
  generalize (L + T - 1) % T = r at hdm hmod
  refine ⟨?_, ?_, ?_⟩
  · intro j hj
    have h1 : T * (j + 1) ≤ T * q := Nat.mul_le_mul_left T (by omega)
    rw [Nat.mul_add, Nat.mul_one] at h1
    rw [Nat.mul_comm j T]
    omega
  · rw [Nat.mul_comm q T]
    omega
  · by_contra hc
    have h1 : T * (L + 1) ≤ T * q := Nat.mul_le_mul_left T (by omega)
    rw [Nat.mul_add, Nat.mul_one] at h1
    have h2 : L ≤ T * L := Nat.le_mul_of_pos_left L (by omega)
    omega

theorem fails_last_mem {st : Status} {new : List Op} (h : Fails st new) :
    ∃ last ∈ new, ¬ last.ok := by
  obtain ⟨f, pre, last, _, hnew, _, hlast⟩ := h
  exact ⟨last, by rw [hnew]; simp, hlast⟩

theorem fails_prefix {st : Status} {pre new : List Op} (hpre : ∀ op ∈ pre, op.ok)
    (h : Fails st new) : Fails st (pre ++ new) := by
  obtain ⟨f, p, last, hst, hnew, hp, hlast⟩ := h
  refine ⟨f, pre ++ p, last, hst, by rw [hnew, List.append_assoc], ?_, hlast⟩
  intro op hop
  rcases List.mem_append.1 hop with h | h
  · exact hpre op h
  · exact hp op h

theorem fails_fatal {st : Status} {new : List Op} (h : Fails st new) : ∃ f, st = .fatal f := by
  obtain ⟨f, _, _, hst, _⟩ := h
  exact ⟨f, hst⟩

theorem usb_claim_interface_spec (number : Nat) (s : State) :
    Extends s (usb_claim_interface number s).2
      [.claim_interface number (usb_claim_interface number s).1] ∧
    (AllSucceed s → (usb_claim_interface number s).1 ≠ -1) := by
  simp only [usb_claim_interface, syscall, State.log, Extends, true_and]
  refine ⟨⟨0, by simp⟩, fun h => ?_⟩
  have := h s.clock
  omega

theorem usb_reset_spec (s : State) :
    Extends s (usb_reset s).2 [.reset (usb_reset s).1] := by
  simp only [usb_reset, syscall, State.log, Extends, true_and]
  exact ⟨0, by simp⟩

theorem allSucceed_of_extends {s s' : State} {new : List Op} (h : Extends s s' new)
    (hall : AllSucceed s) : AllSucceed s' := by
  intro n
  rw [h.2.2.2.2.2.1]
  exact hall n

/-- How a session can go once the scanner has returned: it stops in a fatal
error at the first failing call; or every call succeeds and the loop cursor
leaves the range of `int`; or every call succeeds and the session runs
through claim, chunks, terminating block, status query, reset and close. -/
theorem download_session_analysis (s : State) (hT : 1 ≤ s.transfer_size) :
    (∃ tl, Extends s (download_session s).2
        ([.claim_interface s.interface (s.sys s.clock).ret] ++ tl) ∧
      Fails (download_session s).1 ([.claim_interface s.interface (s.sys s.clock).ret] ++ tl) ∧
      ((s.sys s.clock).ret = -1 →
        tl = [] ∧ (download_session s).1 = .fatal (.cannot_claim_interface s.interface)) ∧
      ¬ AllSucceed s) ∨
    (∃ tl, Extends s (download_session s).2
        ([.claim_interface s.interface (s.sys s.clock).ret] ++ tl) ∧
      (∀ op ∈ [Op.claim_interface s.interface (s.sys s.clock).ret] ++ tl, op.ok) ∧
      (download_session s).1 = .undefined ∧
      INT_MAX < chunk_count s.firmware.length s.transfer_size * s.transfer_size) ∨
    (∃ loopnew rets1 rets2 tl e2 s7,
      Extends s s7 ([.claim_interface s.interface (s.sys s.clock).ret] ++ loopnew ++
        [.control (dnload_ct s.interface
          (chunk_count s.firmware.length s.transfer_size % 65536) 0 s.firmware) rets1] ++
        (.control (getstatus_ct s.interface) rets2 :: tl) ++ [.reset e2]) ∧
      (s.sys s.clock).ret ≠ -1 ∧ (∀ op ∈ loopnew, op.ok) ∧
      (Op.control (dnload_ct s.interface
          (chunk_count s.firmware.length s.transfer_size % 65536) 0 s.firmware) rets1).ok ∧
      (Op.control (getstatus_ct s.interface) rets2).ok ∧ (∀ op ∈ tl, op.ok) ∧
      (tl = [] ∨ ∃ a b c, tl = [.nanosleep a b c]) ∧
      dnloads loopnew = expected_chunks s.interface s.transfer_size s.firmware 0 0
        (chunk_count s.firmware.length s.transfer_size) ∧
      chunk_count s.firmware.length s.transfer_size * s.transfer_size ≤ INT_MAX ∧
      download_session s =
        (.ok, (if e2 = -1 then warning .cannot_reset_device s7 else s7).log .close)) := by
  obtain ⟨hn1, hn2, hn3⟩ := chunk_count_spec s.firmware.length s.transfer_size hT
  generalize chunk_count s.firmware.length s.transfer_size = n at hn1 hn2 hn3 ⊢
  obtain ⟨hce, -⟩ := usb_claim_interface_spec s.interface s
  generalize hcl : usb_claim_interface s.interface s = rc at hce
  obtain ⟨e, s3⟩ := rc
  have hee : e = (s.sys s.clock).ret := by
    have := congrArg Prod.fst hcl
    simpa [usb_claim_interface, syscall] using this.symm
  subst hee
  simp only at hce
  have hF3 : s3.firmware = s.firmware := hce.2.2.2.1
  have hT3 : s3.transfer_size = s.transfer_size := hce.2.2.1
  have hI3 : s3.interface = s.interface := hce.2.1
  by_cases he : (s.sys s.clock).ret = -1
  · left
    have hds : download_session s = (.fatal (.cannot_claim_interface s.interface), s3) := by
      simp only [download_session, hcl, he, if_true]
    rw [hds]
    exact ⟨[], by simpa using hce, by simpa using fails_single (by simp [Op.ok, he]),
      fun _ => ⟨rfl, rfl⟩, fun h => by have := h s.clock; omega⟩
  · have hcok : ∀ op ∈ [Op.claim_interface s.interface (s.sys s.clock).ret], op.ok := by
      intro op hop
      rw [List.mem_singleton.1 hop]
      simpa [Op.ok] using he
    obtain ⟨loopnew, hle, hlcase, hlall⟩ :=
      download_loop_shape (s3.firmware_length + 1) 0 0 s3
    have hall3 : AllSucceed s → AllSucceed s3 := fun h => allSucceed_of_extends hce h
    have hchunks := download_loop_chunks n (s3.firmware_length + 1) 0 0 s3 _ loopnew rfl
      (by rw [hT3]; exact hT) (by simp only [State.firmware_length, hF3]; omega)
      (by omega) (by simp [INT_MAX])
      (by intro j hj; rw [hT3, hF3]; simpa using hn1 j hj)
      (by rw [hT3, hF3]; simpa using hn2) hle
    rw [hT3, hF3, hI3] at hchunks
    simp only [Nat.zero_add] at hchunks
    generalize hlp : download_loop (s3.firmware_length + 1) 0 0 s3 = rl
      at hle hlcase hchunks hlall
    obtain ⟨stl, bl, s4⟩ := rl
    simp only at hle hlcase hchunks hlall
    have hds1 : download_session s =
        match (stl, bl, s4) with
        | (.ok, block, s4) =>
          match dfu_dnload s4.firmware 0 block s4 with
          | (.ok, s5) =>
            match dfu_status_wait s5 with
            | (.ok, s6) =>
              match usb_reset s6 with
              | (e2, s7) =>
                (.ok, (if e2 = -1 then warning .cannot_reset_device s7 else s7).log .close)
            | (st, s6) => (st, s6)
          | (st, s5) => (st, s5)
        | (st, _, s4) => (st, s4) := by
      simp only [download_session, hcl, he, if_false, hlp]
    rcases hlcase with hf | hlok
    · left
      obtain ⟨f, hst⟩ := fails_fatal hf
      subst hst
      simp only at hds1
      rw [hds1]
      refine ⟨_, Extends.trans hce hle, fails_prefix hcok hf, fun h => absurd h he, ?_⟩
      intro hall
      obtain ⟨last, hmem, hlast⟩ := fails_last_mem hf
      exact hlast (hlall (hall3 hall) last hmem)
    · by_cases hov : n * s.transfer_size ≤ INT_MAX
      · obtain ⟨hs1, hs2, hs3⟩ := (hchunks hlok).1 hov
        subst hs1
        subst hs2
        simp only at hds1
        have hce4 := Extends.trans hce hle
        have hF4 : s4.firmware = s.firmware := hce4.2.2.2.1
        have hI4 : s4.interface = s.interface := hce4.2.1
        have hpre4 : ∀ op ∈ [Op.claim_interface s.interface (s.sys s.clock).ret] ++ loopnew, op.ok := by
          intro op hop
          rcases List.mem_append.1 hop with h | h
          · exact hcok op h
          · exact hlok op h
        obtain ⟨rets1, hde, hdcase, hdall⟩ := dfu_dnload_spec s4.firmware 0 (n % 65536) s4
        rw [hF4, hI4] at hde hdcase
        rw [hF4] at hds1 hdall
        generalize dfu_dnload s.firmware 0 (n % 65536) s4 = rd at hds1 hde hdcase hdall
        obtain ⟨std, s5⟩ := rd
        simp only at hde hdcase hdall
        have hall4 : AllSucceed s → AllSucceed s4 := fun h => allSucceed_of_extends hce4 h
        have hce5 := Extends.trans hce4 hde
        rcases hdcase with ⟨hst, hfail⟩ | ⟨hst, hok1⟩
        · left
          subst hst
          simp only at hds1
          rw [hds1]
          refine ⟨loopnew ++ [.control (dnload_ct s.interface (n % 65536) 0 s.firmware) rets1],
            by simpa [List.append_assoc] using hce5, ?_, fun h => absurd h he, ?_⟩
          · simpa [List.append_assoc] using
              fails_prefix hpre4 (fails_single (failed_not_ok hfail))
          · intro hall
            have := hdall (hall4 hall)
            cases this
        · subst hst
          simp only at hds1
          have hpre5 : ∀ op ∈ [Op.claim_interface s.interface (s.sys s.clock).ret] ++ loopnew ++
              [.control (dnload_ct s.interface (n % 65536) 0 s.firmware) rets1], op.ok := by
            intro op hop
            rcases List.mem_append.1 hop with h | h
            · exact hpre4 op h
            · rw [List.mem_singleton.1 h]; exact hok1
          have hI5 : s5.interface = s.interface := hce5.2.1
          obtain ⟨rets2, tl, hwe, hwcase, hwall⟩ := dfu_status_wait_spec s5
          rw [hI5] at hwe hwcase
          generalize dfu_status_wait s5 = rw at hds1 hwe hwcase hwall
          obtain ⟨stw, s6⟩ := rw
          simp only at hwe hwcase hwall
          have hall5 : AllSucceed s → AllSucceed s5 := fun h => allSucceed_of_extends hce5 h
          have hce6 := Extends.trans hce5 hwe
          -- the end of the session once the last status query went through
          have fin : (Op.control (getstatus_ct s.interface) rets2).ok → (∀ op ∈ tl, op.ok) →
              (tl = [] ∨ ∃ a b c, tl = [Op.nanosleep a b c]) → stw = .ok →
              ∃ loopnew rets1 rets2 tl e2 s7,
                Extends s s7 ([.claim_interface s.interface (s.sys s.clock).ret] ++ loopnew ++
                  [.control (dnload_ct s.interface (n % 65536) 0 s.firmware) rets1] ++
                  (.control (getstatus_ct s.interface) rets2 :: tl) ++ [.reset e2]) ∧
                (s.sys s.clock).ret ≠ -1 ∧ (∀ op ∈ loopnew, op.ok) ∧
                (Op.control (dnload_ct s.interface (n % 65536) 0 s.firmware) rets1).ok ∧
                (Op.control (getstatus_ct s.interface) rets2).ok ∧ (∀ op ∈ tl, op.ok) ∧
                (tl = [] ∨ ∃ a b c, tl = [.nanosleep a b c]) ∧
                dnloads loopnew = expected_chunks s.interface s.transfer_size s.firmware 0 0
                  n ∧
                n * s.transfer_size ≤ INT_MAX ∧
                download_session s =
                  (.ok, (if e2 = -1 then warning .cannot_reset_device s7 else s7).log
                    .close) := by
            intro hok2 htlok htl hst
            subst hst
            simp only at hds1
            have hre := usb_reset_spec s6
            generalize usb_reset s6 = rr at hds1 hre
            obtain ⟨e2, s7⟩ := rr
            simp only at hds1 hre
            exact ⟨loopnew, rets1, rets2, tl, e2, s7, Extends.trans hce6 hre, he, hlok,
              hok1, hok2, htlok, htl, hs3, hov, hds1⟩
          rcases hwcase with ⟨hst, htl, hf2⟩ | ⟨hok2, htl, hst⟩ | ⟨hok2, sec, nsec, rr, htl, hst⟩
          · left
            subst hst
            subst htl
            simp only at hds1
            rw [hds1]
            refine ⟨loopnew ++ [.control (dnload_ct s.interface (n % 65536) 0 s.firmware) rets1]
              ++ [.control (getstatus_ct s.interface) rets2],
              by simpa [List.append_assoc] using hce6, ?_, fun h => absurd h he, ?_⟩
            · simpa [List.append_assoc] using
                fails_prefix hpre5 (fails_single (failed_not_ok hf2))
            · intro hall
              have := hwall (hall5 hall)
              cases this
          · right; right
            exact fin hok2 (by rw [htl]; simp) (Or.inl htl) hst
          · by_cases hrr : rr = -1
            · left
              rw [if_pos hrr] at hst
              subst hst
              subst htl
              simp only at hds1
              rw [hds1]
              have hfl : Fails (.fatal .sleep_failed)
                  [Op.control (getstatus_ct s.interface) rets2, .nanosleep sec nsec rr] := by
                refine ⟨_, [.control (getstatus_ct s.interface) rets2],
                  .nanosleep sec nsec rr, rfl, rfl, ?_, ?_⟩
                · intro op hop
                  rw [List.mem_singleton.1 hop]
                  exact hok2
                · rw [nanosleep_ok_iff]
                  simp [hrr]
              refine ⟨loopnew ++
                [.control (dnload_ct s.interface (n % 65536) 0 s.firmware) rets1]
                ++ [.control (getstatus_ct s.interface) rets2, .nanosleep sec nsec rr],
                by simpa [List.append_assoc] using hce6, ?_, fun h => absurd h he, ?_⟩
              · simpa [List.append_assoc] using fails_prefix hpre5 hfl
              · intro hall
                have := hwall (hall5 hall)
                cases this
            · right; right
              rw [if_neg hrr] at hst
              refine fin hok2 ?_ (Or.inr ⟨sec, nsec, rr, htl⟩) hst
              rw [htl]
              intro op hop
              rw [List.mem_singleton.1 hop, nanosleep_ok_iff]
              exact hrr
      · right; left
        have hst := (hchunks hlok).2 (by omega)
        subst hst
        simp only at hds1
        rw [hds1]
        refine ⟨_, Extends.trans hce hle, ?_, rfl, by omega⟩
        intro op hop
        rcases List.mem_append.1 hop with h | h
        · exact hcok op h
        · exact hlok op h

/-- How `download_firmware` can start: the device file cannot be opened, the
scanner ends in the fatal error, or the session proper begins. -/
theorem download_firmware_analysis (wait_type : Nat) (F stream : List Byte)
    (sys : Nat → Reply) :
    ((sys 0).ret = -1 ∧
      (download_firmware (State.init wait_type F stream sys)).1 = .fatal .cannot_open ∧
      (download_firmware (State.init wait_type F stream sys)).2.ops = [.open (sys 0).ret]) ∨
    ((sys 0).ret ≠ -1 ∧
      (parse_descriptors (after_open (State.init wait_type F stream sys))).1
        = .fatal (.invalid_transfer_size 0) ∧
      (download_firmware (State.init wait_type F stream sys)).1
        = .fatal (.invalid_transfer_size 0) ∧
      (download_firmware (State.init wait_type F stream sys)).2.ops = [.open (sys 0).ret] ∧
      (download_firmware (State.init wait_type F stream sys)).2.transfer_size = 0 ∧
      (download_firmware (State.init wait_type F stream sys)).2
        = (parse_descriptors (after_open (State.init wait_type F stream sys))).2) ∨
    (∃ s2, (sys 0).ret ≠ -1 ∧
      parse_descriptors (after_open (State.init wait_type F stream sys)) = (.ok, s2) ∧
      download_firmware (State.init wait_type F stream sys) = download_session s2 ∧
      s2.ops = [.open (sys 0).ret] ∧ 1 ≤ s2.transfer_size ∧ s2.transfer_size ≤ 65535 ∧
      s2.firmware = F ∧ s2.sys = sys ∧ s2.clock = 1 ∧ s2.wait_type = wait_type ∧
      s2.warnings = []) := by
  have heq := download_firmware_eq (State.init wait_type F stream sys)
  by_cases hopen : (sys 0).ret = -1
  · left
    have : ((State.init wait_type F stream sys).sys (State.init wait_type F stream sys).clock).ret
        = -1 := by simpa [State.init] using hopen
    rw [if_pos this] at heq
    rw [heq]
    exact ⟨hopen, rfl, by simp [State.init, State.log]⟩
  · right
    have : ¬ ((State.init wait_type F stream sys).sys
        (State.init wait_type F stream sys).clock).ret = -1 := by
      simpa [State.init] using hopen
    rw [if_neg this] at heq
    change download_firmware (State.init wait_type F stream sys) =
      (match parse_descriptors (after_open (State.init wait_type F stream sys)) with
        | (.ok, s2) => download_session s2
        | (st, s2) => (st, s2)) at heq
    have hw := parse_loop_sameWorld
      ((after_open (State.init wait_type F stream sys)).descriptors.length / 2 + 1) false
      (after_open (State.init wait_type F stream sys))
    have hsz := parse_descriptors_size (after_open (State.init wait_type F stream sys))
      (by simp [after_open, State.init, State.log])
      (by simp [after_open, State.init, State.log])
      (by simp [after_open, State.init, State.log])
    change (after_open (State.init wait_type F stream sys)).sameWorld
      (parse_descriptors (after_open (State.init wait_type F stream sys))).2 at hw
    generalize parse_descriptors (after_open (State.init wait_type F stream sys)) = rp
      at heq hw hsz
    obtain ⟨stp, s2⟩ := rp
    obtain ⟨w1, w2, w3, w4, w5, w6, w7⟩ := hw
    simp only [after_open, State.init, State.log, List.nil_append] at w1 w2 w3 w4 w5 w6 w7
    rcases hsz with ⟨hst, hz⟩ | ⟨hst, h1, h2⟩
    · left
      simp only at hst hz
      subst hst
      simp only at heq
      rw [heq]
      exact ⟨hopen, rfl, rfl, w2, hz, rfl⟩
    · right
      simp only at hst h1 h2
      subst hst
      simp only at heq
      exact ⟨s2, hopen, rfl, heq, w2, h1, h2, w5, w4, w3, w6, w7⟩

/-- A session in which the scanner returned a transfer size, every call
succeeded and the cursor stayed within `int`: it completes, the DNLOAD
transfers are the expected chunks followed by the zero-length terminating
block, and the trace ends with the reset and the close. -/
theorem download_firmware_complete (wait_type : Nat) (F stream : List Byte)
    (sys : Nat → Reply)
    (hT : 0 < (download_firmware (State.init wait_type F stream sys)).2.transfer_size)
    (hok : ∀ op ∈ (download_firmware (State.init wait_type F stream sys)).2.ops, op.ok)
    (hdef : ¬ ((download_firmware (State.init wait_type F stream sys)).1 = .undefined ∧
      INT_MAX < chunk_count F.length
          (download_firmware (State.init wait_type F stream sys)).2.transfer_size *
        (download_firmware (State.init wait_type F stream sys)).2.transfer_size)) :
    (download_firmware (State.init wait_type F stream sys)).1 = .ok ∧
    (download_firmware (State.init wait_type F stream sys)).2.transfer_size ≤ 65535 ∧
    dnloads (download_firmware (State.init wait_type F stream sys)).2.ops =
      expected_chunks (download_firmware (State.init wait_type F stream sys)).2.interface
        (download_firmware (State.init wait_type F stream sys)).2.transfer_size F 0 0
        (chunk_count F.length
          (download_firmware (State.init wait_type F stream sys)).2.transfer_size) ++
      [dnload_ct (download_firmware (State.init wait_type F stream sys)).2.interface
        (chunk_count F.length
          (download_firmware (State.init wait_type F stream sys)).2.transfer_size % 65536)
        0 F] ∧
    ∃ pre e2 k, (download_firmware (State.init wait_type F stream sys)).2.ops
        = pre ++ [.reset e2, .close] ∧
      (download_firmware (State.init wait_type F stream sys)).2.warnings
        = List.replicate k Warning.control_transfer_failed ++
          (if e2 = -1 then [Warning.cannot_reset_device] else []) := by
  rcases download_firmware_analysis wait_type F stream sys with
    ⟨hopen, -, hops⟩ | ⟨-, -, -, -, hz, -⟩ |
    ⟨s2, hopen, -, heq, hops2, h1, h2, hF, -, -, -, hw2⟩
  · have := hok (.open (sys 0).ret) (by rw [hops]; simp)
    simp only [Op.ok] at this
    exact absurd hopen this
  · omega
  · rw [heq] at hT hok hdef ⊢
    rcases download_session_analysis s2 h1 with
      ⟨tl, hext, hf, -, -⟩ | ⟨tl, hextb, -, hu, hovb⟩ |
      ⟨loopnew, rets1, rets2, tl, e2, s7, hext, -, -, -, -, -, htl, hdn, -, hres⟩
    · obtain ⟨last, hmem, hlast⟩ := fails_last_mem hf
      exact absurd (hok last (by rw [hext.1]; exact List.mem_append_right _ hmem)) hlast
    · refine absurd ⟨hu, ?_⟩ hdef
      rw [hextb.2.2.1, ← hF]
      exact hovb
    · rw [hF] at hext hdn
      obtain ⟨e1, e2', e3, e4, e5, e6, e7, e8, k, e9⟩ := hext
      rw [hres]
      have hts : ((if e2 = -1 then warning .cannot_reset_device s7 else s7).log
          .close).transfer_size = s2.transfer_size := by
        split <;> simpa [State.log, warning] using e3
      have hif : ((if e2 = -1 then warning .cannot_reset_device s7 else s7).log
          .close).interface = s2.interface := by
        split <;> simpa [State.log, warning] using e2'
      have hop : ((if e2 = -1 then warning .cannot_reset_device s7 else s7).log
          .close).ops = s7.ops ++ [.close] := by
        split <;> simp [State.log, warning]
      have hwa : ((if e2 = -1 then warning .cannot_reset_device s7 else s7).log
          .close).warnings = s7.warnings ++
            (if e2 = -1 then [Warning.cannot_reset_device] else []) := by
        split <;> simp [State.log, warning]
      simp only [hts, hif, hop, hwa]
      refine ⟨trivial, h2, ?_, ?_⟩
      · rw [e1, hops2]
        simp only [dnloads_append, dnloads_dnload, dnloads_getstatus _ _ _ htl, hdn]
        simp [dnloads]
      · refine ⟨s2.ops ++ ([.claim_interface s2.interface (s2.sys s2.clock).ret] ++ loopnew ++
            [.control (dnload_ct s2.interface
              (chunk_count F.length s2.transfer_size % 65536) 0 F) rets1] ++
            (.control (getstatus_ct s2.interface) rets2 :: tl)), e2, k, ?_, ?_⟩
        · rw [e1]
          simp [List.append_assoc]
        · rw [e9, hw2, List.nil_append]

theorem expected_chunks_wValue (number T : Nat) (F : List Byte) (n : Nat) :
    (expected_chunks number T F 0 0 n).map (fun ct => ct.wValue)
      = (List.range n).map (fun k => k % 65536) := by
  simp only [expected_chunks, List.map_map]
  apply List.map_congr_left
  intro k _
  simp [chunk_ct, dnload_ct]

theorem expected_chunks_wLength (number T : Nat) (F : List Byte) (hT : 1 ≤ T)
    (hT2 : T ≤ 65535) (hL : 0 < F.length) :
    (expected_chunks number T F 0 0 (chunk_count F.length T)).map (fun ct => ct.wLength)
      = List.replicate (chunk_count F.length T - 1) T ++
        [if F.length % T = 0 then T else F.length % T] := by
  obtain ⟨hn1, hn2, -⟩ := chunk_count_spec F.length T hT
  generalize chunk_count F.length T = n at hn1 hn2
  obtain ⟨m, rfl⟩ : ∃ m, n = m + 1 := by
    refine ⟨n - 1, ?_⟩
    have : n ≠ 0 := by
      intro h0
      rw [h0] at hn2
      omega
    omega
  have hmT : (m + 1) * T = m * T + T := Nat.succ_mul m T
  simp only [expected_chunks, List.range_succ, List.map_append, List.map_cons, List.map_nil,
    Nat.add_sub_cancel, List.map_map]
  congr 1
  · rw [List.eq_replicate_iff]
    refine ⟨by simp, ?_⟩
    intro x hx
    obtain ⟨k, hk, rfl⟩ := List.mem_map.1 hx
    have hk' : k < m := List.mem_range.1 hk
    have h1 := hn1 (k + 1) (by omega)
    rw [Nat.succ_mul] at h1
    simp only [Function.comp, chunk_ct, dnload_ct, Nat.zero_add]
    rw [Nat.min_eq_left (by omega)]
    exact Nat.mod_eq_of_lt (by omega)
  · have h1 := hn1 m (by omega)
    simp only [chunk_ct, dnload_ct, Nat.zero_add]
    rw [Nat.min_eq_right (by omega), Nat.mod_eq_of_lt (by omega)]
    have hx : F.length = (F.length - m * T) + m * T := by omega
    have hmod : F.length % T = (F.length - m * T) % T := by
      conv_lhs => rw [hx]
      exact Nat.add_mul_mod_self_right _ _ _
    by_cases hfull : F.length - m * T = T
    · rw [hmod, hfull, Nat.mod_self]
      simp
    · have hlt : F.length - m * T < T := by omega
      rw [hmod, Nat.mod_eq_of_lt hlt]
      have : F.length - m * T ≠ 0 := by omega
      simp [this]

theorem expected_chunks_data : ∀ (n : Nat) (number T : Nat) (F : List Byte) (pos block : Nat),
    T ≤ 65535 →
    ((expected_chunks number T F pos block n).map (fun ct => ct.data)).flatten
      = (F.drop pos).take (n * T) := by
  intro n
  induction n with
  | zero => intro number T F pos block _; simp [expected_chunks]
  | succ n ih =>
    intro number T F pos block hT
    rw [expected_chunks_succ, List.map_cons, List.flatten_cons, ih number T F _ _ hT]
    have e : (n + 1) * T = T + n * T := by rw [Nat.succ_mul]; omega
    rw [e, List.take_add, List.drop_drop]
    congr 1
    simp only [chunk_ct, dnload_ct, Nat.zero_mul, Nat.add_zero]
    have hmin : min T (F.length - pos) % 65536 = min T (F.length - pos) :=
      Nat.mod_eq_of_lt (by omega)
    rw [hmin]
    by_cases h : T ≤ F.length - pos
    · rw [Nat.min_eq_left h]
    · rw [Nat.min_eq_right (by omega)]
      rw [List.take_of_length_le (by simp), List.take_of_length_le (by simp; omega)]

/-- Chunk lengths while the loop cursor stays in range: for every firmware
length `L > 0` and transfer size `T > 0` (the value the scanner leaves in
`transfer_size`) with `⌈L/T⌉ · T ≤ INT_MAX`, when every transport call
succeeds, `download_firmware` completes and its DNLOAD transfers have the
lengths
`T, …, T` (`⌈L/T⌉ - 1` times), then `L mod T` (or `T` when `L mod T = 0`),
then one further DNLOAD of length 0: `⌈L/T⌉` non-terminal chunks and one
terminating chunk. -/
theorem download_firmware_chunk_lengths (wait_type : Nat) (F stream : List Byte)
    (sys : Nat → Reply) (hL : 0 < F.length)
    (hT : 0 < (download_firmware (State.init wait_type F stream sys)).2.transfer_size)
    (hok : ∀ op ∈ (download_firmware (State.init wait_type F stream sys)).2.ops, op.ok)
    (hfit : chunk_count F.length
        (download_firmware (State.init wait_type F stream sys)).2.transfer_size *
      (download_firmware (State.init wait_type F stream sys)).2.transfer_size ≤ INT_MAX) :
    (download_firmware (State.init wait_type F stream sys)).1 = .ok ∧
    (dnloads (download_firmware (State.init wait_type F stream sys)).2.ops).length
      = chunk_count F.length
          (download_firmware (State.init wait_type F stream sys)).2.transfer_size + 1 ∧
    (dnloads (download_firmware (State.init wait_type F stream sys)).2.ops).map
        (fun ct => ct.wLength)
      = List.replicate
          (chunk_count F.length
            (download_firmware (State.init wait_type F stream sys)).2.transfer_size - 1)
          (download_firmware (State.init wait_type F stream sys)).2.transfer_size ++
        [if F.length % (download_firmware (State.init wait_type F stream sys)).2.transfer_size
            = 0
          then (download_firmware (State.init wait_type F stream sys)).2.transfer_size
          else F.length %
            (download_firmware (State.init wait_type F stream sys)).2.transfer_size] ++
        [0] := by
  obtain ⟨h1, h2, h3, -⟩ :=
    download_firmware_complete wait_type F stream sys hT hok (fun h => absurd h.2 (Nat.not_lt.mpr hfit))
  refine ⟨h1, ?_, ?_⟩
  · rw [h3]
    simp [expected_chunks]
  · rw [h3, List.map_append, expected_chunks_wLength _ _ _ hT h2 hL]
    simp [dnload_ct]

/-- The chunk lengths at a concrete session: seven bytes of firmware, transfer
size 3. -/
theorem download_firmware_chunk_lengths_witness :
    (dnloads (download_firmware (State.init WAIT_BYTE3 [1, 2, 3, 4, 5, 6, 7]
        [9, 4, 3, 0, 0, 0xFE, 1, 0, 0, 7, 0x21, 1, 0, 0, 3, 0] sys_ok)).2.ops).map
      (fun ct => ct.wLength) = [3, 3, 1, 0] :=
  (download_firmware_chunk_lengths WAIT_BYTE3 [1, 2, 3, 4, 5, 6, 7]
    [9, 4, 3, 0, 0, 0xFE, 1, 0, 0, 7, 0x21, 1, 0, 0, 3, 0] sys_ok
    (by decide) (by decide) (by decide) (by decide)).2.2.trans (by decide)

/-- C6 as amended: for a firmware length `L` and transfer size `T > 0` with
`⌈L/T⌉ · T ≤ INT_MAX` (the loop cursor stays in range), in a session in which
every transport call succeeds, the block indices (`wValue`) of the DNLOAD
transfers are `k mod 65536` for the `k`-th chunk and `⌈L/T⌉ mod 65536` for
the terminating chunk; with fewer than 65536 chunks they are
`0, 1, …, ⌈L/T⌉` in strict sequence, pairwise distinct. -/
theorem download_firmware_block_indices (wait_type : Nat) (F stream : List Byte)
    (sys : Nat → Reply)
    (hT : 0 < (download_firmware (State.init wait_type F stream sys)).2.transfer_size)
    (hok : ∀ op ∈ (download_firmware (State.init wait_type F stream sys)).2.ops, op.ok)
    (hfit : chunk_count F.length
        (download_firmware (State.init wait_type F stream sys)).2.transfer_size *
      (download_firmware (State.init wait_type F stream sys)).2.transfer_size ≤ INT_MAX) :
    (dnloads (download_firmware (State.init wait_type F stream sys)).2.ops).map
        (fun ct => ct.wValue)
      = (List.range (chunk_count F.length
          (download_firmware (State.init wait_type F stream sys)).2.transfer_size + 1)).map
        (fun k => k % 65536) ∧
    (chunk_count F.length
        (download_firmware (State.init wait_type F stream sys)).2.transfer_size < 65536 →
      (dnloads (download_firmware (State.init wait_type F stream sys)).2.ops).map
          (fun ct => ct.wValue)
        = List.range (chunk_count F.length
            (download_firmware (State.init wait_type F stream sys)).2.transfer_size + 1) ∧
      ((dnloads (download_firmware (State.init wait_type F stream sys)).2.ops).map
          (fun ct => ct.wValue)).Nodup) := by
  obtain ⟨-, -, h3, -⟩ :=
    download_firmware_complete wait_type F stream sys hT hok (fun h => absurd h.2 (Nat.not_lt.mpr hfit))
  have hmain : (dnloads (download_firmware (State.init wait_type F stream sys)).2.ops).map
        (fun ct => ct.wValue)
      = (List.range (chunk_count F.length
          (download_firmware (State.init wait_type F stream sys)).2.transfer_size + 1)).map
        (fun k => k % 65536) := by
    rw [h3, List.map_append, expected_chunks_wValue, List.range_succ, List.map_append]
    simp [dnload_ct]
  refine ⟨hmain, fun hlt => ?_⟩
  have hid : (List.range (chunk_count F.length
      (download_firmware (State.init wait_type F stream sys)).2.transfer_size + 1)).map
        (fun k => k % 65536)
      = List.range (chunk_count F.length
        (download_firmware (State.init wait_type F stream sys)).2.transfer_size + 1) := by
    conv_rhs => rw [← List.map_id (List.range _)]
    apply List.map_congr_left
    intro k hk
    have := List.mem_range.1 hk
    simp only [id]
    exact Nat.mod_eq_of_lt (by omega)
  rw [hmain, hid]
  exact ⟨rfl, List.nodup_range _⟩

/-- C6 as amended, at a concrete session: seven bytes, transfer size 3. -/
theorem download_firmware_block_indices_witness :
    (dnloads (download_firmware (State.init WAIT_BYTE3 [1, 2, 3, 4, 5, 6, 7]
        [9, 4, 3, 0, 0, 0xFE, 1, 0, 0, 7, 0x21, 1, 0, 0, 3, 0] sys_ok)).2.ops).map
      (fun ct => ct.wValue) = [0, 1, 2, 3] :=
  (download_firmware_block_indices WAIT_BYTE3 [1, 2, 3, 4, 5, 6, 7]
    [9, 4, 3, 0, 0, 0xFE, 1, 0, 0, 7, 0x21, 1, 0, 0, 3, 0] sys_ok
    (by decide) (by decide) (by decide)).1.trans (by decide)

/-- The round trip while the loop cursor stays in range: for every firmware
`F` and transfer size `T > 0` (the value the scanner leaves in
`transfer_size`) with `⌈L/T⌉ · T ≤ INT_MAX`, in a session in which every
transport call succeeds, concatenating the payloads of the non-terminal
DNLOAD transfers in the order sent gives back the firmware exactly. -/
theorem download_firmware_round_trip (wait_type : Nat) (F stream : List Byte)
    (sys : Nat → Reply)
    (hT : 0 < (download_firmware (State.init wait_type F stream sys)).2.transfer_size)
    (hok : ∀ op ∈ (download_firmware (State.init wait_type F stream sys)).2.ops, op.ok)
    (hfit : chunk_count F.length
        (download_firmware (State.init wait_type F stream sys)).2.transfer_size *
      (download_firmware (State.init wait_type F stream sys)).2.transfer_size ≤ INT_MAX) :
    (((dnloads (download_firmware (State.init wait_type F stream sys)).2.ops).dropLast).map
      (fun ct => ct.data)).flatten = F := by
  obtain ⟨-, h2, h3, -⟩ :=
    download_firmware_complete wait_type F stream sys hT hok (fun h => absurd h.2 (Nat.not_lt.mpr hfit))
  obtain ⟨-, hn2, -⟩ := chunk_count_spec F.length
    (download_firmware (State.init wait_type F stream sys)).2.transfer_size hT
  rw [h3, List.dropLast_concat, expected_chunks_data _ _ _ _ _ _ h2, List.drop_zero]
  exact List.take_of_length_le hn2

/-- The round trip at a concrete session: seven bytes, transfer size 3. -/
theorem download_firmware_round_trip_witness :
    (((dnloads (download_firmware (State.init WAIT_BYTE3 [1, 2, 3, 4, 5, 6, 7]
        [9, 4, 3, 0, 0, 0xFE, 1, 0, 0, 7, 0x21, 1, 0, 0, 3, 0] sys_ok)).2.ops).dropLast).map
      (fun ct => ct.data)).flatten = [1, 2, 3, 4, 5, 6, 7] :=
  download_firmware_round_trip WAIT_BYTE3 [1, 2, 3, 4, 5, 6, 7]
    [9, 4, 3, 0, 0, 0xFE, 1, 0, 0, 7, 0x21, 1, 0, 0, 3, 0] sys_ok
    (by decide) (by decide) (by decide)

/-- The reset while the loop cursor stays in range: in a session in which
the claim, every DNLOAD, every GETSTATUS and every sleep succeed (the scanner
having left a transfer size `T > 0` with `⌈L/T⌉ · T ≤ INT_MAX`),
`download_firmware` completes without a fatal error whatever the reset
returns; the trace ends with the
reset followed by the close of the device, and a failed reset adds exactly
the one warning `cannot_reset_device` to the warnings of retried transfer
attempts. -/
theorem download_firmware_reset_not_fatal (wait_type : Nat) (F stream : List Byte)
    (sys : Nat → Reply)
    (hT : 0 < (download_firmware (State.init wait_type F stream sys)).2.transfer_size)
    (hok : ∀ op ∈ (download_firmware (State.init wait_type F stream sys)).2.ops, op.ok)
    (hfit : chunk_count F.length
        (download_firmware (State.init wait_type F stream sys)).2.transfer_size *
      (download_firmware (State.init wait_type F stream sys)).2.transfer_size ≤ INT_MAX) :
    (download_firmware (State.init wait_type F stream sys)).1 = .ok ∧
    ∃ pre e2 k, (download_firmware (State.init wait_type F stream sys)).2.ops
        = pre ++ [.reset e2, .close] ∧
      (download_firmware (State.init wait_type F stream sys)).2.warnings
        = List.replicate k Warning.control_transfer_failed ++
          (if e2 = -1 then [Warning.cannot_reset_device] else []) := by
  obtain ⟨h1, -, -, h4⟩ :=
    download_firmware_complete wait_type F stream sys hT hok (fun h => absurd h.2 (Nat.not_lt.mpr hfit))
  exact ⟨h1, h4⟩

/-- A concrete session in which the reset (system call number 6) fails. -/
theorem download_firmware_reset_not_fatal_witness :
    (download_firmware (State.init WAIT_IGNORE [1]
      [9, 4, 3, 0, 0, 0xFE, 1, 0, 0, 7, 0x21, 1, 0, 0, 3, 0] (sys_fail_at 6))).1 = .ok ∧
    ∃ pre e2 k, (download_firmware (State.init WAIT_IGNORE [1]
      [9, 4, 3, 0, 0, 0xFE, 1, 0, 0, 7, 0x21, 1, 0, 0, 3, 0] (sys_fail_at 6))).2.ops
        = pre ++ [.reset e2, .close] ∧
      (download_firmware (State.init WAIT_IGNORE [1]
        [9, 4, 3, 0, 0, 0xFE, 1, 0, 0, 7, 0x21, 1, 0, 0, 3, 0] (sys_fail_at 6))).2.warnings
        = List.replicate k Warning.control_transfer_failed ++
          (if e2 = -1 then [Warning.cannot_reset_device] else []) :=
  download_firmware_reset_not_fatal WAIT_IGNORE [1]
    [9, 4, 3, 0, 0, 0xFE, 1, 0, 0, 7, 0x21, 1, 0, 0, 3, 0] (sys_fail_at 6)
    (by decide) (by decide) (by decide)

theorem index_of_first_failure {ops : List Op} (good : List Op) (last : Op) {op : Op}
    {i : Nat} (hops : ops = good ++ [last]) (hgood : ∀ x ∈ good, x.ok)
    (hi : ops[i]? = some op) (hbad : ¬ op.ok) : ops.length = i + 1 := by
  subst hops
  rcases Nat.lt_trichotomy i good.length with h | h | h
  · rw [List.getElem?_append_left h] at hi
    exact absurd (hgood op (List.getElem?_mem hi)) hbad
  · simp [h]
  · have : (good ++ [last])[i]? = none := by
      apply List.getElem?_eq_none
      simp
      omega
    rw [this] at hi
    cases hi

/-- C9: whenever the transport reports failure for a control transfer of a
session (a chunk DNLOAD, a GETSTATUS, or the terminating DNLOAD), the
session ends in a fatal error and that transfer is the last entry of the
trace: no DNLOAD, GETSTATUS, sleep, reset or close follows it. -/
theorem download_firmware_aborts_at_failed_transfer (wait_type : Nat)
    (F stream : List Byte) (sys : Nat → Reply) (i : Nat) (op : Op)
    (hi : (download_firmware (State.init wait_type F stream sys)).2.ops[i]? = some op)
    (hfail : op.transferFailed) :
    (∃ f, (download_firmware (State.init wait_type F stream sys)).1 = .fatal f) ∧
    (download_firmware (State.init wait_type F stream sys)).2.ops.length = i + 1 := by
  have hbad : ¬ op.ok := failed_not_ok hfail
  have hmem := List.getElem?_mem hi
  rcases download_firmware_analysis wait_type F stream sys with
    ⟨-, -, hops⟩ | ⟨-, -, -, hops, -, -⟩ |
    ⟨s2, hopen, -, heq, hops2, h1, -, -, -, -, -, -⟩
  · rw [hops, List.mem_singleton] at hmem
    subst hmem
    exact absurd hfail (by simp [Op.transferFailed])
  · rw [hops, List.mem_singleton] at hmem
    subst hmem
    exact absurd hfail (by simp [Op.transferFailed])
  · rw [heq] at hi hmem ⊢
    have hopen_ok : ∀ x ∈ s2.ops, x.ok := by
      intro x hx
      rw [hops2, List.mem_singleton] at hx
      subst hx
      simpa [Op.ok] using hopen
    rcases download_session_analysis s2 h1 with
      ⟨tl, hext, hf, -, -⟩ | ⟨tl, hext, hallok, -, -⟩ |
      ⟨loopnew, rets1, rets2, tl, e2, s7, hext, hc, hl, hd, hg, ht, -, -, -, hres⟩
    · obtain ⟨f, pre, last, hst, hnew, hpre, -⟩ := hf
      refine ⟨⟨f, hst⟩, ?_⟩
      refine index_of_first_failure (s2.ops ++ pre) last ?_ ?_ hi hbad
      · rw [hext.1, hnew, List.append_assoc]
      · intro x hx
        rcases List.mem_append.1 hx with h | h
        · exact hopen_ok x h
        · exact hpre x h
    · rw [hext.1] at hmem
      rcases List.mem_append.1 hmem with h | h
      · exact absurd (hopen_ok op h) hbad
      · exact absurd (hallok op h) hbad
    · rw [hres] at hmem
      have hops7 : ((if e2 = -1 then warning .cannot_reset_device s7 else s7).log
          .close).ops = s7.ops ++ [.close] := by
        split <;> simp [State.log, warning]
      have hallok : ∀ x ∈ s7.ops ++ [Op.close], x.ok := by
        rw [hext.1]
        simp only [List.forall_mem_append, List.forall_mem_cons, List.forall_mem_singleton]
        have hnil : ∀ x ∈ ([] : List Op), x.ok := by simp
        exact ⟨⟨hopen_ok, ⟨⟨⟨⟨by simpa [Op.ok] using hc, hnil⟩, hl⟩, hd, hnil⟩, hg, ht⟩,
          by simp [Op.ok], hnil⟩, by simp [Op.ok], hnil⟩
      rw [hops7] at hmem
      exact absurd (hallok op hmem) hbad

/-- C9 at a concrete session: the second chunk (system calls 4, 5 and 6)
fails in all three attempts. -/
theorem download_firmware_aborts_at_failed_transfer_witness :
    (∃ f, (download_firmware (State.init WAIT_IGNORE [1, 2]
      [9, 4, 3, 0, 0, 0xFE, 1, 0, 0, 7, 0x21, 1, 0, 0, 1, 0] (sys_fail_from 4))).1
        = .fatal f) ∧
    (download_firmware (State.init WAIT_IGNORE [1, 2]
      [9, 4, 3, 0, 0, 0xFE, 1, 0, 0, 7, 0x21, 1, 0, 0, 1, 0] (sys_fail_from 4))).2.ops.length
        = 4 + 1 :=
  download_firmware_aborts_at_failed_transfer WAIT_IGNORE [1, 2]
    [9, 4, 3, 0, 0, 0xFE, 1, 0, 0, 7, 0x21, 1, 0, 0, 1, 0] (sys_fail_from 4) 4
    (.control (dnload_ct 3 1 1 [2]) [-1, -1, -1]) (by decide) (by decide)

theorem sleeps_append (xs ys : List Op) : sleeps (xs ++ ys) = sleeps xs ++ sleeps ys := by
  induction xs with
  | nil => rfl
  | cons x xs ih => cases x <;> simp [sleeps, ih]

/-- C8: for every status response that `dfu_status_wait` receives, under
WAIT_IGNORE it makes no sleep call; under WAIT_BYTE3, with `b` the third
poll-timeout byte, it makes no sleep call when `b = 0` and exactly one when
`b > 0`, with `tv_sec = b / 1000` and `tv_nsec = (b mod 1000) * 1000000`, a
valid timespec of exactly `b` milliseconds; no other byte of the response
enters. -/
theorem dfu_status_wait_sleeps (s : State) (hget : 0 ≤ (getstatus_reply s).ret) :
    (s.wait_type = WAIT_IGNORE →
      sleeps ((dfu_status_wait s).2.ops.drop s.ops.length) = []) ∧
    (s.wait_type = WAIT_BYTE3 → ((getstatus_reply s).status.bwPollTimeout 2).val = 0 →
      sleeps ((dfu_status_wait s).2.ops.drop s.ops.length) = []) ∧
    (s.wait_type = WAIT_BYTE3 → 0 < ((getstatus_reply s).status.bwPollTimeout 2).val →
      sleeps ((dfu_status_wait s).2.ops.drop s.ops.length)
        = [(((getstatus_reply s).status.bwPollTimeout 2).val / 1000,
            ((getstatus_reply s).status.bwPollTimeout 2).val % 1000 * 1000000)] ∧
      ((getstatus_reply s).status.bwPollTimeout 2).val % 1000 * 1000000 < 1000000000 ∧
      ((getstatus_reply s).status.bwPollTimeout 2).val / 1000 * 1000000000 +
          ((getstatus_reply s).status.bwPollTimeout 2).val % 1000 * 1000000
        = ((getstatus_reply s).status.bwPollTimeout 2).val * 1000000) := by
  obtain ⟨rets, hext, -, -⟩ := usb_control_spec
    (USB_TYPE_CLASS ||| USB_RECIP_INTERFACE ||| USB_DIR_IN) DFU_GETSTATUS 0 s.interface
    6 [] s
  unfold getstatus_reply at hget ⊢
  generalize hu : usb_control (USB_TYPE_CLASS ||| USB_RECIP_INTERFACE ||| USB_DIR_IN)
    DFU_GETSTATUS 0 s.interface 6 [] s = u at hext hget
  obtain ⟨err, s1⟩ := u
  simp only at hext hget ⊢
  have hw1 : s1.wait_type = s.wait_type := hext.2.2.2.2.1
  have hops1 := hext.1
  have hneg : ¬ err.ret < 0 := by omega
  have hnone : ∀ r : Status × State, r.2.ops = s1.ops →
      sleeps (r.2.ops.drop s.ops.length) = [] := by
    intro r hr
    rw [hr, hops1, List.drop_left]
    simp [sleeps]
  refine ⟨?_, ?_, ?_⟩
  · intro hwt
    apply hnone
    have : ¬ (s1.wait_type = WAIT_BYTE3) := by rw [hw1, hwt]; decide
    simp [dfu_status_wait, hu, hneg, this]
  · intro hwt hb
    apply hnone
    simp [dfu_status_wait, hu, hneg, hw1, hwt, hb]
  · intro hwt hb
    refine ⟨?_, by omega, by omega⟩
    have hw : (if s1.wait_type = WAIT_BYTE3 then (err.status.bwPollTimeout 2).val else 0) > 0 := by
      rw [hw1, hwt]
      simpa using hb
    have hval : (if s1.wait_type = WAIT_BYTE3 then (err.status.bwPollTimeout 2).val else 0)
        = (err.status.bwPollTimeout 2).val := by
      rw [hw1, hwt]
      simp
    simp only [dfu_status_wait, hu, hneg, hw, nanosleep, syscall, ↓reduceIte]
    rw [hval]
    split <;>
      simp [State.log, hops1, List.append_assoc, List.drop_left, sleeps]

/-- C8 at a concrete state: WAIT_BYTE3 and a status response whose third
poll-timeout byte is 5. -/
theorem dfu_status_wait_sleeps_witness :
    sleeps ((dfu_status_wait (State.init WAIT_BYTE3 [1] [] sys_ok)).2.ops.drop
      (State.init WAIT_BYTE3 [1] [] sys_ok).ops.length) = [(0, 5000000)] :=
  ((dfu_status_wait_sleeps (State.init WAIT_BYTE3 [1] [] sys_ok) (by decide)).2.2
    (by decide) (by decide)).1.trans (by decide)

theorem spec_scan_keeps_flag : ∀ (ds : List (List Byte)) (a : Scan),
    (∀ d ∈ ds, ¬ isInterface d) → a.found = true →
    spec_scan ds a = none ∨ ∃ a1, spec_scan ds a = some a1 ∧ a1.found = true := by
  intro ds
  induction ds with
  | nil => intro a _ ha; exact Or.inr ⟨a, rfl, ha⟩
  | cons d ds ih =>
    intro a h ha
    have hd : ¬ isInterface d := h d (List.mem_cons_self _ _)
    have hds : ∀ x ∈ ds, ¬ isInterface x := fun x hx => h x (List.mem_cons_of_mem _ hx)
    simp only [spec_scan, spec_scan_descriptor, hd, if_false]
    by_cases hf : isFunctional d ∧ a.found = true
    · simp only [hf, and_self, if_true]
      by_cases hz : wTransferSize d < 1
      · left; simp [hz]
      · simp only [hz, if_false]
        exact ih _ hds rfl
    · simp only [hf, if_false]
      exact ih a hds ha

theorem spec_scan_zero_size (pre mid : List (List Byte)) (I Z : List Byte) (a : Scan)
    (hI : isInterface I) (hclass : isDfuClass I) (hmid : ∀ d ∈ mid, ¬ isInterface d)
    (hZ : isFunctional Z) (hni : ¬ isInterface Z) (hzero : wTransferSize Z = 0) :
    spec_scan (pre ++ [I] ++ mid ++ [Z]) a = none := by
  simp only [List.append_assoc]
  rw [spec_scan_append]
  rcases spec_scan pre a with _ | a1
  · rfl
  · simp only
    rw [spec_scan_append]
    have eI : spec_scan [I] a1 = some ⟨true, byteAt I 2, a1.transfer_size⟩ := by
      simp [spec_scan, spec_scan_descriptor, hI, hclass]
    rw [eI]
    simp only
    rw [spec_scan_append]
    rcases spec_scan_keeps_flag mid ⟨true, byteAt I 2, a1.transfer_size⟩ hmid rfl with
      h | ⟨a3, h, hfound⟩
    · rw [h]
    · rw [h]
      simp [spec_scan, spec_scan_descriptor, hni, hZ, hfound, hzero]

theorem parse_descriptors_fatal_of_spec_scan (ds : List (List Byte)) (tail : List Byte)
    (s : State) (hstream : s.descriptors = ds.flatten ++ tail) (hoff : s.offset = 0)
    (hwf : ∀ d ∈ ds, WellFormed d)
    (hscan : spec_scan ds ⟨false, s.interface, s.transfer_size⟩ = none) :
    (parse_descriptors s).1 = .fatal (.invalid_transfer_size 0) := by
  have hrest : s.rest = ds.flatten ++ tail := by simp [State.rest, hoff, hstream]
  have h := parse_loop_spec_scan ds tail false s 0 hwf hrest
  rw [hscan] at h
  obtain ⟨s1, hs1, -⟩ := h
  rw [parse_descriptors_eq hoff hs1 (by simp)]

/-- C4: when the scanner, inside the target interface (the most recent
interface descriptor is the DFU one), reaches a complete DFU functional
descriptor whose `wTransferSize` is 0, `parse_descriptors` ends in the fatal
error; `download_firmware` then ends in a fatal error having issued nothing
on the device but the `open`: no claim-interface call and no transfer. -/
theorem zero_transfer_size_is_fatal (pre mid : List (List Byte)) (I Z tail : List Byte)
    (wait_type : Nat) (F : List Byte) (sys : Nat → Reply)
    (hwf : ∀ d ∈ pre ++ [I] ++ mid ++ [Z], WellFormed d)
    (hI : isInterface I) (hclass : isDfuClass I) (hmid : ∀ d ∈ mid, ¬ isInterface d)
    (hZ : isFunctional Z) (hzero : wTransferSize Z = 0) :
    (parse_descriptors (State.init wait_type F
      ((pre ++ [I] ++ mid ++ [Z]).flatten ++ tail) sys)).1
        = .fatal (.invalid_transfer_size 0) ∧
    (∃ f, (download_firmware (State.init wait_type F
      ((pre ++ [I] ++ mid ++ [Z]).flatten ++ tail) sys)).1 = .fatal f) ∧
    (download_firmware (State.init wait_type F
      ((pre ++ [I] ++ mid ++ [Z]).flatten ++ tail) sys)).2.ops = [.open (sys 0).ret] := by
  have hni : ¬ isInterface Z := by
    intro hc
    have h1 := hc.1
    rw [hZ.1] at h1
    simp [USB_DT_INTERFACE, USB_DT_DFU_FUNCTIONAL] at h1
  have hfatal : ∀ s : State, s.descriptors = (pre ++ [I] ++ mid ++ [Z]).flatten ++ tail →
      s.offset = 0 → (parse_descriptors s).1 = .fatal (.invalid_transfer_size 0) :=
    fun s hs ho => parse_descriptors_fatal_of_spec_scan _ tail s hs ho hwf
      (spec_scan_zero_size pre mid I Z _ hI hclass hmid hZ hni hzero)
  refine ⟨hfatal _ rfl rfl, ?_⟩
  rcases download_firmware_analysis wait_type F
      ((pre ++ [I] ++ mid ++ [Z]).flatten ++ tail) sys with
    ⟨-, hst, hops⟩ | ⟨-, -, hst, hops, -, -⟩ | ⟨s2, -, hp, -⟩
  · exact ⟨⟨_, hst⟩, hops⟩
  · exact ⟨⟨_, hst⟩, hops⟩
  · have := hfatal (after_open (State.init wait_type F
      ((pre ++ [I] ++ mid ++ [Z]).flatten ++ tail) sys)) rfl rfl
    rw [hp] at this
    cases this

/-- C4 at a concrete stream: a 2-byte descriptor, the DFU interface, a
3-byte descriptor, a functional descriptor with transfer size 0 and one
trailing byte. -/
theorem zero_transfer_size_is_fatal_witness :
    (parse_descriptors (State.init WAIT_IGNORE [1]
      (([[2, 9]] ++ [[9, 4, 3, 0, 0, 0xFE, 1, 0, 0]] ++ [[3, 5, 0]] ++
        [[7, 0x21, 1, 0, 0, 0, 0]] : List (List Byte)).flatten
        ++ [9]) sys_ok)).1 = .fatal (.invalid_transfer_size 0) ∧
    (∃ f, (download_firmware (State.init WAIT_IGNORE [1]
      (([[2, 9]] ++ [[9, 4, 3, 0, 0, 0xFE, 1, 0, 0]] ++ [[3, 5, 0]] ++
        [[7, 0x21, 1, 0, 0, 0, 0]] : List (List Byte)).flatten
        ++ [9]) sys_ok)).1 = .fatal f) ∧
    (download_firmware (State.init WAIT_IGNORE [1]
      (([[2, 9]] ++ [[9, 4, 3, 0, 0, 0xFE, 1, 0, 0]] ++ [[3, 5, 0]] ++
        [[7, 0x21, 1, 0, 0, 0, 0]] : List (List Byte)).flatten
        ++ [9]) sys_ok)).2.ops = [.open (sys_ok 0).ret] :=
  zero_transfer_size_is_fatal [[2, 9]] [[3, 5, 0]] [9, 4, 3, 0, 0, 0xFE, 1, 0, 0]
    [7, 0x21, 1, 0, 0, 0, 0]
    [9] WAIT_IGNORE [1] sys_ok (by decide) (by decide) (by decide) (by decide) (by decide)
    (by decide)

theorem download_session_globals (s : State) (hT : 1 ≤ s.transfer_size) :
    (download_session s).2.transfer_size = s.transfer_size ∧
    (download_session s).2.interface = s.interface := by
  rcases download_session_analysis s hT with
    ⟨tl, hext, -, -, -⟩ | ⟨tl, hext, -, -, -⟩ |
    ⟨loopnew, rets1, rets2, tl, e2, s7, hext, -, -, -, -, -, -, -, -, hres⟩
  · exact ⟨hext.2.2.1, hext.2.1⟩
  · exact ⟨hext.2.2.1, hext.2.1⟩
  · rw [hres]
    constructor
    · split <;> simpa [State.log, warning] using hext.2.2.1
    · split <;> simpa [State.log, warning] using hext.2.1

/-- When every reply of the kernel is a success, every call of the session
is a success. -/
theorem download_firmware_allSucceed (wait_type : Nat) (F stream : List Byte)
    (sys : Nat → Reply) (hall : ∀ n, 0 ≤ (sys n).ret) :
    ∀ op ∈ (download_firmware (State.init wait_type F stream sys)).2.ops, op.ok := by
  have hopen_ok : (Op.open (sys 0).ret).ok := by
    have := hall 0
    simp only [Op.ok]
    omega
  rcases download_firmware_analysis wait_type F stream sys with
    ⟨hopen, -, -⟩ | ⟨-, -, -, hops, -, -⟩ |
    ⟨s2, hopen, -, heq, hops2, h1, -, -, hsys, -, -, -⟩
  · have := hall 0
    omega
  · intro op hop
    rw [hops, List.mem_singleton] at hop
    rw [hop]
    exact hopen_ok
  · rw [heq]
    have hopen2 : ∀ x ∈ s2.ops, x.ok := by
      intro x hx
      rw [hops2, List.mem_singleton] at hx
      rw [hx]
      exact hopen_ok
    have hall2 : AllSucceed s2 := by
      intro n
      rw [hsys]
      exact hall n
    rcases download_session_analysis s2 h1 with
      ⟨tl, -, -, -, hno⟩ | ⟨tl, hext, hallok, -, -⟩ |
      ⟨loopnew, rets1, rets2, tl, e2, s7, hext, hc, hl, hd, hg, ht, -, -, -, hres⟩
    · exact absurd hall2 hno
    · intro op hop
      rw [hext.1] at hop
      rcases List.mem_append.1 hop with h | h
      · exact hopen2 op h
      · exact hallok op h
    · rw [hres]
      have hops7 : ((if e2 = -1 then warning .cannot_reset_device s7 else s7).log
          .close).ops = s7.ops ++ [.close] := by
        split <;> simp [State.log, warning]
      rw [hops7, hext.1]
      simp only [List.forall_mem_append, List.forall_mem_cons, List.forall_mem_singleton]
      have hnil : ∀ x ∈ ([] : List Op), x.ok := by simp
      exact ⟨⟨hopen2, ⟨⟨⟨⟨by simpa [Op.ok] using hc, hnil⟩, hl⟩, hd, hnil⟩, hg, ht⟩,
        by simp [Op.ok], hnil⟩, by simp [Op.ok], hnil⟩

/-- On a stream of complete descriptors that the scanner accepts, the
globals the session runs with are those `spec_scan` computes. -/
theorem download_firmware_of_spec_scan (ds : List (List Byte)) (a : Scan)
    (wait_type : Nat) (F : List Byte) (sys : Nat → Reply) (hopen : (sys 0).ret ≠ -1)
    (hwf : ∀ d ∈ ds, WellFormed d) (hscan : spec_scan ds ⟨false, 0, 64⟩ = some a) :
    (download_firmware (State.init wait_type F ds.flatten sys)).2.transfer_size
      = a.transfer_size ∧
    (download_firmware (State.init wait_type F ds.flatten sys)).2.interface
      = a.interface := by
  have hp := parse_descriptors_spec_scan ds
    (after_open (State.init wait_type F ds.flatten sys)) a rfl rfl hwf hscan
  rcases download_firmware_analysis wait_type F ds.flatten sys with
    ⟨ho, -, -⟩ | ⟨-, hst, -, -, -, -⟩ | ⟨s2, -, hp2, heq, -, h1, -, -, -, -, -, -⟩
  · exact absurd ho hopen
  · rw [hp] at hst
    cases hst
  · rw [hp] at hp2
    have hs2 := (Prod.mk.inj hp2).2
    obtain ⟨g1, g2⟩ := download_session_globals s2 h1
    rw [heq, g1, g2, ← hs2]
    exact ⟨rfl, rfl⟩

/-- C6 fails at 65536 chunks: a firmware of 4194304 bytes sent with the
default transfer size 64 (DFU interface 0, no functional descriptor), every
call succeeding.  The session completes; the terminating chunk is tagged 0,
not `⌈L/T⌉ = 65536`, and so carries the same tag as the first chunk. -/
theorem block_index_wraps_at_65536 :
    (∀ op ∈ (download_firmware (State.init WAIT_IGNORE (List.replicate 4194304 0)
        [9, 4, 0, 0, 0, 0xFE, 1, 0, 0] sys_ok)).2.ops, op.ok) ∧
    (download_firmware (State.init WAIT_IGNORE (List.replicate 4194304 0)
        [9, 4, 0, 0, 0, 0xFE, 1, 0, 0] sys_ok)).1 = .ok ∧
    (download_firmware (State.init WAIT_IGNORE (List.replicate 4194304 0)
        [9, 4, 0, 0, 0, 0xFE, 1, 0, 0] sys_ok)).2.transfer_size = 64 ∧
    chunk_count 4194304 64 = 65536 ∧
    ((dnloads (download_firmware (State.init WAIT_IGNORE (List.replicate 4194304 0)
        [9, 4, 0, 0, 0, 0xFE, 1, 0, 0] sys_ok)).2.ops).map (fun ct => ct.wValue)).length
      = 65537 ∧
    ((dnloads (download_firmware (State.init WAIT_IGNORE (List.replicate 4194304 0)
        [9, 4, 0, 0, 0, 0xFE, 1, 0, 0] sys_ok)).2.ops).map (fun ct => ct.wValue)).head?
      = some 0 ∧
    ((dnloads (download_firmware (State.init WAIT_IGNORE (List.replicate 4194304 0)
        [9, 4, 0, 0, 0, 0xFE, 1, 0, 0] sys_ok)).2.ops).map (fun ct => ct.wValue)).getLast?
      = some 0 := by
  have hall : ∀ n, 0 ≤ (sys_ok n).ret := fun _ => by simp [sys_ok]
  have hok := download_firmware_allSucceed WAIT_IGNORE (List.replicate 4194304 0)
    [9, 4, 0, 0, 0, 0xFE, 1, 0, 0] sys_ok hall
  have hg := download_firmware_of_spec_scan [[9, 4, 0, 0, 0, 0xFE, 1, 0, 0]] ⟨true, 0, 64⟩
    WAIT_IGNORE (List.replicate 4194304 0) sys_ok (by simp [sys_ok]) (by decide) (by decide)
  have hflat : ([[9, 4, 0, 0, 0, 0xFE, 1, 0, 0]] : List (List Byte)).flatten
      = [9, 4, 0, 0, 0, 0xFE, 1, 0, 0] := rfl
  rw [hflat] at hg
  have hT : (download_firmware (State.init WAIT_IGNORE (List.replicate 4194304 0)
      [9, 4, 0, 0, 0, 0xFE, 1, 0, 0] sys_ok)).2.transfer_size = 64 := hg.1
  have hn : chunk_count 4194304 64 = 65536 := by simp [chunk_count]
  have hlen : (List.replicate 4194304 (0 : Byte)).length = 4194304 := List.length_replicate _ _
  obtain ⟨h1, -, h3, -⟩ := download_firmware_complete WAIT_IGNORE (List.replicate 4194304 0)
    [9, 4, 0, 0, 0, 0xFE, 1, 0, 0] sys_ok (by rw [hT]; decide) hok
    (by
      rw [hT, hlen, hn]
      intro h
      have := h.2
      simp [INT_MAX] at this)
  rw [hT, hlen, hn] at h3
  have htags : (dnloads (download_firmware (State.init WAIT_IGNORE
      (List.replicate 4194304 0) [9, 4, 0, 0, 0, 0xFE, 1, 0, 0] sys_ok)).2.ops).map
        (fun ct => ct.wValue)
      = (List.range 65536).map (fun k => k % 65536) ++ [0] := by
    rw [h3, List.map_append, expected_chunks_wValue]
    simp only [dnload_ct, List.map_cons, List.map_nil]
  refine ⟨hok, h1, hT, hn, ?_, ?_, ?_⟩
  · rw [htags, List.length_append, List.length_map, List.length_range]
    rfl
  · rw [htags, List.range_succ_eq_map]
    rfl
  · rw [htags, List.getLast?_concat]

/-- C3 fails: on a stream whose only interface descriptor is of the audio
class (so that no DFU interface is found), with every call succeeding,
`download_firmware` does not abort: it claims interface 0, the initial value
of `interface`, sends the firmware to it and completes. -/
theorem unresolved_interface_is_claimed :
    NoDfuInterface [9, 4, 0, 0, 0, 1, 1, 0, 0] ∧
    (download_firmware (State.init WAIT_IGNORE [1] [9, 4, 0, 0, 0, 1, 1, 0, 0] sys_ok)).1
      = .ok ∧
    (download_firmware (State.init WAIT_IGNORE [1] [9, 4, 0, 0, 0, 1, 1, 0, 0] sys_ok)).2.ops
      = [.open 0, .claim_interface 0 0,
          .control (dnload_ct 0 0 1 [1]) [0], .control (getstatus_ct 0) [0],
          .control (dnload_ct 0 1 0 [1]) [0], .control (getstatus_ct 0) [0],
          .reset 0, .close] :=
  ⟨noDfuInterface_of_suffixes _ (by decide), by decide, by decide⟩

theorem chunk_count_ceil (L T : Nat) (hT : 1 ≤ T) :
    chunk_count L T = if L % T = 0 then L / T else L / T + 1 := by
  unfold chunk_count
  have hdm := Nat.div_add_mod L T
  have hmod := Nat.mod_lt L (by omega : T > 0)
  generalize L / T = q at hdm ⊢
  generalize L % T = r at hdm hmod ⊢
  by_cases hr : r = 0
  · simp only [hr, if_true]
    subst hr
    have e : L + T - 1 = (T - 1) + T * q := by omega
    rw [e, Nat.add_mul_div_left _ _ (by omega : 0 < T), Nat.div_eq_of_lt (by omega)]
    omega
  · simp only [hr, if_false]
    have e : L + T - 1 = (r - 1) + T * (q + 1) := by
      rw [Nat.mul_add, Nat.mul_one]
      omega
    rw [e, Nat.add_mul_div_left _ _ (by omega : 0 < T), Nat.div_eq_of_lt (by omega)]
    omega

/-- When every reply of the kernel is a success and the loop cursor would
pass `INT_MAX` (`⌈L/T⌉ · T > INT_MAX`), the session ends in the signed
overflow of `pos += transfer_size`. -/
theorem download_firmware_undefined (wait_type : Nat) (F stream : List Byte)
    (sys : Nat → Reply) (hall : ∀ n, 0 ≤ (sys n).ret)
    (hT : 0 < (download_firmware (State.init wait_type F stream sys)).2.transfer_size)
    (hov : INT_MAX < chunk_count F.length
        (download_firmware (State.init wait_type F stream sys)).2.transfer_size *
      (download_firmware (State.init wait_type F stream sys)).2.transfer_size) :
    (download_firmware (State.init wait_type F stream sys)).1 = .undefined := by
  rcases download_firmware_analysis wait_type F stream sys with
    ⟨hopen, -, -⟩ | ⟨-, -, -, -, hz, -⟩ |
    ⟨s2, -, -, heq, -, h1, -, hF, hsys, -, -, -⟩
  · have := hall 0
    omega
  · omega
  · rw [heq] at hT hov ⊢
    have hall2 : AllSucceed s2 := by
      intro n
      rw [hsys]
      exact hall n
    obtain ⟨g1, -⟩ := download_session_globals s2 h1
    rw [g1, ← hF] at hov
    rcases download_session_analysis s2 h1 with
      ⟨tl, -, -, -, hno⟩ | ⟨tl, -, -, hu, -⟩ |
      ⟨loopnew, rets1, rets2, tl, e2, s7, -, -, -, -, -, -, -, -, hle, -⟩
    · exact absurd hall2 hno
    · exact hu
    · omega

/-- C20, failing input: a firmware of 2147450881 bytes (`32768 · 65535 + 1`,
below `INT_MAX`) and a functional descriptor with `wTransferSize = 65535`,
every call succeeding.  The loop sends 32769 chunks; the increment
`pos += transfer_size` after the last one would give
`32769 · 65535 = 2147516415`, beyond `INT_MAX`: the run leaves the defined
behaviour of C at the final increment. -/
theorem download_firmware_cursor_overflow :
    (List.replicate 2147450881 (0 : Byte)).length = 2147450881 ∧
    2147450881 ≤ INT_MAX ∧
    (download_firmware (State.init WAIT_IGNORE (List.replicate 2147450881 0)
      [9, 4, 0, 0, 0, 0xFE, 1, 0, 0, 7, 0x21, 1, 0, 0, 0xFF, 0xFF] sys_ok)).2.transfer_size
      = 65535 ∧
    chunk_count 2147450881 65535 = 32769 ∧
    32768 * 65535 ≤ INT_MAX ∧ INT_MAX < 32768 * 65535 + 65535 ∧
    (download_firmware (State.init WAIT_IGNORE (List.replicate 2147450881 0)
      [9, 4, 0, 0, 0, 0xFE, 1, 0, 0, 7, 0x21, 1, 0, 0, 0xFF, 0xFF] sys_ok)).1
      = .undefined := by
  have hg := download_firmware_of_spec_scan
    [[9, 4, 0, 0, 0, 0xFE, 1, 0, 0], [7, 0x21, 1, 0, 0, 0xFF, 0xFF]] ⟨true, 0, 65535⟩
    WAIT_IGNORE (List.replicate 2147450881 0) sys_ok (by simp [sys_ok]) (by decide)
    (by decide)
  have hflat : ([[9, 4, 0, 0, 0, 0xFE, 1, 0, 0], [7, 0x21, 1, 0, 0, 0xFF, 0xFF]] :
      List (List Byte)).flatten
      = [9, 4, 0, 0, 0, 0xFE, 1, 0, 0, 7, 0x21, 1, 0, 0, 0xFF, 0xFF] := rfl
  rw [hflat] at hg
  have hT : (download_firmware (State.init WAIT_IGNORE (List.replicate 2147450881 0)
      [9, 4, 0, 0, 0, 0xFE, 1, 0, 0, 7, 0x21, 1, 0, 0, 0xFF, 0xFF] sys_ok)).2.transfer_size
      = 65535 := hg.1
  have hlen : (List.replicate 2147450881 (0 : Byte)).length = 2147450881 :=
    List.length_replicate _ _
  have hn : chunk_count 2147450881 65535 = 32769 := by simp [chunk_count]
  refine ⟨hlen, by simp [INT_MAX], hT, hn, by simp [INT_MAX], by simp [INT_MAX], ?_⟩
  apply download_firmware_undefined _ _ _ _ (fun _ => by simp [sys_ok])
  · rw [hT]
    omega
  · rw [hT, hlen, hn]
    simp [INT_MAX]

/-- C12: whatever the kernel answers, `usb_control` makes between 1 and 3
attempts (one system call each, answered by consecutive replies of the
kernel), every attempt but the last one made has failed, so no attempt
follows a successful one; it returns the result of the last attempt made,
and that result is a failure exactly when three attempts were made and all
three failed. -/
theorem usb_control_attempts (request_type request value index length : Nat)
    (data : List Byte) (s : State) :
    ∃ rets,
      (usb_control request_type request value index length data s).2.ops
        = s.ops ++ [.control (control_ct request_type request value index length data) rets] ∧
      rets = (List.range rets.length).map (fun i => (s.sys (s.clock + i)).ret) ∧
      (usb_control request_type request value index length data s).2.clock
        = s.clock + rets.length ∧
      1 ≤ rets.length ∧ rets.length ≤ 3 ∧
      (∀ r ∈ rets.dropLast, r < 0) ∧
      rets.getLast? = some (usb_control request_type request value index length data s).1.ret ∧
      ((usb_control request_type request value index length data s).1.ret < 0 ↔
        rets.length = 3 ∧ ∀ r ∈ rets, r < 0) := by
  by_cases h0 : 0 ≤ (s.sys s.clock).ret
  · refine ⟨[(s.sys s.clock).ret], ?_⟩
    simp [usb_control, usb_control_loop, syscall, warning, State.log, control_ct, h0,
      List.range_succ]
  · by_cases h1 : 0 ≤ (s.sys (s.clock + 1)).ret
    · refine ⟨[(s.sys s.clock).ret, (s.sys (s.clock + 1)).ret], ?_⟩
      simp [usb_control, usb_control_loop, syscall, warning, State.log, control_ct, h0, h1,
        List.range_succ]
      omega
    · by_cases h2 : 0 ≤ (s.sys (s.clock + 1 + 1)).ret
      · refine ⟨[(s.sys s.clock).ret, (s.sys (s.clock + 1)).ret,
          (s.sys (s.clock + 1 + 1)).ret], ?_⟩
        simp [usb_control, usb_control_loop, syscall, warning, State.log, control_ct, h0, h1,
          h2, List.range_succ]
        omega
      · refine ⟨[(s.sys s.clock).ret, (s.sys (s.clock + 1)).ret,
          (s.sys (s.clock + 1 + 1)).ret], ?_⟩
        simp [usb_control, usb_control_loop, syscall, warning, State.log, control_ct, h0, h1,
          h2, List.range_succ]
        omega

/-- C13, counterexample: a complete functional descriptor of 9 bytes whose
`wTransferSize` is 0, met with the inside-target-interface flag set.  The
iteration leaves the loop through `fatal` after the five body bytes: the
cursor stands at 7, not at `bLength = 9`. -/
theorem zero_size_descriptor_not_skipped :
    WellFormed [9, 0x21, 1, 0, 0, 0, 0, 0, 0] ∧
    (State.init WAIT_IGNORE [1] [9, 0x21, 1, 0, 0, 0, 0, 0, 0] sys_ok).rest
      = [9, 0x21, 1, 0, 0, 0, 0, 0, 0] ++ [] ∧
    byteAt [9, 0x21, 1, 0, 0, 0, 0, 0, 0] 0 = 9 ∧
    (parse_iteration true
      (State.init WAIT_IGNORE [1] [9, 0x21, 1, 0, 0, 0, 0, 0, 0] sys_ok)).2.offset = 7 ∧
    (parse_iteration true
      (State.init WAIT_IGNORE [1] [9, 0x21, 1, 0, 0, 0, 0, 0, 0] sys_ok)).2.offset
        ≠ (State.init WAIT_IGNORE [1] [9, 0x21, 1, 0, 0, 0, 0, 0, 0] sys_ok).offset + 9 ∧
    ∃ s1, parse_iteration true
      (State.init WAIT_IGNORE [1] [9, 0x21, 1, 0, 0, 0, 0, 0, 0] sys_ok)
        = (.stop (.fatal (.invalid_transfer_size 0)), s1) :=
  ⟨by decide, by decide, by decide, by decide, by decide, _, rfl⟩

/-- C13, amended: for every descriptor fully present in the stream with
`bLength ≥ 2`, of any type and in either state of the flag, other than a
functional descriptor with `wTransferSize = 0` met inside the target
interface, one iteration of the loop goes round again with the cursor
advanced by exactly `bLength` bytes: the bytes left are those that follow
the descriptor. -/
theorem parse_iteration_advances (found : Bool) (s : State) (d tail : List Byte)
    (hd : WellFormed d) (h : s.rest = d ++ tail)
    (hz : ¬ (isFunctional d ∧ found = true ∧ wTransferSize d = 0)) :
    ∃ f', (parse_iteration found s).1 = .next f' ∧
      (parse_iteration found s).2.offset = s.offset + byteAt d 0 ∧
      (parse_iteration found s).2.rest = tail := by
  have hw := parse_iteration_wellFormed found hd h
  have hsome : ∃ a, spec_scan_descriptor d ⟨found, s.interface, s.transfer_size⟩ = some a := by
    simp only [spec_scan_descriptor]
    split
    · split <;> exact ⟨_, rfl⟩
    · split
      · next hf =>
        split
        · next hlt => exact absurd ⟨hf.1, hf.2, by omega⟩ hz
        · exact ⟨_, rfl⟩
      · exact ⟨_, rfl⟩
  obtain ⟨a, ha⟩ := hsome
  rw [ha] at hw
  simp only at hw
  rw [hw]
  refine ⟨a.found, rfl, ?_, ?_⟩
  · simp only [hd.2]
  · simp only [State.rest] at h ⊢
    exact drop_of_rest d h d.length rfl

theorem parse_iteration_advances_witness :
    ∃ f', (parse_iteration false
        (State.init WAIT_IGNORE [1] [9, 4, 3, 0, 0, 0xFE, 1, 0, 0, 2, 5] sys_ok)).1 = .next f' ∧
      (parse_iteration false
        (State.init WAIT_IGNORE [1] [9, 4, 3, 0, 0, 0xFE, 1, 0, 0, 2, 5] sys_ok)).2.offset
        = (State.init WAIT_IGNORE [1] [9, 4, 3, 0, 0, 0xFE, 1, 0, 0, 2, 5] sys_ok).offset
          + byteAt [9, 4, 3, 0, 0, 0xFE, 1, 0, 0] 0 ∧
      (parse_iteration false
        (State.init WAIT_IGNORE [1] [9, 4, 3, 0, 0, 0xFE, 1, 0, 0, 2, 5] sys_ok)).2.rest
        = [2, 5] :=
  parse_iteration_advances false
    (State.init WAIT_IGNORE [1] [9, 4, 3, 0, 0, 0xFE, 1, 0, 0, 2, 5] sys_ok)
    [9, 4, 3, 0, 0, 0xFE, 1, 0, 0] [2, 5] (by decide) (by decide) (by decide)

theorem parse_loop_count_le : ∀ (fuel : Nat) (b : Bool) (s : State),
    parse_loop_count fuel b s ≤ (s.descriptors.length - s.offset) / 2 + 1 := by
  intro fuel
  induction fuel with
  | zero => intro b s; simp [parse_loop_count]
  | succ n ih =>
    intro b s
    have hi := parse_iteration_iter b s
    simp only [parse_loop_count]
    rcases hr : parse_iteration b s with ⟨fl, s1⟩
    rw [hr] at hi
    cases fl with
    | stop st => simp
    | next f1 =>
      simp only
      have hoff := hi.next_offset
      have hw := hi.sameWorld
      have hd : s1.descriptors = s.descriptors := hw.1
      have h1 := ih f1 s1
      rw [hd] at h1
      omega

/-- C19: `parse_descriptors` terminates on every descriptor stream.  An
iteration that goes round again has read a complete two-byte header and
leaves the cursor at least 2 bytes further; so however many iterations the
loop is allowed, it starts at most `⌊n/2⌋ + 1` of them on a stream of `n`
bytes, that many always reach a `return` (or `fatal`), and allowing more
changes nothing. -/
theorem parse_descriptors_terminates (s : State) :
    (parse_descriptors s).1 ≠ .outOfFuel ∧
    (∀ fuel, parse_loop_count fuel false s ≤ s.descriptors.length / 2 + 1) ∧
    (∀ fuel, s.descriptors.length / 2 + 1 ≤ fuel →
      parse_loop fuel false s = parse_descriptors s) ∧
    (∀ (found : Bool) (s0 : State) (found1 : Bool) (s1 : State),
      parse_iteration found s0 = (.next found1, s1) →
        s0.offset + 2 ≤ s1.offset ∧ s0.offset + 2 ≤ s0.descriptors.length ∧
        s1.descriptors = s0.descriptors) := by
  have htot : (parse_descriptors s).1 ≠ .outOfFuel :=
    parse_loop_total (s.descriptors.length / 2) false s (by omega)
  refine ⟨htot, ?_, ?_, ?_⟩
  · intro fuel
    have h := parse_loop_count_le fuel false s
    have : (s.descriptors.length - s.offset) / 2 ≤ s.descriptors.length / 2 :=
      Nat.div_le_div_right (Nat.sub_le _ _)
    omega
  · intro fuel hfuel
    obtain ⟨k, rfl⟩ := Nat.exists_eq_add_of_le hfuel
    exact parse_loop_mono _ false s k htot
  · intro found s0 found1 s1 h
    have hi := parse_iteration_iter found s0
    rw [h] at hi
    exact ⟨hi.next_offset.1, hi.next_offset.2, hi.sameWorld.1⟩

theorem byteAt_take (d : List Byte) (k i : Nat) (h : i < k) :
    byteAt (d.take k) i = byteAt d i := by
  simp [byteAt, List.getD_eq_getElem?_getD, List.getElem?_take, h]

/-- One iteration of the scanner on the bytes `d` at the cursor, when the
part of the descriptor that the iteration reads is present: the header, the
seven body bytes of an interface descriptor, the five body bytes of a
functional descriptor inside the target interface. -/
theorem parse_iteration_present {d tail : List Byte} (found : Bool) {s : State}
    (h : s.rest = d ++ tail) (h2 : 2 ≤ d.length) (hlen : 2 ≤ byteAt d 0)
    (h9 : isInterface d → 9 ≤ d.length)
    (h7 : isFunctional d → found = true → 7 ≤ d.length) :
    match spec_scan_descriptor d ⟨found, s.interface, s.transfer_size⟩ with
    | some a => parse_iteration found s =
        (.next a.found, { s with offset := s.offset + byteAt d 0, interface := a.interface,
                                 transfer_size := a.transfer_size })
    | none => parse_iteration found s =
        (.stop (.fatal (.invalid_transfer_size 0)),
          { s with offset := s.offset + 7, transfer_size := 0 }) := by
  rcases d with _ | ⟨a, _ | ⟨b, t⟩⟩
  · simp at h2
  · simp at h2
  have halt := a.isLt
  simp only [List.cons_append] at h
  have hb0 : byteAt (a :: b :: t) 0 = a.val := by simp [byteAt]
  rw [hb0] at hlen ⊢
  by_cases hi : b.val = USB_DT_INTERFACE ∧ 9 ≤ a.val
  · have hii : isInterface (a :: b :: t) := by
      simpa [isInterface, byteAt] using hi
    have h9t := h9 hii
    simp only [List.length_cons] at h9t
    obtain ⟨d0, d1, d2, d3, d4, d5, d6, t', rfl⟩ := list_split7 t (by omega)
    simp only [List.cons_append] at h
    rw [parse_iteration_interface found h hi.1 hi.2]
    by_cases hm : d3.val = USB_CLASS_APP_SPEC ∧ d4.val = USB_SUBCLASS_DFU
    · simp [spec_scan_descriptor, isInterface, isDfuClass, byteAt, hi, hm]
    · simp [spec_scan_descriptor, isInterface, isDfuClass, byteAt, hi, hm]
  · by_cases hf : b.val = USB_DT_DFU_FUNCTIONAL ∧ 7 ≤ a.val ∧ found = true
    · obtain ⟨hb, ha7, rfl⟩ := hf
      have hff : isFunctional (a :: b :: t) := by
        simp only [isFunctional, byteAt]
        exact ⟨hb, ha7⟩
      have h7t := h7 hff rfl
      simp only [List.length_cons] at h7t
      obtain ⟨d0, d1, d2, d3, d4, t', rfl⟩ := list_split5 t (by omega)
      simp only [List.cons_append] at h
      rw [parse_iteration_functional h hb ha7]
      have hni : ¬ isInterface (a :: b :: d0 :: d1 :: d2 :: d3 :: d4 :: t') := by
        simp only [isInterface, byteAt, USB_DT_INTERFACE, USB_DT_DFU_FUNCTIONAL] at hb ⊢
        simp [hb]
      by_cases hz : d3.val + 256 * d4.val < 1
      · have hzz : d3.val + 256 * d4.val = 0 := by omega
        simp only [spec_scan_descriptor, hni, hff, wTransferSize, byteAt]
        simp [hz, hzz]
      · simp only [spec_scan_descriptor, hni, hff, wTransferSize, byteAt]
        simp [hz]
    · rw [parse_iteration_other found h (by omega) hi hf]
      have hni : ¬ isInterface (a :: b :: t) := by
        simpa [isInterface, byteAt] using hi
      have hfn : ¬ (isFunctional (a :: b :: t) ∧ found = true) := by
        simpa [isFunctional, byteAt, and_assoc] using hf
      simp only [spec_scan_descriptor, hni, hfn]
      simp

/-- A run of complete descriptors on which the fold fails ends the scanner
in the fatal error, with the result the fold gives, whatever follows. -/
theorem parse_loop_spec_scan_result : ∀ (ds : List (List Byte)) (tail : List Byte)
    (found : Bool) (s : State) (fuel : Nat), (∀ d ∈ ds, WellFormed d) →
    s.rest = ds.flatten ++ tail →
    spec_scan ds ⟨found, s.interface, s.transfer_size⟩ = none →
    scan_result (parse_loop (ds.length + fuel) found s)
      = spec_scan_result ds ⟨found, s.interface, s.transfer_size⟩ := by
  intro ds
  induction ds with
  | nil =>
    intro tail found s fuel _ _ hn
    simp [spec_scan] at hn
  | cons d ds ih =>
    intro tail found s fuel hwf h hn
    have hd : WellFormed d := hwf d (List.mem_cons_self _ _)
    have hds : ∀ x ∈ ds, WellFormed x := fun x hx => hwf x (List.mem_cons_of_mem _ hx)
    simp only [List.flatten_cons, List.append_assoc] at h
    have hstep := parse_iteration_present found h hd.1 (by rw [hd.2]; exact hd.1)
      (fun hi => by have := hi.2; rw [hd.2] at this; exact this)
      (fun hf _ => by have := hf.2; rw [hd.2] at this; exact this)
    have e : (d :: ds).length + fuel = (ds.length + fuel) + 1 := by simp; omega
    rw [e]
    simp only [spec_scan] at hn
    simp only [spec_scan_result, parse_loop]
    rcases hsd : spec_scan_descriptor d ⟨found, s.interface, s.transfer_size⟩ with _ | a
    · rw [hsd] at hstep
      simp only at hstep
      simp only [hstep, scan_result]
    · rw [hsd] at hstep hn
      simp only at hstep hn
      simp only [hstep]
      have hrest : ({ s with offset := s.offset + byteAt d 0, interface := a.interface,
                              transfer_size := a.transfer_size } : State).rest
          = ds.flatten ++ tail := by
        simp only [State.rest] at h ⊢
        exact drop_of_rest d h (byteAt d 0) hd.2.symm
      exact ih tail a.found _ fuel hds hrest hn

theorem spec_scan_result_some : ∀ (ds : List (List Byte)) (a0 a : Scan),
    spec_scan ds a0 = some a → spec_scan_result ds a0 = (.ok, a.interface, a.transfer_size) := by
  intro ds
  induction ds with
  | nil =>
    intro a0 a h
    simp only [spec_scan, Option.some.injEq] at h
    simp [spec_scan_result, h]
  | cons d ds ih =>
    intro a0 a h
    simp only [spec_scan] at h
    simp only [spec_scan_result]
    rcases hsd : spec_scan_descriptor d a0 with _ | a1
    · rw [hsd] at h
      simp at h
    · rw [hsd] at h
      exact ih a1 a h

/-- The scanner on a stream that begins with complete descriptors on which
the fold succeeds: it goes on behind them with the accumulated values. -/
theorem parse_descriptors_some (ds : List (List Byte)) (tail : List Byte) (s : State)
    (a : Scan) (hstream : s.descriptors = ds.flatten ++ tail) (hoff : s.offset = 0)
    (hwf : ∀ d ∈ ds, WellFormed d)
    (hscan : spec_scan ds ⟨false, s.interface, s.transfer_size⟩ = some a) (n : Nat) :
    parse_descriptors s =
      parse_loop (tail.length / 2 + 1 + n) a.found
        { s with offset := ds.flatten.length, interface := a.interface,
                 transfer_size := a.transfer_size } := by
  have hrest : s.rest = ds.flatten ++ tail := by simp [State.rest, hoff, hstream]
  have h := parse_loop_spec_scan ds tail false s (tail.length / 2 + 1 + n) hwf hrest
  rw [hscan] at h
  simp only [hoff, Nat.zero_add] at h
  have htot : (parse_loop (tail.length / 2 + 1) a.found
      { s with offset := ds.flatten.length, interface := a.interface,
               transfer_size := a.transfer_size }).1 ≠ .outOfFuel := by
    apply parse_loop_total
    simp only [hstream, List.length_append]
    omega
  have hm := parse_loop_mono _ a.found _ n htot
  have htot2 : (parse_loop (tail.length / 2 + 1 + n) a.found
      { s with offset := ds.flatten.length, interface := a.interface,
               transfer_size := a.transfer_size }).1 ≠ .outOfFuel := by
    rw [hm]; exact htot
  exact parse_descriptors_eq hoff h htot2

/-- The scanner on a stream that begins with complete descriptors on which
the fold fails: the result is that of the fold, whatever follows. -/
theorem parse_descriptors_none (ds : List (List Byte)) (tail : List Byte) (s : State)
    (hstream : s.descriptors = ds.flatten ++ tail) (hoff : s.offset = 0)
    (hwf : ∀ d ∈ ds, WellFormed d)
    (hscan : spec_scan ds ⟨false, s.interface, s.transfer_size⟩ = none) :
    scan_result (parse_descriptors s)
      = spec_scan_result ds ⟨false, s.interface, s.transfer_size⟩ := by
  have hrest : s.rest = ds.flatten ++ tail := by simp [State.rest, hoff, hstream]
  have h := parse_loop_spec_scan ds tail false s 0 hwf hrest
  rw [hscan] at h
  obtain ⟨s1, hs1, -⟩ := h
  have hr := parse_loop_spec_scan_result ds tail false s 0 hwf hrest hscan
  have he := parse_descriptors_eq hoff hs1 (by simp)
  rw [he, ← hs1]
  exact hr

/-- A header with `bLength < 2` behind complete descriptors: the scanner ends
the way it ends on the complete descriptors alone, with the same interface
number and the same transfer size. -/
theorem parse_descriptors_invalid_length_same (ds : List (List Byte)) (len ty : Byte)
    (R : List Byte) (s : State) (hoff : s.offset = 0) (hwf : ∀ d ∈ ds, WellFormed d)
    (hlen : len.val < 2) :
    scan_result (parse_descriptors { s with descriptors := ds.flatten ++ len :: ty :: R })
      = scan_result (parse_descriptors { s with descriptors := ds.flatten }) ∧
    ((parse_descriptors { s with descriptors := ds.flatten }).1 = .ok →
      (parse_descriptors { s with descriptors := ds.flatten ++ len :: ty :: R }).1 = .ok ∧
      (parse_descriptors { s with descriptors := ds.flatten ++ len :: ty :: R }).2.offset
        = ds.flatten.length + 2) := by
  rcases hscan : spec_scan ds ⟨false, s.interface, s.transfer_size⟩ with _ | a
  · have h1 := parse_descriptors_none ds (len :: ty :: R)
      { s with descriptors := ds.flatten ++ len :: ty :: R } rfl hoff hwf hscan
    have h0 := parse_descriptors_none ds []
      { s with descriptors := ds.flatten } (by simp) hoff hwf hscan
    refine ⟨by rw [h1, h0], ?_⟩
    intro hok
    have hst := parse_descriptors_fatal_of_spec_scan ds []
      { s with descriptors := ds.flatten } (by simp) hoff hwf hscan
    rw [hok] at hst
    simp at hst
  · have h1 := parse_descriptors_some ds (len :: ty :: R)
      { s with descriptors := ds.flatten ++ len :: ty :: R } a rfl hoff hwf hscan 0
    have h0 := parse_descriptors_some ds []
      { s with descriptors := ds.flatten } a (by simp) hoff hwf hscan 0
    have hr1 : ({ s with descriptors := ds.flatten ++ len :: ty :: R,
                         offset := ds.flatten.length, interface := a.interface,
                         transfer_size := a.transfer_size } : State).rest
        = len :: ty :: R := by
      simp [State.rest]
    have hr0 : ({ s with descriptors := ds.flatten,
                         offset := ds.flatten.length, interface := a.interface,
                         transfer_size := a.transfer_size } : State).rest.length < 2 := by
      simp [State.rest]
    simp only [Nat.add_zero] at h1 h0
    rw [parse_loop_end a.found _ _ hr0] at h0
    simp only [parse_loop, parse_iteration_badlen a.found hr1 hlen] at h1
    rw [h1, h0]
    simp [scan_result]

theorem spec_scan_descriptor_take (d : List Byte) (k : Nat) (a : Scan) (h2 : 2 ≤ k)
    (h9 : isInterface d → 9 ≤ k) (h7 : isFunctional d → 7 ≤ k) :
    spec_scan_descriptor (d.take k) a = spec_scan_descriptor d a := by
  have e0 := byteAt_take d k 0 (by omega)
  have e1 := byteAt_take d k 1 (by omega)
  have hi : isInterface (d.take k) ↔ isInterface d := by simp only [isInterface, e0, e1]
  have hf : isFunctional (d.take k) ↔ isFunctional d := by simp only [isFunctional, e0, e1]
  by_cases hid : isInterface d
  · have h := h9 hid
    have e2 := byteAt_take d k 2 (by omega)
    have e5 := byteAt_take d k 5 (by omega)
    have e6 := byteAt_take d k 6 (by omega)
    simp only [spec_scan_descriptor, hi, isDfuClass, e2, e5, e6, hid, if_true]
  · by_cases hfd : isFunctional d
    · have h := h7 hfd
      have e5 := byteAt_take d k 5 (by omega)
      have e6 := byteAt_take d k 6 (by omega)
      simp only [spec_scan_descriptor, hi, hf, wTransferSize, e5, e6, hid, if_false]
    · simp only [spec_scan_descriptor, hi, hf, hid, hfd, false_and, if_false]

theorem parse_loop_end_result (found : Bool) (s : State) (fuel : Nat)
    (h : s.rest.length < 2) :
    scan_result (parse_loop (fuel + 1) found s) = (.ok, s.interface, s.transfer_size) := by
  rw [parse_loop_end found s fuel h]
  rfl

/-- The scanner at the last descriptor of the stream, whose remainder may be
cut short: the part that the iteration reads is present, and the declared
length reaches the end of the stream or beyond. -/
theorem parse_loop_last (found : Bool) (s : State) (d : List Byte) (n : Nat)
    (h : s.rest = d) (h2 : 2 ≤ d.length) (hlen : 2 ≤ byteAt d 0)
    (hcover : d.length ≤ byteAt d 0)
    (h9 : isInterface d → 9 ≤ d.length)
    (h7 : isFunctional d → found = true → 7 ≤ d.length) :
    scan_result (parse_loop (n + 2) found s) =
      match spec_scan_descriptor d ⟨found, s.interface, s.transfer_size⟩ with
      | some a => (.ok, a.interface, a.transfer_size)
      | none => (.fatal (.invalid_transfer_size 0), s.interface, 0) := by
  have hstep := parse_iteration_present found (show s.rest = d ++ [] by simpa using h)
    h2 hlen h9 h7
  have hl := rest_length s
  rw [h] at hl
  rcases hsd : spec_scan_descriptor d ⟨found, s.interface, s.transfer_size⟩ with _ | a
  · rw [hsd] at hstep
    simp only at hstep
    simp only [parse_loop, hstep, scan_result]
  · rw [hsd] at hstep
    simp only at hstep
    simp only [parse_loop, hstep]
    have hr : ({ s with offset := s.offset + byteAt d 0, interface := a.interface,
                        transfer_size := a.transfer_size } : State).rest.length < 2 := by
      rw [rest_length]
      simp only
      omega
    have he := parse_loop_end_result a.found _ n hr
    simp only [parse_loop] at he
    exact he

/-- C16, counterexample: the stream ends inside the skipped remainder of a
functional descriptor (`bLength = 9`, eight bytes present) that follows the
DFU interface descriptor.  The five body bytes were read in full, so the
scanner returns with `transfer_size = 8`, while the complete descriptors
that precede the truncated one give the default 64. -/
theorem truncated_remainder_still_counts :
    WellFormed [9, 0x21, 1, 0, 0, 8, 0, 0, 0] ∧
    (∀ d ∈ ([[9, 4, 5, 0, 0, 0xFE, 1, 0, 0]] : List (List Byte)), WellFormed d) ∧
    scan_result (parse_descriptors (State.init WAIT_IGNORE [1]
      (([[9, 4, 5, 0, 0, 0xFE, 1, 0, 0]] : List (List Byte)).flatten
        ++ ([9, 0x21, 1, 0, 0, 8, 0, 0, 0] : List Byte).take 8) sys_ok)) = (.ok, 5, 8) ∧
    scan_result (parse_descriptors (State.init WAIT_IGNORE [1]
      ([[9, 4, 5, 0, 0, 0xFE, 1, 0, 0]] : List (List Byte)).flatten sys_ok)) = (.ok, 5, 64) :=
  ⟨by decide, by decide, by decide, by decide⟩

/-- A stream that ends partway through a descriptor `d` (the first `k` of its
bytes are present): the scanner ends as on the complete descriptors before
`d` when the stream ends inside the part of `d` that the iteration reads,
and as on the stream with `d` complete when it ends inside the skipped
remainder. -/
theorem parse_descriptors_truncated_same (ds : List (List Byte)) (d : List Byte) (k : Nat)
    (s : State) (hoff : s.offset = 0) (hwf : ∀ x ∈ ds, WellFormed x) (hd : WellFormed d)
    (hk : k < d.length) :
    scan_result (parse_descriptors { s with descriptors := ds.flatten ++ d.take k }) =
      if k < 2 ∨ (isInterface d ∧ k < 9) ∨ (isFunctional d ∧ k < 7) then
        scan_result (parse_descriptors { s with descriptors := ds.flatten })
      else
        scan_result (parse_descriptors { s with descriptors := ds.flatten ++ d }) := by
  rcases hscan : spec_scan ds ⟨false, s.interface, s.transfer_size⟩ with _ | a
  · have h1 := parse_descriptors_none ds (d.take k)
      { s with descriptors := ds.flatten ++ d.take k } rfl hoff hwf hscan
    have h0 := parse_descriptors_none ds []
      { s with descriptors := ds.flatten } (by simp) hoff hwf hscan
    have h2 := parse_descriptors_none ds d
      { s with descriptors := ds.flatten ++ d } rfl hoff hwf hscan
    rw [h1, h0, h2]
    simp
  · have h1 := parse_descriptors_some ds (d.take k)
      { s with descriptors := ds.flatten ++ d.take k } a rfl hoff hwf hscan 1
    have h0 := parse_descriptors_some ds []
      { s with descriptors := ds.flatten } a (by simp) hoff hwf hscan 1
    have h2 := parse_descriptors_some ds d
      { s with descriptors := ds.flatten ++ d } a rfl hoff hwf hscan 1
    have hr1 : ({ s with descriptors := ds.flatten ++ d.take k,
                         offset := ds.flatten.length, interface := a.interface,
                         transfer_size := a.transfer_size } : State).rest = d.take k := by
      simp [State.rest]
    have hr0 : ({ s with descriptors := ds.flatten,
                         offset := ds.flatten.length, interface := a.interface,
                         transfer_size := a.transfer_size } : State).rest.length < 2 := by
      simp [State.rest]
    have hr2 : ({ s with descriptors := ds.flatten ++ d,
                         offset := ds.flatten.length, interface := a.interface,
                         transfer_size := a.transfer_size } : State).rest = d := by
      simp [State.rest]
    have hlk : (d.take k).length = k := by
      rw [List.length_take]; omega
    have r0 := parse_loop_end_result a.found _ (([] : List Byte).length / 2 + 1) hr0
    rw [h1, h0, h2, r0]
    by_cases hk2 : k < 2
    · rw [if_pos (Or.inl hk2)]
      exact parse_loop_end_result a.found _ _ (by rw [hr1, hlk]; exact hk2)
    have hk2 : 2 ≤ k := by omega
    have e0 : byteAt (d.take k) 0 = byteAt d 0 := byteAt_take d k 0 (by omega)
    by_cases hc : (isInterface d ∧ k < 9) ∨ (isFunctional d ∧ k < 7)
    · rw [if_pos (Or.inr hc)]
      obtain ⟨a0, b, t, rfl, hal⟩ := wellFormed_cons hd
      obtain ⟨m, rfl⟩ : ∃ m, k = m + 2 := ⟨k - 2, by omega⟩
      simp only [List.take_succ_cons] at hr1 ⊢
      rcases hc with ⟨hi, h9⟩ | ⟨hf, h7⟩
      · have hb : b.val = USB_DT_INTERFACE := by simpa [isInterface, byteAt] using hi.1
        have ha : 9 ≤ a0.val := by simpa [isInterface, byteAt] using hi.2
        have hit := parse_iteration_interface_short a.found hr1 hb ha
          (by rw [List.length_take]; omega)
        simp only [parse_loop, hit, scan_result]
      · have hb : b.val = USB_DT_DFU_FUNCTIONAL := by simpa [isFunctional, byteAt] using hf.1
        have ha : 7 ≤ a0.val := by simpa [isFunctional, byteAt] using hf.2
        by_cases haf : a.found = true
        · rw [haf]
          have hit := parse_iteration_functional_short hr1 hb ha
            (by rw [List.length_take]; omega)
          simp only [parse_loop, hit, scan_result]
        · have hni : ¬ (b.val = USB_DT_INTERFACE ∧ 9 ≤ a0.val) := by
            simp only [USB_DT_DFU_FUNCTIONAL, USB_DT_INTERFACE] at hb ⊢
            omega
          have hit := parse_iteration_other a.found hr1 (by omega) hni
            (fun h => haf h.2.2)
          simp only [parse_loop, hit]
          have he := parse_loop_end_result a.found
            ({ s with descriptors := ds.flatten ++ a0 :: b :: List.take m t,
                      offset := ds.flatten.length + a0.val, interface := a.interface,
                      transfer_size := a.transfer_size } : State)
            ((a0 :: b :: List.take m t).length / 2)
            (by
              rw [rest_length]
              simp only [List.length_append, List.length_cons, List.length_take]
              omega)
          simp only [parse_loop] at he
          exact he
    · rw [if_neg (by
        intro h
        rcases h with h | h
        · omega
        · exact hc h)]
      have hc9 : isInterface d → 9 ≤ k := fun hi => by
        by_contra h
        exact hc (Or.inl ⟨hi, by omega⟩)
      have hc7 : isFunctional d → 7 ≤ k := fun hf => by
        by_contra h
        exact hc (Or.inr ⟨hf, by omega⟩)
      have e1 : byteAt (d.take k) 1 = byteAt d 1 := byteAt_take d k 1 (by omega)
      have l1 := parse_loop_last a.found _ (d.take k) ((d.take k).length / 2) hr1
        (by omega) (by rw [e0, hd.2]; exact hd.1) (by rw [e0, hd.2]; omega)
        (fun hi => by
          have hi2 : isInterface d := by
            simpa only [isInterface, e0, e1] using hi
          have := hc9 hi2
          omega)
        (fun hf _ => by
          have hf2 : isFunctional d := by
            simpa only [isFunctional, e0, e1] using hf
          have := hc7 hf2
          omega)
      have l2 := parse_loop_last a.found _ d (d.length / 2) hr2
        hd.1 (by rw [hd.2]; exact hd.1) (by rw [hd.2])
        (fun hi => by have := hi.2; rw [hd.2] at this; exact this)
        (fun hf _ => by have := hf.2; rw [hd.2] at this; exact this)
      rw [spec_scan_descriptor_take d k _ hk2 hc9 hc7] at l1
      exact l1.trans l2.symm

theorem last_interface_append_singleton (ds : List (List Byte)) (d : List Byte) :
    last_interface (ds ++ [d]) = if isInterface d then some d else last_interface ds := by
  simp only [last_interface, List.reverse_append, List.reverse_cons, List.reverse_nil,
    List.nil_append, List.singleton_append, List.find?_cons]
  by_cases h : isInterface d <;> simp [h]

/-- The flag of the fold is the class test of the most recent interface
descriptor. -/
theorem spec_scan_found_iff (ds : List (List Byte)) : ∀ (a0 a : Scan),
    spec_scan ds a0 = some a →
    (a.found = true ↔
      match last_interface ds with
      | some d => isDfuClass d
      | none => a0.found = true) := by
  induction ds using List.reverseRecOn with
  | nil =>
    intro a0 a h
    simp only [spec_scan, Option.some.injEq] at h
    simp [last_interface, h]
  | append_singleton ds d ih =>
    intro a0 a h
    rw [spec_scan_append] at h
    rw [last_interface_append_singleton]
    rcases h1 : spec_scan ds a0 with _ | a1
    · rw [h1] at h
      simp at h
    · rw [h1] at h
      simp only [spec_scan] at h
      have ih1 := ih a0 a1 h1
      by_cases hi : isInterface d
      · simp only [spec_scan_descriptor, hi, if_true] at h ⊢
        by_cases hc : isDfuClass d
        · simp only [hc, if_true, Option.some.injEq] at h
          simp [← h, hc]
        · simp only [hc, if_false, Option.some.injEq] at h
          simp [← h, hc]
      · simp only [spec_scan_descriptor, hi, if_false] at h ⊢
        by_cases hf : isFunctional d ∧ a1.found = true
        · simp only [hf, and_self, if_true] at h
          by_cases hz : wTransferSize d < 1
          · simp [hz] at h
          · simp only [hz, if_false, Option.some.injEq] at h
            rw [← ih1, ← h]
            simp [hf.2]
        · simp only [hf, if_false, Option.some.injEq] at h
          rw [← ih1, ← h]

/-- C14: a complete DFU functional descriptor `d` that follows the complete
descriptors `ds` (on which the scan has not ended).  The scanner reaches `d`
with its flag set exactly when the most recent interface descriptor with
`bLength ≥ 9` among `ds` has class 0xFE and subclass 0x01.  In that case the
iteration assigns `wTransferSize` to `transfer_size`, leaves the interface
number, and is fatal exactly when the size is 0.  Otherwise (a later
interface descriptor does not match, or there is none before `d`) the
iteration only moves the cursor over `d`: neither `transfer_size` nor the
interface number changes and there is no fatal error. -/
theorem functional_descriptor_gated (ds : List (List Byte)) (d tail : List Byte)
    (s : State) (a : Scan) (fuel : Nat)
    (hwf : ∀ x ∈ ds, WellFormed x) (hd : WellFormed d) (hf : isFunctional d)
    (hrest : s.rest = ds.flatten ++ (d ++ tail))
    (hscan : spec_scan ds ⟨false, s.interface, s.transfer_size⟩ = some a) :
    parse_loop (ds.length + (fuel + 1)) false s
      = parse_loop (fuel + 1) a.found (s.scanned ds.flatten.length a) ∧
    (a.found = true ↔ insideTarget ds) ∧
    (insideTarget ds →
      (parse_iteration a.found (s.scanned ds.flatten.length a)).2.transfer_size
        = wTransferSize d ∧
      (parse_iteration a.found (s.scanned ds.flatten.length a)).2.interface = a.interface ∧
      ((∃ f, (parse_iteration a.found (s.scanned ds.flatten.length a)).1 = .stop (.fatal f))
        ↔ wTransferSize d = 0)) ∧
    (¬ insideTarget ds →
      parse_iteration a.found (s.scanned ds.flatten.length a)
        = (.next false, (s.scanned ds.flatten.length a).scanned d.length a)) := by
  have h1 := parse_loop_spec_scan ds (d ++ tail) false s (fuel + 1) hwf hrest
  rw [hscan] at h1
  have hflag : a.found = true ↔ insideTarget ds := by
    have h := spec_scan_found_iff ds _ a hscan
    simp only [insideTarget]
    rw [h]
    split <;> simp
  have hrd : (s.scanned ds.flatten.length a).rest = d ++ tail := by
    simp only [State.rest, State.scanned] at hrest ⊢
    exact drop_of_rest ds.flatten hrest _ rfl
  have hstep := parse_iteration_present a.found hrd hd.1 (by rw [hd.2]; exact hd.1)
    (fun hi => by have := hi.2; rw [hd.2] at this; exact this)
    (fun hf _ => by have := hf.2; rw [hd.2] at this; exact this)
  have hni : ¬ isInterface d := by
    intro hi
    have h4 := hi.1
    have h21 := hf.1
    simp only [USB_DT_INTERFACE, USB_DT_DFU_FUNCTIONAL] at h4 h21
    omega
  refine ⟨h1, hflag, ?_, ?_⟩
  · intro hin
    have hfound : a.found = true := hflag.mpr hin
    by_cases hz : wTransferSize d < 1
    · simp only [spec_scan_descriptor, hni, hf, hfound, State.scanned, and_self, if_true,
        if_false, hz] at hstep
      rw [hfound]
      simp only [State.scanned, hstep]
      refine ⟨by omega, trivial, ?_⟩
      constructor
      · intro _; omega
      · intro _; exact ⟨_, rfl⟩
    · simp only [spec_scan_descriptor, hni, hf, hfound, State.scanned, and_self, if_true,
        if_false, hz] at hstep
      rw [hfound]
      simp only [State.scanned, hstep]
      refine ⟨trivial, trivial, ?_⟩
      constructor
      · rintro ⟨f, hff⟩
        simp at hff
      · intro h0; omega
  · intro hout
    have hfound : ¬ a.found = true := fun h => hout (hflag.mp h)
    have hfalse : a.found = false := by simpa using hfound
    rw [hfalse] at hstep ⊢
    simpa [spec_scan_descriptor, hni, hf, State.scanned, hd.2] using hstep

theorem functional_descriptor_gated_witness :
    ¬ insideTarget [[9, 4, 3, 0, 0, 0xFE, 1, 0, 0], [9, 4, 1, 0, 0, 3, 0, 0, 0]] ∧
    parse_iteration (⟨false, 3, 64⟩ : Scan).found
      ((State.init WAIT_IGNORE [1]
        [9, 4, 3, 0, 0, 0xFE, 1, 0, 0, 9, 4, 1, 0, 0, 3, 0, 0, 0, 7, 0x21, 1, 0, 0, 0, 0]
        sys_ok).scanned
        ([[9, 4, 3, 0, 0, 0xFE, 1, 0, 0], [9, 4, 1, 0, 0, 3, 0, 0, 0]] :
          List (List Byte)).flatten.length ⟨false, 3, 64⟩)
      = (.next false,
          ((State.init WAIT_IGNORE [1]
            [9, 4, 3, 0, 0, 0xFE, 1, 0, 0, 9, 4, 1, 0, 0, 3, 0, 0, 0, 7, 0x21, 1, 0, 0, 0, 0]
            sys_ok).scanned
            ([[9, 4, 3, 0, 0, 0xFE, 1, 0, 0], [9, 4, 1, 0, 0, 3, 0, 0, 0]] :
              List (List Byte)).flatten.length ⟨false, 3, 64⟩).scanned
            ([7, 0x21, 1, 0, 0, 0, 0] : List Byte).length ⟨false, 3, 64⟩) :=
  ⟨by decide,
    (functional_descriptor_gated
      [[9, 4, 3, 0, 0, 0xFE, 1, 0, 0], [9, 4, 1, 0, 0, 3, 0, 0, 0]]
      [7, 0x21, 1, 0, 0, 0, 0] []
      (State.init WAIT_IGNORE [1]
        [9, 4, 3, 0, 0, 0xFE, 1, 0, 0, 9, 4, 1, 0, 0, 3, 0, 0, 0, 7, 0x21, 1, 0, 0, 0, 0]
        sys_ok) ⟨false, 3, 64⟩ 1 (by decide) (by decide) (by decide) (by decide)
      (by decide)).2.2.2 (by decide)⟩

theorem dnload_ct_isLoopChunk (number block pos T : Nat) (F : List Byte)
    (hT1 : 1 ≤ T) (hT2 : T ≤ 65535) (hp : pos < F.length) :
    IsLoopChunk F.length T
      (dnload_ct number block (if F.length - pos > T then T else F.length - pos)
        (F.drop pos)) := by
  have hle : (if F.length - pos > T then T else F.length - pos) ≤ T := by
    split <;> omega
  have hle2 : (if F.length - pos > T then T else F.length - pos) ≤ F.length - pos := by
    split <;> omega
  have h1 : 1 ≤ (if F.length - pos > T then T else F.length - pos) := by
    split <;> omega
  have hmod : (if F.length - pos > T then T else F.length - pos) % 65536
      = (if F.length - pos > T then T else F.length - pos) :=
    Nat.mod_eq_of_lt (by omega)
  refine ⟨pos, hp, ?_, ?_, ?_, ?_⟩
  · simp only [dnload_ct, hmod]
  · simp only [dnload_ct, hmod]; exact h1
  · simp only [dnload_ct, hmod]; omega
  · simp only [dnload_ct, hmod, List.length_take, List.length_drop]
    omega

/-- Every DNLOAD that the download loop issues, in whatever way the loop
ends, carries a chunk whose length is between 1 and 65535. -/
theorem download_loop_lengths : ∀ (fuel pos block : Nat) (s : State),
    1 ≤ s.transfer_size → s.transfer_size ≤ 65535 →
    ∃ new, Extends s (download_loop fuel pos block s).2.2 new ∧
      ∀ ct ∈ dnloads new, IsLoopChunk s.firmware.length s.transfer_size ct := by
  intro fuel
  induction fuel with
  | zero =>
    intro pos block s _ _
    exact ⟨[], extends_refl s, by simp [dnloads]⟩
  | succ fuel ih =>
    intro pos block s hT1 hT2
    rw [download_loop]
    by_cases hp : pos < s.firmware_length
    · rw [if_pos hp]
      simp only
      obtain ⟨rets1, hext1, -, -⟩ := dfu_dnload_spec (s.firmware.drop pos)
        (if s.firmware_length - pos > s.transfer_size then s.transfer_size
          else s.firmware_length - pos) block s
      have hchunk := dnload_ct_isLoopChunk s.interface block pos s.transfer_size s.firmware
        hT1 hT2 hp
      generalize dfu_dnload (s.firmware.drop pos)
        (if s.firmware_length - pos > s.transfer_size then s.transfer_size
          else s.firmware_length - pos) block s = r1 at hext1
      simp only [State.firmware_length] at hext1
      obtain ⟨st1, s1⟩ := r1
      simp only at hext1
      have hone : ∀ ct ∈ dnloads [Op.control (dnload_ct s.interface block
          (if s.firmware.length - pos > s.transfer_size then s.transfer_size
            else s.firmware.length - pos) (s.firmware.drop pos)) rets1],
          IsLoopChunk s.firmware.length s.transfer_size ct := by
        intro ct hct
        rw [dnloads_dnload, List.mem_singleton] at hct
        rw [hct]
        exact hchunk
      cases st1 with
      | ok =>
        simp only
        obtain ⟨rets2, tl, hext2, hcase2, -⟩ := dfu_status_wait_spec s1
        have htl : tl = [] ∨ ∃ a b c, tl = [Op.nanosleep a b c] := by
          rcases hcase2 with ⟨-, h, -⟩ | ⟨-, h, -⟩ | ⟨-, a, b, c, h, -⟩
          · exact Or.inl h
          · exact Or.inl h
          · exact Or.inr ⟨a, b, c, h⟩
        have hext12 := Extends.trans hext1 hext2
        have htwo : ∀ ct ∈ dnloads ([Op.control (dnload_ct s.interface block
            (if s.firmware.length - pos > s.transfer_size then s.transfer_size
              else s.firmware.length - pos) (s.firmware.drop pos)) rets1] ++
            (Op.control (getstatus_ct s1.interface) rets2 :: tl)),
            IsLoopChunk s.firmware.length s.transfer_size ct := by
          intro ct hct
          rw [dnloads_append, dnloads_getstatus _ _ _ htl, List.append_nil] at hct
          exact hone ct hct
        generalize dfu_status_wait s1 = r2 at hext2 hext12
        obtain ⟨st2, s2⟩ := r2
        simp only at hext2 hext12
        have hT : s2.transfer_size = s.transfer_size := hext12.2.2.1
        have hF : s2.firmware = s.firmware := hext12.2.2.2.1
        cases st2 with
        | ok =>
          simp only
          split
          · exact ⟨_, hext12, htwo⟩
          · obtain ⟨new', hext', hall'⟩ := ih (pos + s2.transfer_size) ((block + 1) % 65536) s2
              (by rw [hT]; exact hT1) (by rw [hT]; exact hT2)
            refine ⟨_, Extends.trans hext12 hext', ?_⟩
            intro ct hct
            rw [dnloads_append] at hct
            rcases List.mem_append.mp hct with h | h
            · exact htwo ct h
            · have := hall' ct h
              rw [hT, hF] at this
              exact this
        | fatal f => exact ⟨_, hext12, htwo⟩
        | undefined => exact ⟨_, hext12, htwo⟩
        | outOfFuel => exact ⟨_, hext12, htwo⟩
      | fatal f => exact ⟨_, hext1, hone⟩
      | undefined => exact ⟨_, hext1, hone⟩
      | outOfFuel => exact ⟨_, hext1, hone⟩
    · rw [if_neg hp]
      exact ⟨[], extends_refl s, by simp [dnloads]⟩

theorem dnloads_claim (n : Nat) (e : Int) : dnloads [Op.claim_interface n e] = [] := rfl

theorem dnloads_reset (e : Int) : dnloads [Op.reset e] = [] := rfl

theorem dnloads_close : dnloads [Op.close] = [] := rfl

/-- The DNLOAD transfers of a session, in whatever way it ends: chunks of the
download loop, followed by at most the one terminating transfer of length
0. -/
theorem download_session_dnloads (s : State) (hT1 : 1 ≤ s.transfer_size)
    (hT2 : s.transfer_size ≤ 65535) (hs : dnloads s.ops = []) :
    ∃ chunks term, dnloads (download_session s).2.ops = chunks ++ term ∧
      (∀ ct ∈ chunks, IsLoopChunk s.firmware.length s.transfer_size ct) ∧
      (term = [] ∨ ∃ b, term = [dnload_ct s.interface b 0 s.firmware]) := by
  simp only [download_session]
  have hc := (usb_claim_interface_spec s.interface s).1
  generalize usb_claim_interface s.interface s = rc at hc
  obtain ⟨e, s3⟩ := rc
  simp only at hc ⊢
  by_cases he : e = -1
  · rw [if_pos he]
    refine ⟨[], [], ?_, by simp, Or.inl rfl⟩
    simp only [hc.1, dnloads_append, hs, dnloads_claim, List.append_nil]
  rw [if_neg he]
  obtain ⟨new, hextL, hall⟩ := download_loop_lengths (s3.firmware_length + 1) 0 0 s3
    (by rw [hc.2.2.1]; exact hT1) (by rw [hc.2.2.1]; exact hT2)
  rw [hc.2.2.1, hc.2.2.2.1] at hall
  generalize download_loop (s3.firmware_length + 1) 0 0 s3 = rl at hextL
  obtain ⟨stl, bl, s4⟩ := rl
  simp only at hextL
  have hcl := Extends.trans hc hextL
  have hloop : dnloads s4.ops = dnloads new := by
    simp only [hcl.1, dnloads_append, hs, dnloads_claim, List.nil_append]
  cases stl with
  | ok =>
    simp only
    obtain ⟨rets1, hext5, -, -⟩ := dfu_dnload_spec s4.firmware 0 bl s4
    generalize dfu_dnload s4.firmware 0 bl s4 = r5 at hext5
    obtain ⟨st5, s5⟩ := r5
    simp only at hext5
    rw [hcl.2.1, hcl.2.2.2.1] at hext5
    have h5 : dnloads s5.ops = dnloads new ++ [dnload_ct s.interface bl 0 s.firmware] := by
      rw [hext5.1, dnloads_append, hloop, dnloads_dnload]
    cases st5 with
    | ok =>
      simp only
      obtain ⟨rets2, tl, hext6, hcase6, -⟩ := dfu_status_wait_spec s5
      have htl : tl = [] ∨ ∃ a b c, tl = [Op.nanosleep a b c] := by
        rcases hcase6 with ⟨-, h, -⟩ | ⟨-, h, -⟩ | ⟨-, a, b, c, h, -⟩
        · exact Or.inl h
        · exact Or.inl h
        · exact Or.inr ⟨a, b, c, h⟩
      generalize dfu_status_wait s5 = r6 at hext6
      obtain ⟨st6, s6⟩ := r6
      simp only at hext6
      have h6 : dnloads s6.ops = dnloads new ++ [dnload_ct s.interface bl 0 s.firmware] := by
        rw [hext6.1, dnloads_append, h5, dnloads_getstatus _ _ _ htl, List.append_nil]
      cases st6 with
      | ok =>
        simp only
        have hr := usb_reset_spec s6
        generalize usb_reset s6 = r7 at hr
        obtain ⟨e2, s7⟩ := r7
        simp only at hr ⊢
        refine ⟨dnloads new, [dnload_ct s.interface bl 0 s.firmware], ?_, hall,
          Or.inr ⟨bl, rfl⟩⟩
        have h7 : dnloads s7.ops
            = dnloads new ++ [dnload_ct s.interface bl 0 s.firmware] := by
          rw [hr.1, dnloads_append, h6, dnloads_reset, List.append_nil]
        split
        · simp only [State.log, warning, dnloads_append, h7, dnloads_close, List.append_nil]
        · simp only [State.log, dnloads_append, h7, dnloads_close, List.append_nil]
      | fatal f => exact ⟨dnloads new, _, h6, hall, Or.inr ⟨bl, rfl⟩⟩
      | undefined => exact ⟨dnloads new, _, h6, hall, Or.inr ⟨bl, rfl⟩⟩
      | outOfFuel => exact ⟨dnloads new, _, h6, hall, Or.inr ⟨bl, rfl⟩⟩
    | fatal f => exact ⟨dnloads new, _, h5, hall, Or.inr ⟨bl, rfl⟩⟩
    | undefined => exact ⟨dnloads new, _, h5, hall, Or.inr ⟨bl, rfl⟩⟩
    | outOfFuel => exact ⟨dnloads new, _, h5, hall, Or.inr ⟨bl, rfl⟩⟩
  | fatal f => exact ⟨dnloads new, [], by simpa using hloop, hall, Or.inl rfl⟩
  | undefined => exact ⟨dnloads new, [], by simpa using hloop, hall, Or.inl rfl⟩
  | outOfFuel => exact ⟨dnloads new, [], by simpa using hloop, hall, Or.inl rfl⟩

/-- Started with `transfer_size` at its initialiser 64, the scanner either
ends in the fatal error of a zero size or returns with
`1 ≤ transfer_size ≤ 65535`, on every descriptor stream.  And in every run
of `download_firmware` in which the loop cursor does not overflow, the DNLOAD
transfers are chunks issued by the download loop, each with a `wLength`
between 1 and 65535 that equals the `int` length computed by the loop
(nothing is lost in the conversion to `unsigned short`), followed by at most
the terminating transfer of length 0. -/
theorem transfer_size_in_range (wait_type : Nat) (F stream : List Byte)
    (sys : Nat → Reply) (s : State) :
    (((parse_descriptors { s with transfer_size := 64, offset := 0 }).1
          = .fatal (.invalid_transfer_size 0) ∧
        (parse_descriptors { s with transfer_size := 64, offset := 0 }).2.transfer_size = 0) ∨
      ((parse_descriptors { s with transfer_size := 64, offset := 0 }).1 = .ok ∧
        1 ≤ (parse_descriptors { s with transfer_size := 64, offset := 0 }).2.transfer_size ∧
        (parse_descriptors { s with transfer_size := 64, offset := 0 }).2.transfer_size
          ≤ 65535)) ∧
    ((download_firmware (State.init wait_type F stream sys)).1 ≠ .undefined →
      ∃ chunks term,
        dnloads (download_firmware (State.init wait_type F stream sys)).2.ops
          = chunks ++ term ∧
        (∀ ct ∈ chunks, IsLoopChunk F.length
          (download_firmware (State.init wait_type F stream sys)).2.transfer_size ct) ∧
        (term = [] ∨ ∃ b, term =
          [dnload_ct (download_firmware (State.init wait_type F stream sys)).2.interface
            b 0 F])) := by
  refine ⟨parse_descriptors_size _ (by simp) (by simp) rfl, fun _ => ?_⟩
  rcases download_firmware_analysis wait_type F stream sys with
    ⟨-, -, hops⟩ | ⟨-, -, -, hops, -⟩ | ⟨s2, -, -, heq, hops, h1, h2, hF, -⟩
  · exact ⟨[], [], by rw [hops]; rfl, by simp, Or.inl rfl⟩
  · exact ⟨[], [], by rw [hops]; rfl, by simp, Or.inl rfl⟩
  · obtain ⟨chunks, term, hd, hall, hterm⟩ := download_session_dnloads s2 h1 h2
      (by rw [hops]; rfl)
    obtain ⟨hgT, hgI⟩ := download_session_globals s2 h1
    rw [heq, hgT, hgI]
    rw [hF] at hall hterm
    exact ⟨chunks, term, hd, hall, hterm⟩

theorem roundTrips_append (number : Nat) : ∀ (cts1 cts2 : List usbdevfs_ctrltransfer)
    (ops1 ops2 : List Op), RoundTrips number cts1 ops1 → RoundTrips number cts2 ops2 →
    RoundTrips number (cts1 ++ cts2) (ops1 ++ ops2) := by
  intro cts1
  induction cts1 with
  | nil =>
    intro cts2 ops1 ops2 h1 h2
    simp only [RoundTrips] at h1
    subst h1
    simpa using h2
  | cons ct cts ih =>
    intro cts2 ops1 ops2 h1 h2
    obtain ⟨r1, r2, tl, rest, hops, htl, hrest⟩ := h1
    subst hops
    exact ⟨r1, r2, tl, rest ++ ops2, by simp, htl, ih cts2 rest ops2 hrest h2⟩

theorem roundTrips_single (number : Nat) (ct : usbdevfs_ctrltransfer) (rets1 rets2 : List Int)
    (tl : List Op) (htl : tl = [] ∨ ∃ a b c, tl = [Op.nanosleep a b c]) :
    RoundTrips number [ct]
      ([Op.control ct rets1] ++ (Op.control (getstatus_ct number) rets2 :: tl)) :=
  ⟨rets1, rets2, tl, [], by simp, htl, rfl⟩

/-- When every call of the download loop succeeded, its trace is one round
trip per DNLOAD. -/
theorem download_loop_round_trips : ∀ (fuel pos block : Nat) (s : State),
    ∃ new, Extends s (download_loop fuel pos block s).2.2 new ∧
      ((∀ op ∈ new, op.ok) → RoundTrips s.interface (dnloads new) new) := by
  intro fuel
  induction fuel with
  | zero =>
    intro pos block s
    exact ⟨[], extends_refl s, fun _ => rfl⟩
  | succ fuel ih =>
    intro pos block s
    rw [download_loop]
    by_cases hp : pos < s.firmware_length
    · rw [if_pos hp]
      simp only
      obtain ⟨rets1, hext1, hcase1, -⟩ := dfu_dnload_spec (s.firmware.drop pos)
        (if s.firmware_length - pos > s.transfer_size then s.transfer_size
          else s.firmware_length - pos) block s
      generalize dfu_dnload (s.firmware.drop pos)
        (if s.firmware_length - pos > s.transfer_size then s.transfer_size
          else s.firmware_length - pos) block s = r1 at hext1 hcase1
      generalize (if s.firmware_length - pos > s.transfer_size then s.transfer_size
          else s.firmware_length - pos) = len at hext1 hcase1
      obtain ⟨st1, s1⟩ := r1
      simp only at hext1 hcase1
      have hbad1 : st1 ≠ .ok → (∀ op ∈ [Op.control (dnload_ct s.interface block len
          (s.firmware.drop pos)) rets1], op.ok) →
          RoundTrips s.interface (dnloads [Op.control (dnload_ct s.interface block len
            (s.firmware.drop pos)) rets1]) [Op.control (dnload_ct s.interface block len
            (s.firmware.drop pos)) rets1] := by
        intro hne hok
        rcases hcase1 with ⟨-, hf⟩ | ⟨hst, -⟩
        · exact absurd (hok _ (List.mem_singleton_self _)) (failed_not_ok hf)
        · exact absurd hst hne
      cases st1 with
      | ok =>
        simp only
        obtain ⟨rets2, tl, hext2, hcase2, -⟩ := dfu_status_wait_spec s1
        have hI1 : s1.interface = s.interface := hext1.2.1
        rw [hI1] at hext2 hcase2
        have htl : tl = [] ∨ ∃ a b c, tl = [Op.nanosleep a b c] := by
          rcases hcase2 with ⟨-, h, -⟩ | ⟨-, h, -⟩ | ⟨-, a, b, c, h, -⟩
          · exact Or.inl h
          · exact Or.inl h
          · exact Or.inr ⟨a, b, c, h⟩
        have hext12 := Extends.trans hext1 hext2
        have hdn : dnloads ([Op.control (dnload_ct s.interface block len
            (s.firmware.drop pos)) rets1] ++ (Op.control (getstatus_ct s.interface) rets2 :: tl))
            = [dnload_ct s.interface block len (s.firmware.drop pos)] := by
          rw [dnloads_append, dnloads_getstatus _ _ _ htl, List.append_nil, dnloads_dnload]
        have hgroup : RoundTrips s.interface
            (dnloads ([Op.control (dnload_ct s.interface block len
              (s.firmware.drop pos)) rets1] ++
              (Op.control (getstatus_ct s.interface) rets2 :: tl)))
            ([Op.control (dnload_ct s.interface block len (s.firmware.drop pos)) rets1] ++
              (Op.control (getstatus_ct s.interface) rets2 :: tl)) := by
          rw [hdn]
          exact roundTrips_single _ _ _ _ _ htl
        generalize dfu_status_wait s1 = r2 at hext2 hext12 hcase2
        obtain ⟨st2, s2⟩ := r2
        simp only at hext2 hext12 hcase2
        have hI2 : s2.interface = s.interface := hext12.2.1
        cases st2 with
        | ok =>
          simp only
          split
          · exact ⟨_, hext12, fun _ => hgroup⟩
          · obtain ⟨new', hext', hall'⟩ := ih (pos + s2.transfer_size) ((block + 1) % 65536) s2
            refine ⟨_, Extends.trans hext12 hext', ?_⟩
            intro hok
            rw [dnloads_append]
            rw [hI2] at hall'
            exact roundTrips_append _ _ _ _ _ hgroup
              (hall' (fun op hop => hok op (List.mem_append_right _ hop)))
        | fatal f => exact ⟨_, hext12, fun _ => hgroup⟩
        | undefined => exact ⟨_, hext12, fun _ => hgroup⟩
        | outOfFuel => exact ⟨_, hext12, fun _ => hgroup⟩
      | fatal f => exact ⟨_, hext1, hbad1 (by simp)⟩
      | undefined => exact ⟨_, hext1, hbad1 (by simp)⟩
      | outOfFuel => exact ⟨_, hext1, hbad1 (by simp)⟩
    · rw [if_neg hp]
      exact ⟨[], extends_refl s, fun _ => rfl⟩

/-- The interface number that the scanner leaves fits in a byte. -/
theorem parse_loop_interface_lt : ∀ (fuel : Nat) (b : Bool) (s : State),
    s.interface < 256 → (parse_loop fuel b s).2.interface < 256 := by
  intro fuel
  induction fuel with
  | zero => intro b s h; simpa [parse_loop] using h
  | succ fuel ih =>
    intro b s h
    have hi := parse_iteration_iter b s
    rw [parse_loop]
    generalize parse_iteration b s = r at hi
    cases hi
    case eof => simpa using h
    case badlen => simpa using h
    case iface_short => simpa using h
    case func_short => simpa using h
    case iface a b' d0 d1 d2 d3 d4 d5 d6 t hr hb ha =>
      apply ih
      have := d0.isLt
      simp only
      split <;> omega
    case other => exact ih _ _ h
    case func a b' d0 d1 d2 d3 d4 t hfound hr hb ha =>
      by_cases hz : d3.val + 256 * d4.val < 1
      · simp only [hz, if_true]
        exact h
      · simp only [hz, if_false]
        exact ih _ _ h

/-- A session that completes: after the claim of the interface, the trace
is a run of round trips up to the reset and the close. -/
theorem download_session_round_trips (s : State) (hst : (download_session s).1 = .ok) :
    ∃ e body e2,
      (download_session s).2.ops
        = s.ops ++ (.claim_interface s.interface e :: body ++ [.reset e2, .close]) ∧
      ((∀ op ∈ body, op.ok) → RoundTrips s.interface (dnloads body) body) := by
  simp only [download_session] at hst ⊢
  have hc := (usb_claim_interface_spec s.interface s).1
  generalize usb_claim_interface s.interface s = rc at hc hst
  obtain ⟨e, s3⟩ := rc
  simp only at hc hst ⊢
  by_cases he : e = -1
  · rw [if_pos he] at hst
    simp at hst
  rw [if_neg he] at hst ⊢
  obtain ⟨new, hextL, hall⟩ := download_loop_round_trips (s3.firmware_length + 1) 0 0 s3
  rw [hc.2.1] at hall
  generalize download_loop (s3.firmware_length + 1) 0 0 s3 = rl at hextL hst
  obtain ⟨stl, bl, s4⟩ := rl
  simp only at hextL
  have hcl := Extends.trans hc hextL
  cases stl with
  | ok =>
    simp only at hst ⊢
    obtain ⟨rets1, hext5, -, -⟩ := dfu_dnload_spec s4.firmware 0 bl s4
    generalize dfu_dnload s4.firmware 0 bl s4 = r5 at hext5 hst
    obtain ⟨st5, s5⟩ := r5
    simp only at hext5
    rw [hcl.2.1] at hext5
    have h15 := Extends.trans hcl hext5
    cases st5 with
    | ok =>
      simp only at hst ⊢
      obtain ⟨rets2, tl, hext6, hcase6, -⟩ := dfu_status_wait_spec s5
      have htl : tl = [] ∨ ∃ a b c, tl = [Op.nanosleep a b c] := by
        rcases hcase6 with ⟨-, h, -⟩ | ⟨-, h, -⟩ | ⟨-, a, b, c, h, -⟩
        · exact Or.inl h
        · exact Or.inl h
        · exact Or.inr ⟨a, b, c, h⟩
      rw [h15.2.1] at hext6
      generalize dfu_status_wait s5 = r6 at hext6 hst
      obtain ⟨st6, s6⟩ := r6
      simp only at hext6
      have h16 := Extends.trans h15 hext6
      cases st6 with
      | ok =>
        simp only at hst ⊢
        have hr := usb_reset_spec s6
        generalize usb_reset s6 = r7 at hr
        obtain ⟨e2, s7⟩ := r7
        simp only at hr ⊢
        have h17 := Extends.trans h16 hr
        have hgroup := roundTrips_single s.interface
          (dnload_ct s.interface bl 0 s4.firmware) rets1 rets2 tl htl
        have hdn : dnloads (new ++ ([Op.control (dnload_ct s.interface bl 0 s4.firmware)
            rets1] ++ (Op.control (getstatus_ct s.interface) rets2 :: tl)))
            = dnloads new ++ [dnload_ct s.interface bl 0 s4.firmware] := by
          rw [dnloads_append, dnloads_append, dnloads_getstatus _ _ _ htl, List.append_nil,
            dnloads_dnload]
        refine ⟨e, new ++ ([Op.control (dnload_ct s.interface bl 0 s4.firmware) rets1] ++
          (Op.control (getstatus_ct s.interface) rets2 :: tl)), e2, ?_, ?_⟩
        · have hops : ((if e2 = -1 then warning .cannot_reset_device s7 else s7).log
              .close).ops = s7.ops ++ [.close] := by
            split <;> rfl
          rw [hops, h17.1]
          simp
        · intro hok
          rw [hdn]
          exact roundTrips_append _ _ _ _ _
            (hall (fun op hop => hok op (List.mem_append_left _ hop))) hgroup
      | fatal f => simp at hst
      | undefined => simp at hst
      | outOfFuel => simp at hst
    | fatal f => simp at hst
    | undefined => simp at hst
    | outOfFuel => simp at hst
  | fatal f => simp at hst
  | undefined => simp at hst
  | outOfFuel => simp at hst

/-- The trace while the loop cursor stays in range: a session on firmware `F`
in which every call succeeds (the scanner having left interface number `n`
and transfer size `T > 0`, with `⌈L/T⌉ · T ≤ INT_MAX`) produces exactly this
trace: the open of
the device, `claim_interface(n)`, then one round trip per chunk in order and
one for the terminating block, then the reset and the close.  A round trip
is the DNLOAD (request type 0x21, request 1, `wValue` the block counter,
`wIndex = n`, `wLength` the chunk length) immediately followed by the
GETSTATUS (request type 0xA1, request 3, `wValue = 0`, `wIndex = n`,
`wLength = 6`) and at most one sleep; the terminating DNLOAD has length 0
and carries the next value of the block counter. -/
theorem download_firmware_trace (wait_type : Nat) (F stream : List Byte)
    (sys : Nat → Reply) (n T : Nat)
    (hn : (download_firmware (State.init wait_type F stream sys)).2.interface = n)
    (hTs : (download_firmware (State.init wait_type F stream sys)).2.transfer_size = T)
    (hT : 0 < T)
    (hok : ∀ op ∈ (download_firmware (State.init wait_type F stream sys)).2.ops, op.ok)
    (hfit : chunk_count F.length T * T ≤ INT_MAX) :
    ∃ e body e2,
      (download_firmware (State.init wait_type F stream sys)).2.ops
        = .open (sys 0).ret :: .claim_interface n e :: body ++ [.reset e2, .close] ∧
      RoundTrips n
        (expected_chunks n T F 0 0 (chunk_count F.length T) ++
          [dnload_ct n (chunk_count F.length T % 65536) 0 F]) body ∧
      (∀ k, (chunk_ct n T F 0 0 k).bRequestType = 0x21 ∧
        (chunk_ct n T F 0 0 k).bRequest = 1 ∧
        (chunk_ct n T F 0 0 k).wValue = k % 65536 ∧
        (chunk_ct n T F 0 0 k).wIndex = n ∧
        (chunk_ct n T F 0 0 k).wLength = min T (F.length - k * T)) ∧
      getstatus_ct n = { bRequestType := 0xA1, bRequest := 3, wValue := 0, wIndex := n,
                         wLength := 6, timeout := 500, data := [] } := by
  subst hn hTs
  obtain ⟨h1, h2, h3, -⟩ := download_firmware_complete wait_type F stream sys hT hok
    (fun h => absurd h.2 (Nat.not_lt.mpr hfit))
  rcases download_firmware_analysis wait_type F stream sys with
    ⟨-, hs, -⟩ | ⟨-, -, hs, -⟩ | ⟨s2, -, hpd, heq, hops, hT1, hT2, hF, -⟩
  · rw [hs] at h1
    exact absurd h1 (by simp)
  · rw [hs] at h1
    exact absurd h1 (by simp)
  obtain ⟨hgT, hgI⟩ := download_session_globals s2 hT1
  have hlt : s2.interface < 256 := by
    have h := parse_loop_interface_lt
      ((after_open (State.init wait_type F stream sys)).descriptors.length / 2 + 1) false
      (after_open (State.init wait_type F stream sys)) (by simp [after_open, State.init, State.log])
    have e : parse_loop
        ((after_open (State.init wait_type F stream sys)).descriptors.length / 2 + 1) false
        (after_open (State.init wait_type F stream sys)) = (.ok, s2) := hpd
    rw [e] at h
    exact h
  rw [heq] at h1 h3 hok ⊢
  rw [hgT, hgI] at h3 ⊢
  obtain ⟨e, body, e2, hbody, hrt⟩ := download_session_round_trips s2 h1
  rw [hops] at hbody
  have hbok : ∀ op ∈ body, op.ok := fun op hop =>
    hok op (by rw [hbody]; simp [hop])
  have hdn : dnloads (download_session s2).2.ops = dnloads body := by
    rw [hbody]
    have e1 : ([Op.open (sys 0).ret] ++
        (Op.claim_interface s2.interface e :: body ++ [Op.reset e2, Op.close]))
        = [Op.open (sys 0).ret] ++ ([Op.claim_interface s2.interface e] ++ (body ++
          ([Op.reset e2] ++ [Op.close]))) := by simp
    rw [e1, dnloads_append, dnloads_append, dnloads_append, dnloads_append, dnloads_claim,
      dnloads_reset, dnloads_close]
    simp [dnloads]
  refine ⟨e, body, e2, by simpa using hbody, ?_, ?_, ?_⟩
  · rw [← h3, hdn]
    exact hrt hbok
  · intro k
    simp only [chunk_ct, dnload_ct, Nat.zero_add, Nat.mod_mod, true_and]
    refine ⟨Nat.mod_eq_of_lt (by omega), Nat.mod_eq_of_lt ?_⟩
    have := Nat.min_le_left s2.transfer_size (F.length - k * s2.transfer_size)
    omega
  · simp only [getstatus_ct]
    rw [Nat.mod_eq_of_lt (by omega)]

theorem download_firmware_trace_witness :
    ∃ e body e2,
      (download_firmware (State.init WAIT_BYTE3 [1, 2, 3, 4, 5, 6, 7]
        [9, 4, 3, 0, 0, 0xFE, 1, 0, 0, 7, 0x21, 1, 0, 0, 3, 0] sys_ok)).2.ops
        = .open (sys_ok 0).ret :: .claim_interface 3 e :: body ++ [.reset e2, .close] ∧
      RoundTrips 3
        (expected_chunks 3 3 [1, 2, 3, 4, 5, 6, 7] 0 0
            (chunk_count ([1, 2, 3, 4, 5, 6, 7] : List Byte).length 3) ++
          [dnload_ct 3 (chunk_count ([1, 2, 3, 4, 5, 6, 7] : List Byte).length 3 % 65536) 0
            [1, 2, 3, 4, 5, 6, 7]]) body ∧
      (∀ k, (chunk_ct 3 3 [1, 2, 3, 4, 5, 6, 7] 0 0 k).bRequestType = 0x21 ∧
        (chunk_ct 3 3 [1, 2, 3, 4, 5, 6, 7] 0 0 k).bRequest = 1 ∧
        (chunk_ct 3 3 [1, 2, 3, 4, 5, 6, 7] 0 0 k).wValue = k % 65536 ∧
        (chunk_ct 3 3 [1, 2, 3, 4, 5, 6, 7] 0 0 k).wIndex = 3 ∧
        (chunk_ct 3 3 [1, 2, 3, 4, 5, 6, 7] 0 0 k).wLength
          = min 3 (([1, 2, 3, 4, 5, 6, 7] : List Byte).length - k * 3)) ∧
      getstatus_ct 3 = { bRequestType := 0xA1, bRequest := 3, wValue := 0, wIndex := 3,
                         wLength := 6, timeout := 500, data := [] } :=
  download_firmware_trace WAIT_BYTE3 [1, 2, 3, 4, 5, 6, 7]
    [9, 4, 3, 0, 0, 0xFE, 1, 0, 0, 7, 0x21, 1, 0, 0, 3, 0] sys_ok 3 3
    (by decide) (by decide) (by decide) (by decide) (by decide)

theorem getopt_loop_ops : ∀ (args : List Opt) (firmware device : Option Path) (s : State),
    match getopt_loop args firmware device s with
    | .stop _ s1 => s1.ops = s.ops
    | .go _ _ s1 => s1.ops = s.ops := by
  intro args
  induction args with
  | nil => intro f d s; simp [getopt_loop]
  | cons a rest ih =>
    intro f d s
    cases a <;> simp only [getopt_loop]
    case firmware p => exact ih _ _ _
    case device p => exact ih _ _ _
    case verbose => exact ih _ _ _
    case logger => exact ih _ _ _
    case nowait => exact ih _ _ _
    case waitbyte3 => exact ih _ _ _

/-- C11: when `main` gets as far as `load_firmware` (a firmware file and a
device are named, a wait policy is chosen, the file can be opened) and the
firmware file has length 0, `load_firmware` ends the program with the fatal
error for an empty file, before `download_firmware` is called: the trace of
device operations is empty. -/
theorem empty_firmware_is_rejected (args : List Opt) (DEVICE : Option Path)
    (fs : Path → FirmwareFile) (descriptors : List Byte) (sys : Nat → Reply)
    (firmware device : Path) (s : State)
    (hargs : getopt_loop args none DEVICE (State.init WAIT_STANDARD [] descriptors sys)
      = .go (some firmware) (some device) s)
    (hwait : s.wait_type ≠ WAIT_STANDARD)
    (hopen : (fs firmware).open_ret ≠ -1) (hlen : (fs firmware).seek_end = 0) :
    load_firmware (fs firmware) s = .error .firmware_empty ∧
    (main args DEVICE fs descriptors sys).1 = .load_fatal .firmware_empty ∧
    (main args DEVICE fs descriptors sys).2.ops = [] := by
  have hl : load_firmware (fs firmware) s = .error .firmware_empty := by
    simp [load_firmware, hopen, hlen]
  have hops := getopt_loop_ops args none DEVICE (State.init WAIT_STANDARD [] descriptors sys)
  rw [hargs] at hops
  simp only [State.init] at hops
  refine ⟨hl, ?_, ?_⟩
  · simp only [main, hargs, hwait, if_false, hl]
  · simp only [main, hargs, hwait, if_false, hl]
    exact hops

theorem empty_firmware_is_rejected_witness :
    load_firmware ((fun _ => ⟨3, 0, true, some []⟩ : Path → FirmwareFile) [102, 119])
      { State.init WAIT_STANDARD [] [9, 4, 3, 0, 0, 0xFE, 1, 0, 0] sys_ok with
        wait_type := WAIT_IGNORE } = .error .firmware_empty ∧
    (main [.firmware [102, 119], .device [100, 101, 118], .nowait] none
      (fun _ => ⟨3, 0, true, some []⟩) [9, 4, 3, 0, 0, 0xFE, 1, 0, 0] sys_ok).1
      = .load_fatal .firmware_empty ∧
    (main [.firmware [102, 119], .device [100, 101, 118], .nowait] none
      (fun _ => ⟨3, 0, true, some []⟩) [9, 4, 3, 0, 0, 0xFE, 1, 0, 0] sys_ok).2.ops = [] :=
  empty_firmware_is_rejected [.firmware [102, 119], .device [100, 101, 118], .nowait] none
    (fun _ => ⟨3, 0, true, some []⟩) [9, 4, 3, 0, 0, 0xFE, 1, 0, 0] sys_ok
    [102, 119] [100, 101, 118]
    { State.init WAIT_STANDARD [] [9, 4, 3, 0, 0, 0xFE, 1, 0, 0] sys_ok with
      wait_type := WAIT_IGNORE } rfl (by decide) (by decide) (by decide)

/-- The scanner on a stream of complete descriptors gives the result of the
fold over these descriptors. -/
theorem parse_descriptors_flatten_result (ds : List (List Byte)) (s : State)
    (hoff : s.offset = 0) (hwf : ∀ d ∈ ds, WellFormed d) :
    scan_result (parse_descriptors { s with descriptors := ds.flatten })
      = spec_scan_result ds ⟨false, s.interface, s.transfer_size⟩ := by
  rcases hscan : spec_scan ds ⟨false, s.interface, s.transfer_size⟩ with _ | a
  · exact parse_descriptors_none ds [] { s with descriptors := ds.flatten } (by simp)
      hoff hwf hscan
  · rw [parse_descriptors_spec_scan ds { s with descriptors := ds.flatten } a rfl hoff hwf
      hscan, spec_scan_result_some ds _ a hscan]
    rfl

/-- C15: on a stream `P ++ [len, ty] ++ R`, where `P` is the concatenation of
the complete descriptors `ds` and `len < 2`, the result of
`parse_descriptors` (how it ends, interface number, transfer size) is the
fold of the scanner's rules over `ds`, the same as on `P` alone, for every
`R`.  When no descriptor of `P` is fatal, the scanner returns at that header:
status `ok`, the cursor just behind its two bytes, the interface number and
transfer size accumulated over `P`; the only fatal error possible is that of
a zero-size functional descriptor inside `P`. -/
theorem parse_descriptors_invalid_length (ds : List (List Byte)) (len ty : Byte)
    (R : List Byte) (s : State) (hoff : s.offset = 0) (hwf : ∀ d ∈ ds, WellFormed d)
    (hlen : len.val < 2) :
    scan_result (parse_descriptors { s with descriptors := ds.flatten ++ len :: ty :: R })
      = spec_scan_result ds ⟨false, s.interface, s.transfer_size⟩ ∧
    scan_result (parse_descriptors { s with descriptors := ds.flatten })
      = spec_scan_result ds ⟨false, s.interface, s.transfer_size⟩ ∧
    (∀ a, spec_scan ds ⟨false, s.interface, s.transfer_size⟩ = some a →
      parse_descriptors { s with descriptors := ds.flatten ++ len :: ty :: R }
        = (.ok, { s with descriptors := ds.flatten ++ len :: ty :: R,
                         offset := ds.flatten.length + 2, interface := a.interface,
                         transfer_size := a.transfer_size })) ∧
    (spec_scan ds ⟨false, s.interface, s.transfer_size⟩ = none →
      (parse_descriptors { s with descriptors := ds.flatten ++ len :: ty :: R }).1
        = .fatal (.invalid_transfer_size 0)) := by
  have hsame := (parse_descriptors_invalid_length_same ds len ty R s hoff hwf hlen).1
  have hflat := parse_descriptors_flatten_result ds s hoff hwf
  refine ⟨hsame.trans hflat, hflat, ?_, ?_⟩
  · intro a hscan
    have h1 := parse_descriptors_some ds (len :: ty :: R)
      { s with descriptors := ds.flatten ++ len :: ty :: R } a rfl hoff hwf hscan 0
    have hr1 : ({ s with descriptors := ds.flatten ++ len :: ty :: R,
                         offset := ds.flatten.length, interface := a.interface,
                         transfer_size := a.transfer_size } : State).rest
        = len :: ty :: R := by
      simp [State.rest]
    simp only [Nat.add_zero] at h1
    simp only [parse_loop, parse_iteration_badlen a.found hr1 hlen] at h1
    exact h1
  · intro hscan
    exact parse_descriptors_fatal_of_spec_scan ds (len :: ty :: R)
      { s with descriptors := ds.flatten ++ len :: ty :: R } rfl hoff hwf hscan

theorem parse_descriptors_invalid_length_witness :
    scan_result (parse_descriptors (State.init WAIT_IGNORE [1]
        (([[9, 4, 3, 0, 0, 0xFE, 1, 0, 0], [7, 0x21, 1, 0, 0, 8, 0]] : List (List Byte)).flatten
          ++ 1 :: 4 :: [9, 4, 5, 0, 0, 0xFE, 1, 0, 0]) sys_ok)) = (.ok, 3, 8) :=
  (parse_descriptors_invalid_length
    [[9, 4, 3, 0, 0, 0xFE, 1, 0, 0], [7, 0x21, 1, 0, 0, 8, 0]] 1 4
    [9, 4, 5, 0, 0, 0xFE, 1, 0, 0] (State.init WAIT_IGNORE [1] [] sys_ok) rfl (by decide)
    (by decide)).1.trans (by decide)

/-- C16, amended: on a stream that ends partway through a descriptor `d`
(the complete descriptors `ds`, then the first `k` bytes of `d`),
`parse_descriptors` ends without a fatal error caused by the truncation, and
its result (how it ends, interface number, transfer size) is a fold of the
scanner's rules.  When the stream ends inside the two-byte header, inside
the seven body bytes of an interface descriptor or inside the first seven
bytes of a functional descriptor, the fold is over `ds`: the truncated
descriptor contributes nothing.  When it ends inside the skipped remainder,
the fold is over `ds` and `d`: the descriptor counts as if it were complete.
These folds are also the results on the stream `ds` alone and on the stream
with `d` complete. -/
theorem parse_descriptors_truncated (ds : List (List Byte)) (d : List Byte) (k : Nat)
    (s : State) (hoff : s.offset = 0) (hwf : ∀ x ∈ ds, WellFormed x) (hd : WellFormed d)
    (hk : k < d.length) :
    scan_result (parse_descriptors { s with descriptors := ds.flatten ++ d.take k }) =
      (if k < 2 ∨ (isInterface d ∧ k < 9) ∨ (isFunctional d ∧ k < 7) then
        spec_scan_result ds ⟨false, s.interface, s.transfer_size⟩
      else
        spec_scan_result (ds ++ [d]) ⟨false, s.interface, s.transfer_size⟩) ∧
    scan_result (parse_descriptors { s with descriptors := ds.flatten })
      = spec_scan_result ds ⟨false, s.interface, s.transfer_size⟩ ∧
    scan_result (parse_descriptors { s with descriptors := ds.flatten ++ d })
      = spec_scan_result (ds ++ [d]) ⟨false, s.interface, s.transfer_size⟩ := by
  have hsame := parse_descriptors_truncated_same ds d k s hoff hwf hd hk
  have h0 := parse_descriptors_flatten_result ds s hoff hwf
  have hwf2 : ∀ x ∈ ds ++ [d], WellFormed x := by
    intro x hx
    rcases List.mem_append.mp hx with h | h
    · exact hwf x h
    · rw [List.mem_singleton.mp h]; exact hd
  have h2 := parse_descriptors_flatten_result (ds ++ [d]) s hoff hwf2
  have hfl : (ds ++ [d]).flatten = ds.flatten ++ d := by simp
  rw [hfl] at h2
  refine ⟨?_, h0, h2⟩
  rw [hsame, h0, h2]

theorem parse_descriptors_truncated_witness :
    scan_result (parse_descriptors (State.init WAIT_IGNORE [1]
      (([[9, 4, 5, 0, 0, 0xFE, 1, 0, 0]] : List (List Byte)).flatten
        ++ ([9, 0x21, 1, 0, 0, 8, 0, 0, 0] : List Byte).take 8) sys_ok)) = (.ok, 5, 8) :=
  (parse_descriptors_truncated [[9, 4, 5, 0, 0, 0xFE, 1, 0, 0]]
    [9, 0x21, 1, 0, 0, 8, 0, 0, 0] 8 (State.init WAIT_IGNORE [1] [] sys_ok) rfl
    (by decide) (by decide) (by decide)).1.trans (by decide)

/-- The download loop never ends in the fatal error of a failed claim. -/
theorem download_loop_not_claim_fatal : ∀ (fuel pos block : Nat) (s : State) (n : Nat),
    (download_loop fuel pos block s).1 ≠ .fatal (.cannot_claim_interface n) := by
  intro fuel
  induction fuel with
  | zero => intro pos block s n; simp [download_loop]
  | succ fuel ih =>
    intro pos block s n
    rw [download_loop]
    split
    · simp only
      obtain ⟨rets1, -, hcase1, -⟩ := dfu_dnload_spec (s.firmware.drop pos)
        (if s.firmware_length - pos > s.transfer_size then s.transfer_size
          else s.firmware_length - pos) block s
      generalize dfu_dnload (s.firmware.drop pos)
        (if s.firmware_length - pos > s.transfer_size then s.transfer_size
          else s.firmware_length - pos) block s = r1 at hcase1
      obtain ⟨st1, s1⟩ := r1
      simp only at hcase1
      cases st1 with
      | ok =>
        simp only
        obtain ⟨rets2, tl, -, hcase2, -⟩ := dfu_status_wait_spec s1
        generalize dfu_status_wait s1 = r2 at hcase2
        obtain ⟨st2, s2⟩ := r2
        simp only at hcase2
        cases st2 with
        | ok =>
          simp only
          split
          · simp
          · exact ih _ _ _ _
        | fatal f =>
          simp only
          intro h
          rcases hcase2 with ⟨h1, -, -⟩ | ⟨-, -, h1⟩ | ⟨-, a, b, c, -, h1⟩
          · rw [h1] at h; simp at h
          · simp at h1
          · rw [h1] at h
            split at h <;> simp at h
        | undefined => simp
        | outOfFuel => simp
      | fatal f =>
        simp only
        intro h
        rcases hcase1 with ⟨h1, -⟩ | ⟨h1, -⟩
        · rw [h1] at h; simp at h
        · simp at h1
      | undefined => simp
      | outOfFuel => simp
    · simp

/-- With a non-empty firmware the first call of the download loop is the
DNLOAD of the first chunk. -/
theorem download_loop_head (fuel block : Nat) (s : State) (hL : 0 < s.firmware.length) :
    ∃ rets new, (download_loop (fuel + 1) 0 block s).2.2.ops
      = s.ops ++ .control (dnload_ct s.interface block
          (min s.transfer_size s.firmware.length) s.firmware) rets :: new := by
  rw [download_loop, if_pos (by simpa [State.firmware_length] using hL)]
  simp only
  obtain ⟨rets1, hext1, -, -⟩ := dfu_dnload_spec (s.firmware.drop 0)
    (if s.firmware_length - 0 > s.transfer_size then s.transfer_size
      else s.firmware_length - 0) block s
  have hlen : (if s.firmware_length - 0 > s.transfer_size then s.transfer_size
      else s.firmware_length - 0) = min s.transfer_size s.firmware.length := by
    simp only [State.firmware_length, Nat.sub_zero]
    split
    · rw [Nat.min_eq_left (by omega)]
    · rw [Nat.min_eq_right (by omega)]
  rw [hlen] at hext1 ⊢
  rw [List.drop_zero] at hext1 ⊢
  generalize dfu_dnload s.firmware (min s.transfer_size s.firmware.length) block s = r1
    at hext1
  obtain ⟨st1, s1⟩ := r1
  simp only at hext1
  cases st1 with
  | ok =>
    simp only
    obtain ⟨rets2, tl, hext2, -, -⟩ := dfu_status_wait_spec s1
    generalize dfu_status_wait s1 = r2 at hext2
    obtain ⟨st2, s2⟩ := r2
    simp only at hext2
    have h12 := Extends.trans hext1 hext2
    cases st2 with
    | ok =>
      simp only
      split
      · exact ⟨rets1, _, by rw [h12.1]; rfl⟩
      · obtain ⟨new', hext', -, -⟩ := download_loop_shape fuel (0 + s2.transfer_size)
          ((block + 1) % 65536) s2
        have h := Extends.trans h12 hext'
        exact ⟨rets1, (Op.control (getstatus_ct s1.interface) rets2 :: tl) ++ new',
          by rw [h.1]; simp⟩
    | fatal f => exact ⟨rets1, _, by rw [h12.1]; rfl⟩
    | undefined => exact ⟨rets1, _, by rw [h12.1]; rfl⟩
    | outOfFuel => exact ⟨rets1, _, by rw [h12.1]; rfl⟩
  | fatal f => exact ⟨rets1, [], by rw [hext1.1]⟩
  | undefined => exact ⟨rets1, [], by rw [hext1.1]⟩
  | outOfFuel => exact ⟨rets1, [], by rw [hext1.1]⟩

/-- The session from the claim of the interface on: the claim is the first
call; the session is fatal there exactly when the claim fails, and then
nothing follows; when the claim succeeds the next call is the first DNLOAD
(the first chunk, or the terminating block of an empty firmware). -/
theorem download_session_after_claim (s : State) :
    ∃ tl, (download_session s).2.ops
        = s.ops ++ .claim_interface s.interface (s.sys s.clock).ret :: tl ∧
      ((s.sys s.clock).ret = -1 →
        (download_session s).1 = .fatal (.cannot_claim_interface s.interface) ∧ tl = []) ∧
      ((s.sys s.clock).ret ≠ -1 →
        (download_session s).1 ≠ .fatal (.cannot_claim_interface s.interface) ∧
        ∃ rets tl', tl = .control (dnload_ct s.interface 0
          (min s.transfer_size s.firmware.length) s.firmware) rets :: tl') := by
  have hcl : usb_claim_interface s.interface s = ((s.sys s.clock).ret,
      ({ s with clock := s.clock + 1 } : State).log
        (.claim_interface s.interface (s.sys s.clock).ret)) := rfl
  have hc := (usb_claim_interface_spec s.interface s).1
  rw [hcl] at hc
  simp only at hc
  simp only [download_session, hcl]
  generalize ({ s with clock := s.clock + 1 } : State).log
    (.claim_interface s.interface (s.sys s.clock).ret) = s3 at hc ⊢
  by_cases he : (s.sys s.clock).ret = -1
  · rw [if_pos he]
    exact ⟨[], by rw [hc.1], fun _ => ⟨rfl, rfl⟩, fun h => absurd he h⟩
  rw [if_neg he]
  have hI3 : s3.interface = s.interface := hc.2.1
  have hT3 : s3.transfer_size = s.transfer_size := hc.2.2.1
  have hF3 : s3.firmware = s.firmware := hc.2.2.2.1
  obtain ⟨new, hextL, -, -⟩ := download_loop_shape (s3.firmware_length + 1) 0 0 s3
  have hnc := download_loop_not_claim_fatal (s3.firmware_length + 1) 0 0 s3 s.interface
  have hhead : 0 < s.firmware.length → ∃ rets new', new = .control (dnload_ct s.interface 0
      (min s.transfer_size s.firmware.length) s.firmware) rets :: new' := by
    intro hL
    obtain ⟨rets, new', h⟩ := download_loop_head s3.firmware_length 0 s3
      (by rw [hF3]; exact hL)
    rw [hextL.1] at h
    have h2 := List.append_cancel_left h
    rw [hI3, hT3, hF3] at h2
    exact ⟨rets, new', h2⟩
  have hzero : s.firmware.length = 0 →
      download_loop (s3.firmware_length + 1) 0 0 s3 = (.ok, 0, s3) := by
    intro h0
    rw [download_loop, if_neg (by simp [State.firmware_length, hF3, h0])]
  generalize download_loop (s3.firmware_length + 1) 0 0 s3 = rl at hextL hnc hzero
  obtain ⟨stl, bl, s4⟩ := rl
  simp only at hextL hnc
  have hcl4 := Extends.trans hc hextL
  have key : stl = .ok → ∀ (rets1 : List Int) (X : List Op), ∃ rets tl',
      new ++ (.control (dnload_ct s.interface bl 0 s.firmware) rets1 :: X)
        = .control (dnload_ct s.interface 0
          (min s.transfer_size s.firmware.length) s.firmware) rets :: tl' := by
    intro _ rets1 X
    rcases Nat.eq_zero_or_pos s.firmware.length with h0 | hpos
    · have hz := hzero h0
      simp only [Prod.mk.injEq] at hz
      obtain ⟨-, hb, hs⟩ := hz
      subst hb
      subst hs
      have hnew : new = [] := Extends.unique hextL (extends_refl _)
      rw [hnew, h0]
      exact ⟨rets1, X, by simp⟩
    · obtain ⟨rets, new', h⟩ := hhead hpos
      rw [h]
      exact ⟨rets, new' ++ (.control (dnload_ct s.interface bl 0 s.firmware) rets1 :: X),
        by simp⟩
  have keybad : stl ≠ .ok → ∃ rets tl', new = .control (dnload_ct s.interface 0
      (min s.transfer_size s.firmware.length) s.firmware) rets :: tl' := by
    intro hne
    rcases Nat.eq_zero_or_pos s.firmware.length with h0 | hpos
    · have hz := hzero h0
      simp only [Prod.mk.injEq] at hz
      exact absurd hz.1 hne
    · exact hhead hpos
  cases stl with
  | ok =>
    simp only
    obtain ⟨rets1, hext5, hcase5, -⟩ := dfu_dnload_spec s4.firmware 0 bl s4
    generalize dfu_dnload s4.firmware 0 bl s4 = r5 at hext5 hcase5
    obtain ⟨st5, s5⟩ := r5
    simp only at hext5 hcase5
    rw [hcl4.2.1, hcl4.2.2.2.1] at hext5
    have h15 := Extends.trans hcl4 hext5
    cases st5 with
    | ok =>
      simp only
      obtain ⟨rets2, tl, hext6, hcase6, -⟩ := dfu_status_wait_spec s5
      generalize dfu_status_wait s5 = r6 at hext6 hcase6
      obtain ⟨st6, s6⟩ := r6
      simp only at hext6 hcase6
      have h16 := Extends.trans h15 hext6
      cases st6 with
      | ok =>
        simp only
        have hr := usb_reset_spec s6
        generalize usb_reset s6 = r7 at hr
        obtain ⟨e2, s7⟩ := r7
        simp only at hr ⊢
        have h17 := Extends.trans h16 hr
        have hops : ((if e2 = -1 then warning .cannot_reset_device s7 else s7).log
            .close).ops = s7.ops ++ [.close] := by
          split <;> rfl
        refine ⟨new ++ (.control (dnload_ct s.interface bl 0 s.firmware) rets1 ::
          ((Op.control (getstatus_ct s5.interface) rets2 :: tl) ++ [.reset e2, .close])),
          ?_, fun h => absurd h he, fun _ => ⟨by simp, key rfl _ _⟩⟩
        rw [hops, h17.1]
        simp
      | fatal f =>
        refine ⟨new ++ (.control (dnload_ct s.interface bl 0 s.firmware) rets1 ::
          (Op.control (getstatus_ct s5.interface) rets2 :: tl)),
          ?_, fun h => absurd h he, fun _ => ⟨?_, key rfl _ _⟩⟩
        · rw [h16.1]
          simp
        · simp only
          intro h
          rcases hcase6 with ⟨h1, -, -⟩ | ⟨-, -, h1⟩ | ⟨-, a, b, c, -, h1⟩
          · rw [h1] at h; simp at h
          · simp at h1
          · rw [h1] at h
            split at h <;> simp at h
      | undefined =>
        refine ⟨new ++ (.control (dnload_ct s.interface bl 0 s.firmware) rets1 ::
          (Op.control (getstatus_ct s5.interface) rets2 :: tl)),
          ?_, fun h => absurd h he, fun _ => ⟨by simp, key rfl _ _⟩⟩
        rw [h16.1]
        simp
      | outOfFuel =>
        refine ⟨new ++ (.control (dnload_ct s.interface bl 0 s.firmware) rets1 ::
          (Op.control (getstatus_ct s5.interface) rets2 :: tl)),
          ?_, fun h => absurd h he, fun _ => ⟨by simp, key rfl _ _⟩⟩
        rw [h16.1]
        simp
    | fatal f =>
      refine ⟨new ++ (.control (dnload_ct s.interface bl 0 s.firmware) rets1 :: []),
        ?_, fun h => absurd h he, fun _ => ⟨?_, key rfl _ _⟩⟩
      · rw [h15.1]
        simp
      · simp only
        intro h
        rcases hcase5 with ⟨h1, -⟩ | ⟨h1, -⟩
        · rw [h1] at h; simp at h
        · simp at h1
    | undefined =>
      refine ⟨new ++ (.control (dnload_ct s.interface bl 0 s.firmware) rets1 :: []),
        ?_, fun h => absurd h he, fun _ => ⟨by simp, key rfl _ _⟩⟩
      rw [h15.1]
      simp
    | outOfFuel =>
      refine ⟨new ++ (.control (dnload_ct s.interface bl 0 s.firmware) rets1 :: []),
        ?_, fun h => absurd h he, fun _ => ⟨by simp, key rfl _ _⟩⟩
      rw [h15.1]
      simp
  | fatal f =>
    exact ⟨new, by rw [hcl4.1]; simp, fun h => absurd h he,
      fun _ => ⟨hnc, keybad (by simp)⟩⟩
  | undefined =>
    exact ⟨new, by rw [hcl4.1]; simp, fun h => absurd h he,
      fun _ => ⟨by simp, keybad (by simp)⟩⟩
  | outOfFuel =>
    exact ⟨new, by rw [hcl4.1]; simp, fun h => absurd h he,
      fun _ => ⟨by simp, keybad (by simp)⟩⟩

/-- C3 as amended: when the scanner finds no matching DFU interface and the
device file opens, `download_firmware` does not abort: `interface` keeps its
initial value 0 and the first call after the `open` is `claim_interface(0)`.
The session is fatal at that point exactly when this claim itself fails, and
then nothing further is issued; when the claim succeeds the session goes on:
the next call is the first DNLOAD, addressed to interface 0 with the default
transfer size 64. -/
theorem download_firmware_claims_initial_interface (wait_type : Nat)
    (F stream : List Byte) (sys : Nat → Reply) (hno : NoDfuInterface stream)
    (hopen : (sys 0).ret ≠ -1) :
    ∃ tl, (download_firmware (State.init wait_type F stream sys)).2.ops
        = .open (sys 0).ret :: .claim_interface 0 (sys 1).ret :: tl ∧
      ((sys 1).ret = -1 →
        (download_firmware (State.init wait_type F stream sys)).1
          = .fatal (.cannot_claim_interface 0) ∧ tl = []) ∧
      ((sys 1).ret ≠ -1 →
        (download_firmware (State.init wait_type F stream sys)).1
          ≠ .fatal (.cannot_claim_interface 0) ∧
        ∃ rets tl', tl = .control (dnload_ct 0 0 (min 64 F.length) F) rets :: tl') := by
  have hscan := parse_loop_noDfuInterface (stream.length / 2 + 1)
    (after_open (State.init wait_type F stream sys))
    (by simpa [State.rest, after_open, State.init, State.log] using hno)
  have hpd : parse_descriptors (after_open (State.init wait_type F stream sys))
      = parse_loop (stream.length / 2 + 1) false
          (after_open (State.init wait_type F stream sys)) := rfl
  rw [← hpd] at hscan
  rcases download_firmware_analysis wait_type F stream sys with
    ⟨ho, -, -⟩ | ⟨-, hst, -, -, -, -⟩ |
    ⟨s2, -, hp2, heq, hops2, -, -, hF, hsys, hclock, -, -⟩
  · exact absurd ho hopen
  · rw [hst] at hscan
    rcases hscan.1 with h | h <;> cases h
  · rw [hp2] at hscan
    have hi2 : s2.interface = 0 := by
      simpa [after_open, State.init, State.log] using hscan.2.1
    have hT2 : s2.transfer_size = 64 := by
      simpa [after_open, State.init, State.log] using hscan.2.2
    have hreply : (s2.sys s2.clock).ret = (sys 1).ret := by rw [hsys, hclock]
    obtain ⟨tl, hops, h1, h2⟩ := download_session_after_claim s2
    rw [hi2, hreply, hops2] at hops
    rw [hi2, hreply] at h1
    rw [hi2, hreply, hT2, hF] at h2
    rw [heq]
    exact ⟨tl, hops, h1, h2⟩

/-- C3 as amended, at a concrete session in which the claim (system call
number 1) fails. -/
theorem download_firmware_claims_initial_interface_witness :
    ∃ tl, (download_firmware (State.init WAIT_IGNORE [1] [9, 4, 0, 0, 0, 1, 1, 0, 0]
        (sys_fail_at 1))).2.ops
        = .open ((sys_fail_at 1) 0).ret :: .claim_interface 0 ((sys_fail_at 1) 1).ret :: tl ∧
      (((sys_fail_at 1) 1).ret = -1 →
        (download_firmware (State.init WAIT_IGNORE [1] [9, 4, 0, 0, 0, 1, 1, 0, 0]
          (sys_fail_at 1))).1 = .fatal (.cannot_claim_interface 0) ∧ tl = []) ∧
      (((sys_fail_at 1) 1).ret ≠ -1 →
        (download_firmware (State.init WAIT_IGNORE [1] [9, 4, 0, 0, 0, 1, 1, 0, 0]
          (sys_fail_at 1))).1 ≠ .fatal (.cannot_claim_interface 0) ∧
        ∃ rets tl', tl = .control (dnload_ct 0 0 (min 64 ([1] : List Byte).length) [1]) rets
          :: tl') :=
  download_firmware_claims_initial_interface WAIT_IGNORE [1] [9, 4, 0, 0, 0, 1, 1, 0, 0]
    (sys_fail_at 1) (noDfuInterface_of_suffixes _ (by decide)) (by decide)

theorem roundTrips_ops (number : Nat) : ∀ (cts : List usbdevfs_ctrltransfer)
    (ops : List Op), RoundTrips number cts ops →
    ∀ op ∈ ops, (∃ ct rets, op = .control ct rets) ∨ ∃ a b c, op = .nanosleep a b c := by
  intro cts
  induction cts with
  | nil =>
    intro ops h op hop
    simp only [RoundTrips] at h
    subst h
    simp at hop
  | cons ct cts ih =>
    intro ops h op hop
    obtain ⟨r1, r2, tl, rest, hops, htl, hrest⟩ := h
    subst hops
    simp only [List.mem_cons, List.mem_append] at hop
    rcases hop with h | h | h | h
    · exact Or.inl ⟨_, _, h⟩
    · exact Or.inl ⟨_, _, h⟩
    · rcases htl with h0 | ⟨a, b, c, h1⟩
      · rw [h0] at h; simp at h
      · rw [h1] at h
        simp only [List.mem_singleton] at h
        exact Or.inr ⟨a, b, c, h⟩
    · exact ih rest hrest op h

/-- A session that ends in the overflow of the loop cursor: it ends inside
the download loop; the trace is the claim followed by the calls of the loop,
whose DNLOADs all carry a chunk of 1 to 65535 bytes. -/
theorem download_session_undefined (s : State) (hT1 : 1 ≤ s.transfer_size)
    (hT2 : s.transfer_size ≤ 65535) (hu : (download_session s).1 = .undefined) :
    ∃ new, (download_session s).2.ops
        = s.ops ++ .claim_interface s.interface (s.sys s.clock).ret :: new ∧
      (download_loop (s.firmware.length + 1) 0 0
        (usb_claim_interface s.interface s).2).1 = .undefined ∧
      (∀ ct ∈ dnloads new, IsLoopChunk s.firmware.length s.transfer_size ct) ∧
      ((∀ op ∈ new, op.ok) → RoundTrips s.interface (dnloads new) new) := by
  have hcl : usb_claim_interface s.interface s = ((s.sys s.clock).ret,
      ({ s with clock := s.clock + 1 } : State).log
        (.claim_interface s.interface (s.sys s.clock).ret)) := rfl
  have hc := (usb_claim_interface_spec s.interface s).1
  rw [hcl] at hc ⊢
  simp only at hc ⊢
  simp only [download_session, hcl] at hu ⊢
  generalize ({ s with clock := s.clock + 1 } : State).log
    (.claim_interface s.interface (s.sys s.clock).ret) = s3 at hc hu ⊢
  by_cases he : (s.sys s.clock).ret = -1
  · rw [if_pos he] at hu
    simp at hu
  rw [if_neg he] at hu ⊢
  have hI3 : s3.interface = s.interface := hc.2.1
  have hT3 : s3.transfer_size = s.transfer_size := hc.2.2.1
  have hF3 : s3.firmware = s.firmware := hc.2.2.2.1
  obtain ⟨new, hextL, hlen⟩ := download_loop_lengths (s3.firmware_length + 1) 0 0 s3
    (by rw [hT3]; exact hT1) (by rw [hT3]; exact hT2)
  obtain ⟨new2, hextL2, hrt⟩ := download_loop_round_trips (s3.firmware_length + 1) 0 0 s3
  have hnew : new2 = new := Extends.unique hextL2 hextL
  subst hnew
  rw [hT3, hF3] at hlen
  rw [hI3] at hrt
  have hfl : s3.firmware_length = s.firmware.length := by
    simp only [State.firmware_length, hF3]
  rw [hfl] at hextL hu ⊢
  generalize download_loop (s.firmware.length + 1) 0 0 s3 = rl at hextL hu ⊢
  obtain ⟨stl, bl, s4⟩ := rl
  simp only at hextL ⊢
  have hcl4 := Extends.trans hc hextL
  cases stl with
  | undefined =>
    exact ⟨new2, by rw [hcl4.1]; simp, rfl, hlen, hrt⟩
  | ok =>
    simp only at hu
    obtain ⟨rets1, -, hcase5, -⟩ := dfu_dnload_spec s4.firmware 0 bl s4
    generalize dfu_dnload s4.firmware 0 bl s4 = r5 at hcase5 hu
    obtain ⟨st5, s5⟩ := r5
    simp only at hcase5
    cases st5 with
    | ok =>
      simp only at hu
      obtain ⟨rets2, tl, -, hcase6, -⟩ := dfu_status_wait_spec s5
      generalize dfu_status_wait s5 = r6 at hcase6 hu
      obtain ⟨st6, s6⟩ := r6
      simp only at hcase6
      cases st6 with
      | ok => simp at hu
      | fatal f => simp at hu
      | undefined =>
        rcases hcase6 with ⟨h1, -, -⟩ | ⟨-, -, h1⟩ | ⟨-, a, b, c, -, h1⟩
        · simp at h1
        · simp at h1
        · split at h1 <;> simp at h1
      | outOfFuel => simp at hu
    | fatal f => simp at hu
    | undefined =>
      rcases hcase5 with ⟨h1, -⟩ | ⟨h1, -⟩ <;> simp at h1
    | outOfFuel => simp at hu
  | fatal f => simp at hu
  | outOfFuel => simp at hu

/-- A run in which every reply of the kernel is a success and
`⌈L/T⌉ · T > INT_MAX`: the scanner has returned, every call issued has
succeeded, and the run ends inside the download loop at the overflowing
`pos += transfer_size`; the trace is the open, the claim and round trips of
chunks, nothing else. -/
theorem overflow_run (wait_type : Nat) (F stream : List Byte) (sys : Nat → Reply)
    (hall : ∀ n, 0 ≤ (sys n).ret)
    (hT : 0 < (download_firmware (State.init wait_type F stream sys)).2.transfer_size)
    (hov : INT_MAX < chunk_count F.length
        (download_firmware (State.init wait_type F stream sys)).2.transfer_size *
      (download_firmware (State.init wait_type F stream sys)).2.transfer_size) :
    (download_firmware (State.init wait_type F stream sys)).1 = .undefined ∧
    (∀ op ∈ (download_firmware (State.init wait_type F stream sys)).2.ops, op.ok) ∧
    (parse_descriptors (after_open (State.init wait_type F stream sys))).1 = .ok ∧
    (parse_descriptors (after_open (State.init wait_type F stream sys))).2.transfer_size
      = (download_firmware (State.init wait_type F stream sys)).2.transfer_size ∧
    (download_loop (F.length + 1) 0 0
      (usb_claim_interface
        (parse_descriptors (after_open (State.init wait_type F stream sys))).2.interface
        (parse_descriptors (after_open (State.init wait_type F stream sys))).2).2).1
      = .undefined ∧
    ∃ new, (download_firmware (State.init wait_type F stream sys)).2.ops
        = .open (sys 0).ret ::
          .claim_interface (download_firmware (State.init wait_type F stream sys)).2.interface
            (sys 1).ret :: new ∧
      (∀ ct ∈ dnloads new, IsLoopChunk F.length
        (download_firmware (State.init wait_type F stream sys)).2.transfer_size ct) ∧
      RoundTrips (download_firmware (State.init wait_type F stream sys)).2.interface
        (dnloads new) new := by
  have hu := download_firmware_undefined wait_type F stream sys hall hT hov
  have hok := download_firmware_allSucceed wait_type F stream sys hall
  refine ⟨hu, hok, ?_⟩
  rcases download_firmware_analysis wait_type F stream sys with
    ⟨-, hs, -⟩ | ⟨-, -, hs, -⟩ | ⟨s2, -, hpd, heq, hops, h1, h2, hF, hsys, hclock, -, -⟩
  · rw [hs] at hu
    simp at hu
  · rw [hs] at hu
    simp at hu
  obtain ⟨hgT, hgI⟩ := download_session_globals s2 h1
  rw [heq] at hu hok ⊢
  rw [hgT, hgI, hpd]
  obtain ⟨new, hnew, hloop, hlen, hrt⟩ := download_session_undefined s2 h1 h2 hu
  rw [hF] at hloop hlen
  rw [hops, hsys, hclock] at hnew
  refine ⟨rfl, rfl, hloop, new, hnew, hlen, hrt ?_⟩
  intro op hop
  exact hok op (by rw [hnew]; simp [hop])

/-- The run on `overflow_firmware` and `overflow_descriptors` with every call
succeeding: `L = 2147450881`, `T = 65535`, interface 0, and the facts of
`overflow_run`. -/
theorem overflow_input :
    overflow_firmware.length = 2147450881 ∧
    (download_firmware (State.init WAIT_IGNORE overflow_firmware overflow_descriptors
      sys_ok)).2.transfer_size = 65535 ∧
    (download_firmware (State.init WAIT_IGNORE overflow_firmware overflow_descriptors
      sys_ok)).2.interface = 0 ∧
    (download_firmware (State.init WAIT_IGNORE overflow_firmware overflow_descriptors
      sys_ok)).1 = .undefined ∧
    (∀ op ∈ (download_firmware (State.init WAIT_IGNORE overflow_firmware
      overflow_descriptors sys_ok)).2.ops, op.ok) ∧
    (parse_descriptors (after_open (State.init WAIT_IGNORE overflow_firmware
      overflow_descriptors sys_ok))).1 = .ok ∧
    (parse_descriptors (after_open (State.init WAIT_IGNORE overflow_firmware
      overflow_descriptors sys_ok))).2.transfer_size = 65535 ∧
    (download_loop (overflow_firmware.length + 1) 0 0
      (usb_claim_interface
        (parse_descriptors (after_open (State.init WAIT_IGNORE overflow_firmware
          overflow_descriptors sys_ok))).2.interface
        (parse_descriptors (after_open (State.init WAIT_IGNORE overflow_firmware
          overflow_descriptors sys_ok))).2).2).1 = .undefined ∧
    ∃ new, (download_firmware (State.init WAIT_IGNORE overflow_firmware
        overflow_descriptors sys_ok)).2.ops
        = .open (sys_ok 0).ret :: .claim_interface 0 (sys_ok 1).ret :: new ∧
      (∀ ct ∈ dnloads new, IsLoopChunk 2147450881 65535 ct) ∧
      RoundTrips 0 (dnloads new) new := by
  have hg := download_firmware_of_spec_scan
    [[9, 4, 0, 0, 0, 0xFE, 1, 0, 0], [7, 0x21, 1, 0, 0, 0xFF, 0xFF]] ⟨true, 0, 65535⟩
    WAIT_IGNORE overflow_firmware sys_ok (by simp [sys_ok]) (by decide) (by decide)
  have hflat : ([[9, 4, 0, 0, 0, 0xFE, 1, 0, 0], [7, 0x21, 1, 0, 0, 0xFF, 0xFF]] :
      List (List Byte)).flatten = overflow_descriptors := rfl
  rw [hflat] at hg
  obtain ⟨hT, hI⟩ := hg
  simp only at hT hI
  have hlen : overflow_firmware.length = 2147450881 := List.length_replicate _ _
  have hn : chunk_count 2147450881 65535 = 32769 := by simp [chunk_count]
  obtain ⟨h1, h2, h3, h4, h5, new, h6, h7, h8⟩ := overflow_run WAIT_IGNORE overflow_firmware
    overflow_descriptors sys_ok (fun _ => by simp [sys_ok]) (by rw [hT]; omega)
    (by rw [hT, hlen, hn]; simp [INT_MAX])
  rw [hT] at h4 h7
  rw [hI] at h6 h8
  rw [hlen] at h7
  exact ⟨hlen, hT, hI, h1, h2, h3, h4, h5, new, h6, h7, h8⟩

/-- C5, failing input: a firmware of 2147450881 bytes with transfer size
65535, every transport call succeeding.  The run does not return: it ends at
the overflowing `pos += transfer_size` behind the last chunk, and up to that
point no DNLOAD of length 0 has been sent: every DNLOAD of the trace carries
at least one byte. -/
theorem overflow_run_has_no_terminating_chunk :
    overflow_firmware.length = 2147450881 ∧
    (download_firmware (State.init WAIT_IGNORE overflow_firmware overflow_descriptors
      sys_ok)).2.transfer_size = 65535 ∧
    (∀ op ∈ (download_firmware (State.init WAIT_IGNORE overflow_firmware
      overflow_descriptors sys_ok)).2.ops, op.ok) ∧
    (download_firmware (State.init WAIT_IGNORE overflow_firmware overflow_descriptors
      sys_ok)).1 = .undefined ∧
    ∀ ct ∈ dnloads (download_firmware (State.init WAIT_IGNORE overflow_firmware
      overflow_descriptors sys_ok)).2.ops, 1 ≤ ct.wLength := by
  obtain ⟨hlen, hT, -, hu, hok, -, -, -, new, hops, hchunk, -⟩ := overflow_input
  refine ⟨hlen, hT, hok, hu, ?_⟩
  intro ct hct
  rw [hops] at hct
  have hd : dnloads (Op.open (sys_ok 0).ret :: Op.claim_interface 0 (sys_ok 1).ret :: new)
      = dnloads new := rfl
  rw [hd] at hct
  obtain ⟨p, -, -, h1, -⟩ := hchunk ct hct
  exact h1

/-- C17, failing input: a firmware of 2147450881 bytes with transfer size
65535 and interface 0, every call succeeding.  The trace up to the
overflowing `pos += transfer_size` is not of the form the claim gives: it
does not end with the reset and the close, whatever stands between the claim
and the reset. -/
theorem overflow_run_trace_is_cut :
    (∀ op ∈ (download_firmware (State.init WAIT_IGNORE overflow_firmware
      overflow_descriptors sys_ok)).2.ops, op.ok) ∧
    ¬ ∃ e body e2, (download_firmware (State.init WAIT_IGNORE overflow_firmware
        overflow_descriptors sys_ok)).2.ops
      = .open (sys_ok 0).ret :: .claim_interface 0 e :: body ++ [.reset e2, .close] := by
  obtain ⟨-, -, -, -, hok, -, -, -, new, hops, -, hrt⟩ := overflow_input
  have hkind := roundTrips_ops 0 _ _ hrt
  refine ⟨hok, ?_⟩
  rintro ⟨e, body, e2, h⟩
  rw [hops] at h
  simp only [List.cons_append, List.cons.injEq, true_and] at h
  obtain ⟨-, hnew⟩ := h
  have hmem : Op.close ∈ new := by rw [hnew]; simp
  rcases hkind _ hmem with ⟨_, _, h1⟩ | ⟨_, _, _, h1⟩ <;> cases h1

end Madfu
